import Mathlib

/-! CppBugs: the MCMC engine, embedded and verified

A shallow embedding of `cppbugs.hpp`, `mcmc.math.hpp` and the distribution
headers, followed by theorems about the embedded definitions.

Numeric conventions.
* `double` is idealised as a linearly ordered field `K` (exact arithmetic);
  definitions are generic in `K`, so they evaluate over `ℚ` and are reasoned
  about over `ℝ` where logarithms and exponentials are needed.
* `int` is `ℤ`; a conversion `double → int` truncates toward zero and
  `int / int` is truncated division, as in C++.
* Library functions that are not part of the sources (`log`, `exp`,
  `lgamma`, `chol`, the random number generator, the model object) are
  parameters of the definitions that call them.
* A `for (i = 0; i < n; i++)` loop is a left fold over the indices `0 .. n-1`.
-/

namespace cppbugs

/-! ## Helpers for the embedding -/

/-- The loop `for (size_t i = 0; i < n; i++) body(i)`, threading a state. -/
def forLoop {σ : Type} (n : Nat) (body : Fin n → σ → σ) (init : σ) : σ :=
  (List.finRange n).foldl (fun s i => body i s) init

/-- Conversion `double → int` of C++: truncation toward zero. -/
def truncate {K : Type} [LinearOrderedField K] [FloorRing K] (x : K) : ℤ :=
  if 0 ≤ x then ⌊x⌋ else ⌈x⌉

/-- Element type of an Armadillo payload as C++ arithmetic sees it: the implicit
conversion to `double`, the conversion back on assignment, and the element
type's own `operator/`. -/
class Elem (K : Type) (E : Type) where
  /-- Implicit conversion of an element to `double`. -/
  toDouble : E → K
  /-- Conversion of a `double` on assignment to an element. -/
  ofDouble : K → E
  /-- The quotient computed by `operator/` on two elements. -/
  quot : E → E → E

/-- Elements of `arma::vec` / `arma::mat`: doubles, no conversion. -/
instance realElem {K : Type} [LinearOrderedField K] : Elem K K where
  toDouble := id
  ofDouble := id
  quot := fun a b => a / b

/-- Elements of `arma::ivec` / `arma::imat`: integers; assignment of a double
truncates, division is integer division. (Division by zero is undefined in C++;
no statement below relies on the value `Int.tdiv a 0`.) -/
instance intElem {K : Type} [LinearOrderedField K] [FloorRing K] : Elem K ℤ where
  toDouble := fun z => (z : K)
  ofDouble := truncate
  quot := Int.tdiv

/-- Interface of the random number generator (`mcmc.rng.hpp`, `RngBase`), over an
abstract state `W` of everything outside the node. -/
structure RngBase (K W : Type) where
  /-- The call `rng.normal()`: the draw and the state after it. -/
  normal : W → K × W
  /-- The call `rng.uniform()`: the draw and the state after it. -/
  uniform : W → K × W

/-- Interface of the model (`mcmc.model.base.hpp`, `MCModelBase`) as one node with
payload `T` sees it. The model reads the node's current value by reference, so
`logp` and `update` take it as an argument; `L` is the type of log-densities. -/
structure MCModelBase (W T L : Type) where
  /-- The call `m.logp()`. -/
  logp : T → W → L
  /-- The call `m.update()`: refreshes the deterministic nodes. -/
  update : T → W → W
  /-- The call `m.reject(new_logp, old_logp)`: the verdict and the state after it. -/
  reject : L → L → W → Bool × W

/-! ## `cppbugs.hpp`: tuning factor -/

/-- Function `tune_scale` (cppbugs.hpp:33). -/
def tune_scale {K : Type} [LinearOrderedField K] (acceptance_ratio : K) : K :=
  let univariate_target_ar : K := 0.4
  let dilution : K := 0.2
  let diff : K := acceptance_ratio - univariate_target_ar
  1.0 + diff * dilution

/-! ## `cppbugs.hpp`: node base -/

/-- Class `MCMCSpecialized<T>` (cppbugs.hpp:85) and its specialisation
`MCMCSpecialized<double>` (cppbugs.hpp:107, `T := K`): the fields. -/
structure MCMCSpecialized (T : Type) where
  /-- The current payload. -/
  value : T
  /-- The snapshot taken by `preserve`. -/
  old_value : T
  /-- The tallied values, oldest first. -/
  history : List T

namespace MCMCSpecialized

variable {T : Type}

/-- Constructor `MCMCSpecialized(shape)`: `value(shape), old_value(shape)`. -/
def construct (shape : T) : MCMCSpecialized T :=
  { value := shape, old_value := shape, history := [] }

/-- Method `void preserve() { old_value = value; }`. -/
def preserve (s : MCMCSpecialized T) : MCMCSpecialized T :=
  { s with old_value := s.value }

/-- Method `void revert() { value = old_value; }`. -/
def revert (s : MCMCSpecialized T) : MCMCSpecialized T :=
  { s with value := s.old_value }

/-- Method `void tally() { history.push_back(value); }`. -/
def tally (s : MCMCSpecialized T) : MCMCSpecialized T :=
  { s with history := s.history ++ [s.value] }

/-- A write to the public field `value` (what a jump or a component-wise
assignment `value[i] = x` does to the node base): `value := f value`. -/
def write (f : T → T) (s : MCMCSpecialized T) : MCMCSpecialized T :=
  { s with value := f s.value }

end MCMCSpecialized

/-! ## `cppbugs.hpp`: stochastic nodes -/

/-- Class `Stochastic<T>` (cppbugs.hpp:149) and `Stochastic<double>` (cppbugs.hpp:221):
the fields. For the template, `T` is `Fin n → E` (the `n_elem` elements of a
vector or matrix in storage order); for the specialisation, `T` is `K`. -/
structure Stochastic (T : Type) extends MCMCSpecialized T where
  /-- The flag `observed_`. -/
  observed_ : Bool
  /-- The counter `accepted_`. -/
  accepted_ : T
  /-- The counter `rejected_`. -/
  rejected_ : T
  /-- The proposal scale `scale_`. -/
  scale_ : T

namespace Stochastic

variable {K W L E : Type} [LinearOrderedField K] [Zero E] [One E] [Add E] [Elem K E] {n : Nat}

/-- Constructor `Stochastic(value, observed)` of the template:
`accepted_.fill(0); rejected_.fill(0); scale_.fill(1)`. -/
def construct (value : Fin n → E) (observed : Bool) : Stochastic (Fin n → E) :=
  { toMCMCSpecialized := MCMCSpecialized.construct value
    observed_ := observed
    accepted_ := fun _ => 0
    rejected_ := fun _ => 0
    scale_ := fun _ => 1 }

/-- Body of the loop of `Stochastic<T>::component_jump` (cppbugs.hpp:181-199) for
coordinate `i`. -/
def component_step (rng : RngBase K W) (m : MCModelBase W (Fin n → E) L) (i : Fin n)
    (s : Stochastic (Fin n → E)) (w : W) : Stochastic (Fin n → E) × W :=
  let old_logp := m.logp s.value w
  -- preserve
  let old_value := Function.update s.old_value i (s.value i)
  -- jump
  let draw := rng.normal w
  let value := Function.update s.value i
    (Elem.ofDouble (Elem.toDouble (s.value i) + draw.1 * Elem.toDouble (s.scale_ i)))
  -- update
  let w2 := m.update value draw.2
  -- test
  let verdict := m.reject (m.logp value w2) old_logp w2
  if verdict.1 then
    -- revert
    ({ s with
        value := Function.update value i (old_value i)
        old_value := old_value
        rejected_ := Function.update s.rejected_ i (s.rejected_ i + 1) }, verdict.2)
  else
    ({ s with
        value := value
        old_value := old_value
        accepted_ := Function.update s.accepted_ i (s.accepted_ i + 1) }, verdict.2)

/-- Method `Stochastic<T>::component_jump` (cppbugs.hpp:176). -/
def component_jump (rng : RngBase K W) (m : MCModelBase W (Fin n → E) L)
    (s : Stochastic (Fin n → E)) (w : W) : Stochastic (Fin n → E) × W :=
  if s.observed_ then (s, w)
  else forLoop n (fun i p => component_step rng m i p.1 p.2) (s, w)

/-- Method `Stochastic<T>::tune` (cppbugs.hpp:203). `K` is explicit: it is the type in
which `tune_scale` is evaluated. -/
def tune (K : Type) [LinearOrderedField K] [Elem K E] (s : Stochastic (Fin n → E)) :
    Stochastic (Fin n → E) :=
  if s.observed_ then s
  else
    let ar_ratio : Fin n → E := fun i => Elem.quot K (s.accepted_ i) (s.accepted_ i + s.rejected_ i)
    let scale : Fin n → E := forLoop n (fun i sc =>
      Function.update sc i
        (Elem.ofDouble (Elem.toDouble (sc i) * tune_scale (Elem.toDouble (ar_ratio i) : K)))) s.scale_
    { s with
        scale_ := scale
        accepted_ := fun _ => 0
        rejected_ := fun _ => 0 }

end Stochastic

namespace StochasticDouble

variable {K W L : Type} [LinearOrderedField K]

/-- Constructor of `Stochastic<double>`: `accepted_(0), rejected_(0), scale_(1.0)`. -/
def construct (value : K) (observed : Bool) : Stochastic K :=
  { toMCMCSpecialized := MCMCSpecialized.construct value
    observed_ := observed
    accepted_ := 0
    rejected_ := 0
    scale_ := 1.0 }

/-- Method `Stochastic<double>::component_jump` (cppbugs.hpp:240). -/
def component_jump (rng : RngBase K W) (m : MCModelBase W K L)
    (s : Stochastic K) (w : W) : Stochastic K × W :=
  if s.observed_ then (s, w)
  else
    let old_logp := m.logp s.value w
    let old_value := s.value
    let draw := rng.normal w
    let value := s.value + draw.1 * s.scale_
    let w2 := m.update value draw.2
    let verdict := m.reject (m.logp value w2) old_logp w2
    if verdict.1 then
      ({ s with
          value := old_value
          old_value := old_value
          rejected_ := s.rejected_ + 1 }, verdict.2)
    else
      ({ s with
          value := value
          old_value := old_value
          accepted_ := s.accepted_ + 1 }, verdict.2)

/-- Method `Stochastic<double>::tune` (cppbugs.hpp:256). -/
def tune (s : Stochastic K) : Stochastic K :=
  if s.observed_ then s
  else
    let ar_ratio : K := s.accepted_ / (s.accepted_ + s.rejected_)
    { s with
        scale_ := s.scale_ * tune_scale ar_ratio
        accepted_ := 0
        rejected_ := 0 }

end StochasticDouble

/-! ## A small concrete program, used to evaluate the definitions -/

namespace Demo

/-- A generator whose state counts the calls made so far; the draw returned by
call number `k` is `(k + 1) / 2`. -/
def rng : RngBase ℚ ℕ where
  normal := fun k => (((k : ℚ) + 1) / 2, k + 1)
  uniform := fun k => (1 / 2, k + 1)

/-- A model with constant log-density whose `reject` turns down every second
proposal (those made at an odd state) and advances the state. -/
def model (T : Type) : MCModelBase ℕ T ℚ where
  logp := fun _ _ => 0
  update := fun _ w => w
  reject := fun _ _ w => (decide (w % 2 = 1), w + 1)

end Demo

/-! ## `cppbugs.hpp`: log-factorial with a memo table -/

section Factln

variable {K : Type} [LinearOrderedField K]

/-- The loop `for (int i = n; i > 1; i--) ans *= i;` of `factln_single`. -/
def factln_single_loop (i : ℤ) (ans : K) : K :=
  if 1 < i then factln_single_loop (i - 1) (ans * (i : K)) else ans
termination_by i.toNat
decreasing_by omega

/-- Function `factln_single` (cppbugs.hpp:49); `log` and `lgamma` are the library functions. -/
def factln_single (log lgamma : K → K) (n : ℤ) : K :=
  if n > 100 then lgamma ((n : K) + 1)
  else log (factln_single_loop n 1)

/-- Function `factln(const int i)` (cppbugs.hpp:60). The static `std::map<int,double>` is
passed in and returned: `table k` is `find(k)`, with `none` for `end()`. The
result is a double that may be minus infinity (`⊥`). -/
def factln (log lgamma : K → K) (factln_table : ℤ → Option K) (i : ℤ) :
    WithBot K × (ℤ → Option K) :=
  if i < 0 then (⊥, factln_table)
  else
    match factln_table i with
    | none =>
      let ans := factln_single log lgamma i
      ((ans : WithBot K), Function.update factln_table i (some ans))
    | some second => ((second : WithBot K), factln_table)

/-- The memo table of `factln` after a sequence of earlier queries, starting from
the empty table of program start. -/
def factln_table_after (log lgamma : K → K) (queries : List ℤ) : ℤ → Option K :=
  queries.foldl (fun t q => (factln log lgamma t q).2) (fun _ => none)

namespace arma

/-- Function `arma::factln(const int i)` (mcmc.math.hpp:85). The static
`std::vector<double>` is passed in and returned. `boost::math::factorial<double>(j)`
is the factorial `j!`; `factln_table[i]` is read with a default that is never
used, the table having at least `i + 1` entries at that point. -/
def factln (log lgamma : K → K) (factln_table : List K) (i : ℤ) : WithBot K × List K :=
  if i < 0 then (⊥, factln_table)
  else if i > 100 then ((lgamma ((i : K) + 1) : K), factln_table)
  else
    let table :=
      if (factln_table.length : ℤ) < i + 1 then
        factln_table ++ (List.range' factln_table.length (i.toNat + 1 - factln_table.length)).map
          (fun j => log ((j.factorial : ℕ) : K))
      else factln_table
    ((table.getD i.toNat 0 : K), table)

/-- The memo table of `arma::factln` after a sequence of earlier queries, starting
from the empty table of program start. -/
def factln_table_after (log lgamma : K → K) (queries : List ℤ) : List K :=
  queries.foldl (fun t q => (factln log lgamma t q).2) []

end arma

end Factln

/-- The library function `lgamma` over the reals: `log |Γ(x)|`. -/
noncomputable def lgammaReal (x : ℝ) : ℝ := Real.log |Real.Gamma x|

/-! ## Armadillo matrices of a fixed square order

A `d × d` matrix is `Matrix (Fin d) (Fin d) K`; storage is column-major, so the
element with linear index `p` is the one in row `p % d` and column `p / d`, and the
element in row `i` and column `j` has linear index `i + j * d`. -/

section Arma

variable {K : Type} [LinearOrderedField K] {d : Nat}

/-- Assignment `M[p] = v` through a linear (column-major) index. -/
def setElem (M : Matrix (Fin d) (Fin d) K) (p : ℕ) (v : K) : Matrix (Fin d) (Fin d) K :=
  fun i j => if i.val + j.val * d = p then v else M i j

/-- Read `M[p]` through a linear (column-major) index; indices out of range are
not read by any caller and yield `0`. -/
def elemAt (M : Matrix (Fin d) (Fin d) K) (p : ℕ) : K :=
  if h : p < d * d then
    M ⟨p % d, Nat.mod_lt p (Nat.pos_of_ne_zero (fun h0 => by subst h0; simp at h))⟩
      ⟨p / d, Nat.div_lt_of_lt_mul h⟩
  else 0

/-- Assignment `M.elem(indices) = values`: element-wise assignment through linear indices. -/
def setElems (M : Matrix (Fin d) (Fin d) K) (indices : List ℕ) (values : List K) :
    Matrix (Fin d) (Fin d) K :=
  (indices.zip values).foldl (fun A pv => setElem A pv.1 pv.2) M

/-- Assignment `M.diag() = v`: assignment of the main diagonal. -/
def setDiag (M : Matrix (Fin d) (Fin d) K) (v : Fin d → K) : Matrix (Fin d) (Fin d) K :=
  fun i j => if i = j then v i else M i j

end Arma

/-! ## `mcmc.wishart.hpp` -/

/-- Function `Wishart::lower_diag` (mcmc.wishart.hpp:43): the linear indices of the strictly
lower triangle, in the order the two nested loops write them. -/
def lower_diag (n : ℕ) : List ℕ :=
  (List.range' 1 (n - 1)).flatMap (fun i => (List.range i).map (fun j => i + j * n))

/-- The state of a `Wishart` node of order `d` (mcmc.wishart.hpp:28): the node base
`value`, `old_value`, `history`; the scalar proposal scale `scale_` of
`DynamicStochastic`; the parameters; and the scratch members of the class. `chol`
fails on a non-square matrix, so every constructed node has a square value. -/
structure Wishart (K : Type) (d : Nat) extends MCMCSpecialized (Matrix (Fin d) (Fin d) K) where
  /-- The proposal scale of `DynamicStochastic`, a scalar. -/
  scale_ : K
  /-- The parameter `tau_`. -/
  tau_ : Matrix (Fin d) (Fin d) K
  /-- The parameter `n_`. -/
  n_ : ℤ
  /-- The member `ld_elems_`. -/
  ld_elems_ : List ℕ
  /-- The member `LL`. -/
  LL : Matrix (Fin d) (Fin d) K
  /-- The member `R_log_diag`. -/
  R_log_diag : Fin d → K
  /-- The member `R_offdiag`. -/
  R_offdiag : List K

namespace Wishart

variable {K W : Type} [LinearOrderedField K] {d : Nat}

/-- Constructor `Wishart(value, tau, n)` (mcmc.wishart.hpp:56). `chol` is the
Armadillo factorisation (`none` on failure); `scale` is the initial scale set by
the base class. The shape test against `tau` is carried by the types. A thrown
`logic_error` is `Except.error` with its message. -/
def construct (log exp : K → K)
    (chol : Matrix (Fin d) (Fin d) K → Option (Matrix (Fin d) (Fin d) K)) (scale : K)
    (value tau : Matrix (Fin d) (Fin d) K) (n : ℤ) : Except String (Wishart K d) :=
  let ld_elems_ := lower_diag d
  let LL0 : Matrix (Fin d) (Fin d) K := 0
  if n ≤ 0 then Except.error "ERROR: N <= 0"
  else
    match chol value with
    | none => Except.error "ERROR: value is not positive definite."
    | some R =>
      match chol tau with
      | none => Except.error "ERROR: tau is not positive definite."
      | some _ =>
        let R_log_diag : Fin d → K := fun i => log (R i i)
        let R_offdiag : List K := ld_elems_.map (elemAt R)
        -- recover X to test
        let LL1 := setDiag LL0 (fun i => exp (R_log_diag i))
        let LL2 := setElems LL1 ld_elems_ R_offdiag
        let value_recovered := LL2 * LL2.transpose
        if value ≠ value_recovered then Except.error "did not recover original value."
        else
          Except.ok
            { toMCMCSpecialized := MCMCSpecialized.construct value
              scale_ := scale
              tau_ := tau
              n_ := n
              ld_elems_ := ld_elems_
              LL := LL2
              R_log_diag := R_log_diag
              R_offdiag := R_offdiag }

/-- The loop `for (i = 0; i < v.n_elem; ++i) v[i] += rng.normal() * scale;` on a
vector held as a list. -/
def jumpList (rng : RngBase K W) (scale : K) : List K → W → List K × W
  | [], w => ([], w)
  | x :: xs, w =>
    let draw := rng.normal w
    let rest := jumpList rng scale xs draw.2
    ((x + draw.1 * scale) :: rest.1, rest.2)

/-- Method `Wishart::jump` (mcmc.wishart.hpp:90). -/
def jump (exp : K → K) (rng : RngBase K W) (s : Wishart K d) (w : W) : Wishart K d × W :=
  let step1 := forLoop d (fun i (p : (Fin d → K) × W) =>
    let draw := rng.normal p.2
    (Function.update p.1 i (p.1 i + draw.1 * s.scale_), draw.2)) (s.R_log_diag, w)
  let step2 := jumpList rng s.scale_ s.R_offdiag step1.2
  let LL1 := setDiag s.LL (fun i => exp (step1.1 i))
  let LL2 := setElems LL1 s.ld_elems_ step2.1
  ({ s with
      R_log_diag := step1.1
      R_offdiag := step2.1
      LL := LL2
      value := LL2 * LL2.transpose }, step2.2)

/-- Method `preserve()` as inherited from the node base: `old_value = value`. -/
def preserve (s : Wishart K d) : Wishart K d :=
  { s with toMCMCSpecialized := s.toMCMCSpecialized.preserve }

/-- Method `revert()` as inherited from the node base: `value = old_value`. -/
def revert (s : Wishart K d) : Wishart K d :=
  { s with toMCMCSpecialized := s.toMCMCSpecialized.revert }

/-- Method `tally()` as inherited from the node base: `history.push_back(value)`. -/
def tally (s : Wishart K d) : Wishart K d :=
  { s with toMCMCSpecialized := s.toMCMCSpecialized.tally }

/-- An assignment to the public member `value` from outside the class (as the
inherited component-wise proposal makes): `value := f value`. -/
def write (f : Matrix (Fin d) (Fin d) K → Matrix (Fin d) (Fin d) K) (s : Wishart K d) :
    Wishart K d :=
  { s with toMCMCSpecialized := s.toMCMCSpecialized.write f }

/-- The matrix `L * Lᵀ` reassembled from the stored vectors: `L` has diagonal
`exp(R_log_diag)`, the entries of `R_offdiag` at the strictly-lower positions
`ld_elems_`, and zero elsewhere. -/
def reassembled (exp : K → K) (s : Wishart K d) : Matrix (Fin d) (Fin d) K :=
  let L := setElems (setDiag (0 : Matrix (Fin d) (Fin d) K) (fun i => exp (s.R_log_diag i)))
    s.ld_elems_ s.R_offdiag
  L * L.transpose

/-- The states a `Wishart` node can be in: after a successful construction, and
after any sequence of `jump`, `preserve`, `revert`, `tally`, assignments to the
public member `value`, and changes of the scale (as tuning makes). -/
inductive Reachable (log exp : K → K)
    (chol : Matrix (Fin d) (Fin d) K → Option (Matrix (Fin d) (Fin d) K))
    (rng : RngBase K W) : Wishart K d → Prop
  | construct (scale : K) (value tau : Matrix (Fin d) (Fin d) K) (n : ℤ) (s : Wishart K d) :
      Wishart.construct log exp chol scale value tau n = Except.ok s →
      Reachable log exp chol rng s
  | jump (s : Wishart K d) (w : W) :
      Reachable log exp chol rng s → Reachable log exp chol rng (Wishart.jump exp rng s w).1
  | preserve (s : Wishart K d) :
      Reachable log exp chol rng s → Reachable log exp chol rng s.preserve
  | revert (s : Wishart K d) :
      Reachable log exp chol rng s → Reachable log exp chol rng s.revert
  | rescale (s : Wishart K d) (scale : K) :
      Reachable log exp chol rng s → Reachable log exp chol rng { s with scale_ := scale }
  | tally (s : Wishart K d) :
      Reachable log exp chol rng s → Reachable log exp chol rng s.tally
  | write (s : Wishart K d) (f : Matrix (Fin d) (Fin d) K → Matrix (Fin d) (Fin d) K) :
      Reachable log exp chol rng s → Reachable log exp chol rng (s.write f)

end Wishart

namespace Demo

/-- Cholesky factorisation of a real `1 × 1` matrix: the square root of its entry,
failing when the entry is not positive. -/
noncomputable def chol1 (M : Matrix (Fin 1) (Fin 1) ℝ) : Option (Matrix (Fin 1) (Fin 1) ℝ) :=
  if 0 < M 0 0 then some (fun _ _ => Real.sqrt (M 0 0)) else none

/-- A generator over the reals whose every normal draw is `1`. -/
noncomputable def rngOne : RngBase ℝ ℕ where
  normal := fun k => (1, k + 1)
  uniform := fun k => (0, k + 1)

/-- The Wishart node of order one built by `Wishart(value = [1], tau = [1], n = 1)`
with scale `1` and factorisation `chol1`. -/
noncomputable def wishart1 : Wishart ℝ 1 :=
  { toMCMCSpecialized := MCMCSpecialized.construct 1
    scale_ := 1
    tau_ := 1
    n_ := 1
    ld_elems_ := lower_diag 1
    LL := setElems (setDiag 0 (fun _ => Real.exp (Real.log (Real.sqrt 1)))) (lower_diag 1)
      ((lower_diag 1).map (elemAt (fun _ _ => Real.sqrt 1 : Matrix (Fin 1) (Fin 1) ℝ)))
    R_log_diag := fun _ => Real.log (Real.sqrt 1)
    R_offdiag := (lower_diag 1).map (elemAt (fun _ _ => Real.sqrt 1 : Matrix (Fin 1) (Fin 1) ℝ)) }

end Demo

/-! ## `mcmc.math.hpp`: numeric kernels -/

section Kernels

variable {K : Type} [LinearOrderedField K]

/-- Conversion of an `int` to the unsigned type of `n_rows` / `n_cols`, as the
comparison `X.n_cols > n` performs it: the value modulo `2 ^ 32`. -/
def uwordOfInt (n : ℤ) : ℕ := (n % 2 ^ 32).toNat

/-- Matrix inverse `inv(M)` / `M.i()` of Armadillo on a square matrix: the
adjugate divided by the determinant. (Armadillo fails on a singular matrix; no
statement below inverts one.) -/
def inv {k : ℕ} (M : Matrix (Fin k) (Fin k) K) : Matrix (Fin k) (Fin k) K :=
  M.det⁻¹ • M.adjugate

/-- The view `trimatl(M)`: the lower triangle of `M`, zero above the diagonal. -/
def trimatl {k : ℕ} (M : Matrix (Fin k) (Fin k) K) : Matrix (Fin k) (Fin k) K :=
  fun i j => if j ≤ i then M i j else 0

/-- Function `square` (mcmc.math.hpp:268). -/
def square (x : K) : K := x * x

/-- Function `cholesky_determinant` (mcmc.math.hpp:276): `prod(square(R.diag()))`. -/
def cholesky_determinant {k : ℕ} (R : Matrix (Fin k) (Fin k) K) : K :=
  ∏ i : Fin k, square (R i i)

/-- Function `mahalanobis` on row vectors (mcmc.math.hpp:285):
`as_scalar(err * sigma.i() * err.t())`. -/
def mahalanobis {k : ℕ} (x mu : Fin k → K) (sigma : Matrix (Fin k) (Fin k) K) : K :=
  let err := x - mu
  Matrix.dotProduct (Matrix.vecMul err (inv sigma)) err

/-- Function `mahalanobis_chol` (mcmc.math.hpp:290):
`as_scalar(err * Rinv * Rinv.t() * err.t())` with `Rinv = inv(trimatl(R))`. -/
def mahalanobis_chol {k : ℕ} (x mu : Fin k → K) (R : Matrix (Fin k) (Fin k) K) : K :=
  let err := x - mu
  let Rinv := inv (trimatl R)
  Matrix.dotProduct (Matrix.vecMul (Matrix.vecMul err Rinv) Rinv.transpose) err

/-- Function `multivariate_normal_chol_logp` on a row vector (mcmc.math.hpp:380); `log` and
the constant `pi` are the library's. -/
def multivariate_normal_chol_logp (log : K → K) (pi : K) {k : ℕ} (x mu : Fin k → K)
    (R : Matrix (Fin k) (Fin k) K) : K :=
  let log_2pi := log (2 * pi)
  let ldet := log (cholesky_determinant R)
  (-0.5) * ((k : K) * log_2pi + ldet + mahalanobis_chol x mu R)

/-- Function `multivariate_normal_sigma_logp` on a row vector (mcmc.math.hpp:388); `chol` is
the library's factorisation, `none` on failure. -/
def multivariate_normal_sigma_logp (log : K → K) (pi : K) {k : ℕ}
    (chol : Matrix (Fin k) (Fin k) K → Option (Matrix (Fin k) (Fin k) K))
    (x mu : Fin k → K) (sigma : Matrix (Fin k) (Fin k) K) : WithBot K :=
  match chol sigma with
  | none => ⊥
  | some R => ((multivariate_normal_chol_logp log pi x mu R : K) : WithBot K)

/-- The density the specification states for the covariance form:
`-0.5 * (k * log(2π) + log det(Σ) + (x - μ) Σ⁻¹ (x - μ)ᵀ)`. -/
def multivariate_normal_logp_stated (log : K → K) (pi : K) {k : ℕ} (x mu : Fin k → K)
    (sigma : Matrix (Fin k) (Fin k) K) : K :=
  (-0.5) * ((k : K) * log (2 * pi) + log sigma.det + mahalanobis x mu sigma)

/-- Function `wishart_logp` (mcmc.math.hpp:419). `X` is `xr × xc` and `tau` is `tr × tc`; past
the shape test both are square of one order and are read as such. `log` and
`lgamma` are the library functions; `(n - k - 1)/2` is a quotient of `int`s. -/
def wishart_logp (log lgamma : K → K) {xr xc tr tc : ℕ} (X : Matrix (Fin xr) (Fin xc) K)
    (tau : Matrix (Fin tr) (Fin tc) K) (n : ℤ) : WithBot K :=
  if h : xc ≠ xr ∨ tc ≠ tr ∨ xc ≠ tr ∨ xc > uwordOfInt n then ⊥
  else
    have hx : xr = xc := (Decidable.not_not.mp (fun e => h (Or.inl e))).symm
    have ht : xr = tr := hx.trans
      (Decidable.not_not.mp (fun e => h (Or.inr (Or.inr (Or.inl e)))))
    have htc : xr = tc := ht.trans
      (Decidable.not_not.mp (fun e => h (Or.inr (Or.inl e)))).symm
    let Xs : Matrix (Fin xr) (Fin xr) K := X.submatrix id (Fin.cast hx)
    let taus : Matrix (Fin xr) (Fin xr) K := tau.submatrix (Fin.cast ht) (Fin.cast htc)
    let lg2 := log 2.0
    let k : ℤ := (xc : ℤ)
    let dx := Xs.det
    let db := taus.det
    if dx ≤ 0 ∨ db ≤ 0 then ⊥
    else
      let ldx := log dx
      let ldb := log db
      let bx := Xs * taus
      let tbx := bx.trace
      let cum_lgamma := forLoop xr (fun _ acc => acc + lgamma (((n + 1 : ℤ) : K) / 2.0)) 0
      (((Int.tdiv (n - k - 1) 2 : ℤ) : K) * ldx + ((n : K) / 2.0) * ldb - 0.5 * tbx
        - (((n * k : ℤ) : K) / 2.0) * lg2 - cum_lgamma : K)

/-- The density the specification states for the Wishart distribution, with every
coefficient an exact quotient. -/
def wishart_logp_stated (log lgamma : K → K) {k : ℕ} (X tau : Matrix (Fin k) (Fin k) K)
    (n : ℤ) : K :=
  (((n : K) - (k : K) - 1) / 2) * log X.det + ((n : K) / 2) * log tau.det
    - 0.5 * (X * tau).trace - ((n : K) * (k : K) / 2) * log 2 - (k : K) * lgamma (((n : K) + 1) / 2)

end Kernels

/-! ## `cppbugs.hpp`: whole-block jump -/

section BlockJump

variable {K W E : Type} [LinearOrderedField K] [Elem K E] {n : Nat}

/-- Function `stochastic_jump` on a vector or matrix (cppbugs.hpp:137):
`for (i = 0; i < value.n_elem; i++) value[i] += rng.normal() * scale[i];`. -/
def stochastic_jump (rng : RngBase K W) (value scale : Fin n → E) (w : W) : (Fin n → E) × W :=
  forLoop n (fun i (p : (Fin n → E) × W) =>
    let draw := rng.normal p.2
    (Function.update p.1 i
      (Elem.ofDouble (Elem.toDouble (p.1 i) + draw.1 * Elem.toDouble (scale i))), draw.2))
    (value, w)

/-- Function `stochastic_jump` on a double (cppbugs.hpp:144):
`value += rng.normal() * scale;`. -/
def stochastic_jump_double (rng : RngBase K W) (value scale : K) (w : W) : K × W :=
  let draw := rng.normal w
  (value + draw.1 * scale, draw.2)

/-- Method `Stochastic<T>::jump` (cppbugs.hpp:168). -/
def Stochastic.jump (rng : RngBase K W) (s : Stochastic (Fin n → E)) (w : W) :
    Stochastic (Fin n → E) × W :=
  if s.observed_ then (s, w)
  else
    let r := stochastic_jump rng s.value s.scale_ w
    ({ s with value := r.1 }, r.2)

/-- Method `Stochastic<double>::jump` (cppbugs.hpp:233). -/
def StochasticDouble.jump (rng : RngBase K W) (s : Stochastic K) (w : W) : Stochastic K × W :=
  if s.observed_ then (s, w)
  else
    let r := stochastic_jump_double rng s.value s.scale_ w
    ({ s with value := r.1 }, r.2)

end BlockJump

/-! ## `mcmc.linear.hpp` -/

namespace Linear

variable {K W T U V : Type} [HMul U V T]

/-- Constructor `Linear(x, X, b)` (mcmc.linear.hpp:29): the base is built from `x`,
then `value = X_ * b_`. The parents `X_` and `b_` are held by reference, so their
current values are arguments of every call. -/
def construct (x : T) (X : U) (b : V) : MCMCSpecialized T :=
  { MCMCSpecialized.construct x with value := X * b }

/-- Method `Linear::jump` (mcmc.linear.hpp:32): `value = X_ * b_`. -/
def jump (_rng : RngBase K W) (s : MCMCSpecialized T) (X : U) (b : V) (w : W) :
    MCMCSpecialized T × W :=
  ({ s with value := X * b }, w)

end Linear

/-! ## Armadillo operands with scalar broadcasting

The templated kernels of `mcmc.math.hpp` take scalars, vectors and matrices. An
operand is a scalar or the list of the elements of a vector or matrix in storage
order; a binary element-wise operation broadcasts a scalar over the elements of
the other operand. (Armadillo rejects two non-scalar operands of different
sizes; no statement below combines such operands.) -/

/-- An operand of an element-wise expression: a scalar or the elements of a
vector or matrix. -/
inductive Arr (α : Type) where
  /-- A scalar (`double`, `int`, `bool`). -/
  | scalar (x : α) : Arr α
  /-- The elements of a vector or matrix, in storage order. -/
  | elems (xs : List α) : Arr α

namespace Arr

variable {α β γ : Type}

/-- An element-wise unary operation. -/
def map (f : α → β) : Arr α → Arr β
  | scalar x => scalar (f x)
  | elems xs => elems (xs.map f)

/-- An element-wise binary operation, broadcasting a scalar operand. -/
def zipWith (f : α → β → γ) : Arr α → Arr β → Arr γ
  | scalar a, scalar b => scalar (f a b)
  | scalar a, elems bs => elems (bs.map (f a))
  | elems as, scalar b => elems (as.map (fun a => f a b))
  | elems as, elems bs => elems (List.zipWith f as bs)

/-- The reduction `arma::any(arma::vectorise(mask))`. -/
def any : Arr Bool → Bool
  | scalar b => b
  | elems bs => bs.any id

/-- The reduction `arma::accu`: the sum of the elements (a scalar is its own sum). -/
def accu [Add α] [Zero α] : Arr α → α
  | scalar x => x
  | elems xs => xs.foldl (fun acc x => acc + x) 0

/-- Function `dim_size` (mcmc.math.hpp:241): `1` for a scalar, `n_elem` otherwise. -/
def dim_size : Arr α → ℕ
  | scalar _ => 1
  | elems xs => xs.length

end Arr

section ElementwiseKernels

variable {K : Type} [LinearOrderedField K]

/-- The mask `a < b`, element-wise with broadcasting. -/
def maskLt (a b : Arr K) : Arr Bool := Arr.zipWith (fun x y => decide (x < y)) a b

/-- The mask `a <= b`, element-wise with broadcasting. -/
def maskLe (a b : Arr K) : Arr Bool := Arr.zipWith (fun x y => decide (x ≤ y)) a b

/-- Function `uniform_logp` (mcmc.math.hpp:301). `log` stands for `log_approx`. -/
def uniform_logp (log : K → K) (x lower upper : Arr K) : WithBot K :=
  if (maskLt x lower).any || (maskLt upper x).any then ⊥
  else ((-(Arr.accu (Arr.map log (Arr.zipWith (fun u l => u - l) upper lower))) : K) : WithBot K)

/-- Function `gamma_logp` (mcmc.math.hpp:306). `log` stands for `log_approx`. -/
def gamma_logp (log lgamma : K → K) (x alpha beta : Arr K) : WithBot K :=
  if (maskLt x (Arr.scalar 0)).any then ⊥
  else
    let t1 := Arr.zipWith (fun a b => a * b) (Arr.zipWith (fun a c => a - c) alpha (Arr.scalar 1.0))
      (Arr.map log x)
    let t2 := Arr.zipWith (fun a b => a * b) beta x
    let t3 := Arr.map lgamma alpha
    let t4 := Arr.zipWith (fun a b => a * b) alpha (Arr.map log beta)
    ((Arr.accu (Arr.zipWith (fun a b => a + b)
      (Arr.zipWith (fun a b => a - b) (Arr.zipWith (fun a b => a - b) t1 t2) t3) t4) : K) :
      WithBot K)

/-- Function `bernoulli_logp` (mcmc.math.hpp:357). `log` stands for `log_approx`. -/
def bernoulli_logp (log : K → K) (x p : Arr K) : WithBot K :=
  if (maskLe p (Arr.scalar 0)).any || (maskLe (Arr.scalar 1) p).any
      || (maskLt x (Arr.scalar 0)).any || (maskLt (Arr.scalar 1) x).any then ⊥
  else
    let t1 := Arr.zipWith (fun a b => a * b) x (Arr.map log p)
    let t2 := Arr.zipWith (fun a b => a * b) (Arr.zipWith (fun a b => a - b) (Arr.scalar 1) x)
      (Arr.map log (Arr.zipWith (fun a b => a - b) (Arr.scalar 1) p))
    ((Arr.accu (Arr.zipWith (fun a b => a + b) t1 t2) : K) : WithBot K)

/-- Function `dimension_check` with two hyperparameters (mcmc.math.hpp:443): the
`logic_error` is `Except.error` with its message. -/
def dimension_check {α β γ : Type} (x : Arr α) (hyper1 : Arr β) (hyper2 : Arr γ) :
    Except String Unit :=
  if hyper1.dim_size > x.dim_size ∨ hyper2.dim_size > x.dim_size then
    Except.error "ERROR: dimensions of hyperparmeters are larger than the stochastic variable itself (is this really what you wanted to do?)"
  else Except.ok ()

end ElementwiseKernels

/-! ## `cppbugs.hpp`: distribution nodes with constant parameters

`UniformStatic<T>`, `GammaStatic<T>` and `BinomialStatic<T>` compare `value` with a
scalar inside `?:` and `while`, which is a `bool` only for `T = double`; they are
embedded at `T = double`, on top of `Stochastic<double>`. A `do { } while` loop
takes a fuel: `none` means that the loop was still running when the fuel ran out. -/

/-- A double with the special values of IEEE arithmetic: a finite number, plus or
minus infinity, or not-a-number. -/
inductive Dbl (K : Type) where
  /-- A finite value. -/
  | fin (x : K) : Dbl K
  /-- Plus infinity. -/
  | posInf : Dbl K
  /-- Minus infinity. -/
  | negInf : Dbl K
  /-- Not a number. -/
  | nan : Dbl K
  deriving DecidableEq

namespace Dbl

variable {K : Type} [LinearOrderedField K]

/-- A result that is minus infinity or finite, as a double. -/
def ofWithBot : WithBot K → Dbl K
  | none => negInf
  | some x => fin x

/-- Addition of doubles. -/
def add : Dbl K → Dbl K → Dbl K
  | fin x, fin y => fin (x + y)
  | nan, _ => nan
  | _, nan => nan
  | posInf, negInf => nan
  | negInf, posInf => nan
  | posInf, _ => posInf
  | _, posInf => posInf
  | negInf, _ => negInf
  | _, negInf => negInf

/-- Negation of a double. -/
def neg : Dbl K → Dbl K
  | fin x => fin (-x)
  | posInf => negInf
  | negInf => posInf
  | nan => nan

/-- Subtraction of doubles. -/
def sub (a b : Dbl K) : Dbl K := add a (neg b)

end Dbl

/-- Class `UniformStatic<double>` (cppbugs.hpp:304): the fields. -/
structure UniformStatic (K : Type) extends Stochastic K where
  /-- The bound `lower_`. -/
  lower_ : K
  /-- The bound `upper_`. -/
  upper_ : K

/-- Class `GammaStatic<double>` (cppbugs.hpp:324): the fields. -/
structure GammaStatic (K : Type) extends Stochastic K where
  /-- The parameter `alpha_`. -/
  alpha_ : K
  /-- The parameter `beta_`. -/
  beta_ : K

/-- Class `BinomialStatic<double>` (cppbugs.hpp:344): the fields. -/
structure BinomialStatic (K : Type) extends Stochastic K where
  /-- The parameter `n_`. -/
  n_ : K
  /-- The parameter `p_`. -/
  p_ : K

section StaticNodes

variable {K W : Type} [LinearOrderedField K]

/-- Method `Uniform<double>::logp(lower, upper)` (cppbugs.hpp:299). -/
def Uniform.logp (log : K → K) (s : Stochastic K) (lower upper : K) : WithBot K :=
  if s.value < lower ∨ s.value > upper then ⊥ else ((-(log (upper - lower)) : K) : WithBot K)

/-- Constructor `UniformStatic(x, lower, upper, observed)` (cppbugs.hpp:308). -/
def UniformStatic.construct (x lower upper : K) (observed : Bool) : UniformStatic K :=
  { toStochastic := StochasticDouble.construct x observed
    lower_ := lower
    upper_ := upper }

/-- Method `UniformStatic::logp` (cppbugs.hpp:309). -/
def UniformStatic.logp (log : K → K) (s : UniformStatic K) : WithBot K :=
  if s.value < s.lower_ ∨ s.value > s.upper_ then ⊥
  else ((-(log (s.upper_ - s.lower_)) : K) : WithBot K)

/-- The loop `do { value = oldvalue + rng.normal() * scale_; } while (value < lower_
|| value > upper_);` of `UniformStatic::jump`. -/
def UniformStatic.jump_loop (rng : RngBase K W) (oldvalue scale lower upper : K) :
    ℕ → W → Option (K × W)
  | 0, _ => none
  | fuel + 1, w =>
    let draw := rng.normal w
    let value := oldvalue + draw.1 * scale
    if value < lower ∨ value > upper then
      UniformStatic.jump_loop rng oldvalue scale lower upper fuel draw.2
    else some (value, draw.2)

/-- Method `UniformStatic::jump` (cppbugs.hpp:312). -/
def UniformStatic.jump (rng : RngBase K W) (fuel : ℕ) (s : UniformStatic K) (w : W) :
    Option (UniformStatic K × W) :=
  let oldvalue := s.value
  if s.observed_ then some (s, w)
  else
    (UniformStatic.jump_loop rng oldvalue s.scale_ s.lower_ s.upper_ fuel w).map
      (fun r => ({ s with value := r.1 }, r.2))

/-- Constructor `GammaStatic(x, alpha, beta, observed)` (cppbugs.hpp:328). -/
def GammaStatic.construct (x alpha beta : K) (observed : Bool) : GammaStatic K :=
  { toStochastic := StochasticDouble.construct x observed
    alpha_ := alpha
    beta_ := beta }

/-- Method `GammaStatic::logp` (cppbugs.hpp:329); `accu` of a double is the double. -/
def GammaStatic.logp (log lgamma : K → K) (s : GammaStatic K) : WithBot K :=
  if s.value < 0 then ⊥
  else (((s.alpha_ - 1.0) * log s.value - s.beta_ * s.value - lgamma s.alpha_
    + s.alpha_ * log s.beta_ : K) : WithBot K)

/-- The loop `do { value = oldvalue + rng.normal() * scale_; } while (value < 0);`
of `GammaStatic::jump` and of `BinomialStatic::jump`. -/
def positive_jump_loop (rng : RngBase K W) (oldvalue scale : K) : ℕ → W → Option (K × W)
  | 0, _ => none
  | fuel + 1, w =>
    let draw := rng.normal w
    let value := oldvalue + draw.1 * scale
    if value < 0 then positive_jump_loop rng oldvalue scale fuel draw.2
    else some (value, draw.2)

/-- Method `GammaStatic::jump` (cppbugs.hpp:332). -/
def GammaStatic.jump (rng : RngBase K W) (fuel : ℕ) (s : GammaStatic K) (w : W) :
    Option (GammaStatic K × W) :=
  let oldvalue := s.value
  if s.observed_ then some (s, w)
  else
    (positive_jump_loop rng oldvalue s.scale_ fuel w).map
      (fun r => ({ s with value := r.1 }, r.2))

/-- Constructor `BinomialStatic(x, n, p, observed)` (cppbugs.hpp:351). -/
def BinomialStatic.construct (x n p : K) (observed : Bool) : BinomialStatic K :=
  { toStochastic := StochasticDouble.construct x observed
    n_ := n
    p_ := p }

/-- Method `BinomialStatic::jump` (cppbugs.hpp:355). -/
def BinomialStatic.jump (rng : RngBase K W) (fuel : ℕ) (s : BinomialStatic K) (w : W) :
    Option (BinomialStatic K × W) :=
  let oldvalue := s.value
  if s.observed_ then some (s, w)
  else
    (positive_jump_loop rng oldvalue s.scale_ fuel w).map
      (fun r => ({ s with value := r.1 }, r.2))

end StaticNodes

/-! ## Binomial and categorical log-densities -/

namespace Dbl

variable {K : Type} [LinearOrderedField K]

instance instAdd : Add (Dbl K) := ⟨Dbl.add⟩

instance instSub : Sub (Dbl K) := ⟨Dbl.sub⟩

instance instZero : Zero (Dbl K) := ⟨Dbl.fin 0⟩

end Dbl

section Binomial

variable {K : Type} [LinearOrderedField K] [FloorRing K]

/-- Method `BinomialStatic::logp` with `actual_logp` (cppbugs.hpp:347-354). The
calls `factln(n_)`, `factln(value)`, `factln(n_ - value)` convert their double
argument to `int` and share the memo table, which is passed in and returned (the
calls are made left to right here; C++ leaves their order open). A sum with an
infinite term is formed as IEEE arithmetic forms it. -/
def BinomialStatic.logp (log lgamma : K → K) (factln_table : ℤ → Option K)
    (s : BinomialStatic K) : Dbl K × (ℤ → Option K) :=
  if s.value < 0 then (Dbl.negInf, factln_table)
  else
    let f1 := factln log lgamma factln_table (truncate s.n_)
    let f2 := factln log lgamma f1.2 (truncate s.value)
    let f3 := factln log lgamma f2.2 (truncate (s.n_ - s.value))
    (Dbl.fin (s.value * log s.p_ + (s.n_ - s.value) * log (1 - s.p_))
        + Dbl.ofWithBot f1.1 - Dbl.ofWithBot f2.1 - Dbl.ofWithBot f3.1, f3.2)

/-- The element-wise `arma::factln(a)` on an operand, with the memo table of
`arma::factln(const int)` threaded through the elements in storage order. -/
def arma.factlnArr (log lgamma : K → K) (factln_table : List K) :
    Arr K → Arr (Dbl K) × List K
  | Arr.scalar x =>
    let f := arma.factln log lgamma factln_table (truncate x)
    (Arr.scalar (Dbl.ofWithBot f.1), f.2)
  | Arr.elems xs =>
    let r := xs.foldl (fun (acc : List (Dbl K) × List K) x =>
      let f := arma.factln log lgamma acc.2 (truncate x)
      (acc.1 ++ [Dbl.ofWithBot f.1], f.2)) ([], factln_table)
    (Arr.elems r.1, r.2)

/-- Function `binomial_logp` (mcmc.math.hpp:349). `log` stands for `log_approx`;
the memo table of `arma::factln` is passed in and returned. -/
def binomial_logp (log lgamma : K → K) (factln_table : List K) (x n p : Arr K) :
    Dbl K × List K :=
  if (maskLe p (Arr.scalar 0)).any || (maskLe (Arr.scalar 1) p).any
      || (maskLt x (Arr.scalar 0)).any || (maskLt n x).any then (Dbl.negInf, factln_table)
  else
    let t1 := Arr.zipWith (fun a b => a * b) x (Arr.map log p)
    let t2 := Arr.zipWith (fun a b => a * b) (Arr.zipWith (fun a b => a - b) n x)
      (Arr.map log (Arr.zipWith (fun a b => a - b) (Arr.scalar 1) p))
    let f1 := arma.factlnArr log lgamma factln_table n
    let f2 := arma.factlnArr log lgamma f1.2 x
    let f3 := arma.factlnArr log lgamma f2.2 (Arr.zipWith (fun a b => a - b) n x)
    (Arr.accu (Arr.zipWith (fun a b => a - b)
      (Arr.zipWith (fun a b => a - b)
        (Arr.zipWith (fun a b => a + b)
          (Arr.map Dbl.fin (Arr.zipWith (fun a b => a + b) t1 t2)) f1.1) f2.1) f3.1), f3.2)

end Binomial

section Categorical

variable {K : Type} [LinearOrderedField K]

/-- The read `p(i, j)` of a matrix element, `none` when the position is outside
the matrix. -/
def readMat {r c : ℕ} (p : Fin r → Fin c → K) (i : ℕ) (j : ℤ) : Option K :=
  if h : i < r ∧ 0 ≤ j ∧ j.toNat < c then some (p ⟨i, h.1⟩ ⟨j.toNat, h.2.2⟩) else none

/-- The read `p(j)` / `p[j]` of a vector element, `none` when the index is outside
the vector (a negative `int` converts to an index beyond every vector). -/
def readVec (p : List K) (j : ℤ) : Option K :=
  if 0 ≤ j then p.get? j.toNat else none

/-- Function `categorical_logp(const arma::ivec& x, const arma::mat& p)`
(mcmc.math.hpp:321). The result is `none` if an element outside `p` is read. -/
def categorical_logp_mat (log : K → K) {r c : ℕ} (x : List ℤ) (p : Fin r → Fin c → K) :
    Option (WithBot K) :=
  if decide (∃ i j, p i j ≤ 0) || decide (∃ i j, p i j ≥ 1) || x.any (fun z => decide (z < 0))
      || x.any (fun z => decide (z ≥ (c : ℤ))) then some ⊥
  else
    (x.enum.foldlM (fun (ans : K) (iz : ℕ × ℤ) =>
      (readMat p iz.1 iz.2).map (fun v => ans + log v)) 0).map (fun ans => (ans : WithBot K))

/-- Function `categorical_logp(const arma::ivec& x, const arma::vec& p)`
(mcmc.math.hpp:333). The result is `none` if an element outside `p` is read. -/
def categorical_logp_vec (log : K → K) (x : List ℤ) (p : List K) : Option (WithBot K) :=
  if p.any (fun q => decide (q ≤ 0)) || p.any (fun q => decide (q ≥ 1))
      || x.any (fun z => decide (z < 0)) || x.any (fun z => decide (z ≥ (p.length : ℤ))) then
    some ⊥
  else
    (x.foldlM (fun (ans : K) (z : ℤ) =>
      (readVec p z).map (fun v => ans + log v)) 0).map (fun ans => (ans : WithBot K))

/-- Function `categorical_logp(const int x, const arma::vec& p)`
(mcmc.math.hpp:345): `return log_approx(p[x]);`. The result is `none` if an
element outside `p` is read. -/
def categorical_logp_int (log : K → K) (x : ℤ) (p : List K) : Option (WithBot K) :=
  (readVec p x).map (fun v => ((log v : K) : WithBot K))

end Categorical

/-! ## `mcmc.gamma.hpp` -/

section GammaNode

variable {K W : Type} [LinearOrderedField K]

/-- The proposal of a whole-block jump with a scalar scale: one normal draw per
element, in storage order. -/
def proposeArr (rng : RngBase K W) (scale : K) : Arr K → W → Arr K × W
  | Arr.scalar x, w =>
    let draw := rng.normal w
    (Arr.scalar (x + draw.1 * scale), draw.2)
  | Arr.elems xs, w =>
    let r := Wishart.jumpList rng scale xs w
    (Arr.elems r.1, r.2)

/-- Modelled from the spec: `positive_jump_impl`, which `Gamma::jump` calls and whose
header is not among the sources. "Positive support (Gamma): re-draw the proposal
until every element is ≥ 0", every proposal being the Gaussian random walk from
the value before the jump. The fuel bounds the number of proposals. -/
def positive_jump_impl (rng : RngBase K W) (oldvalue : Arr K) (scale : K) :
    ℕ → W → Option (Arr K × W)
  | 0, _ => none
  | fuel + 1, w =>
    let r := proposeArr rng scale oldvalue w
    if (maskLt r.1 (Arr.scalar 0)).any then positive_jump_impl rng oldvalue scale fuel r.2
    else some r

/-- Class `Gamma<T,U,V>` (mcmc.gamma.hpp:28): the node base and the scalar proposal
scale of `DynamicStochastic`. The parameters `alpha_` and `beta_` are references
to other nodes' values and are arguments of the calls that read them. -/
structure Gamma (K : Type) extends MCMCSpecialized (Arr K) where
  /-- The proposal scale of `DynamicStochastic`, a scalar. -/
  scale_ : K

/-- Constructor `Gamma(value, alpha, beta)` (mcmc.gamma.hpp:35): the base is built
from `value`, then `dimension_check(value, alpha_, beta_)`. `scale` is the initial
scale set by the base class. -/
def Gamma.construct (scale : K) (value alpha beta : Arr K) : Except String (Gamma K) :=
  match dimension_check value alpha beta with
  | Except.error e => Except.error e
  | Except.ok _ =>
    Except.ok { toMCMCSpecialized := MCMCSpecialized.construct value, scale_ := scale }

/-- Method `Gamma::jump` (mcmc.gamma.hpp:48):
`positive_jump_impl(rng, value, scale_)`. -/
def Gamma.jump (rng : RngBase K W) (fuel : ℕ) (s : Gamma K) (w : W) : Option (Gamma K × W) :=
  (positive_jump_impl rng s.value s.scale_ fuel w).map
    (fun r => ({ s with value := r.1 }, r.2))

/-- Method `Gamma::loglik` (mcmc.gamma.hpp:49):
`gamma_logp(value, alpha_, beta_)`. -/
def Gamma.loglik (log lgamma : K → K) (s : Gamma K) (alpha beta : Arr K) : WithBot K :=
  gamma_logp log lgamma s.value alpha beta

end GammaNode

/-- The elements of an operand as a list (a scalar is its own single element). -/
def Arr.toList {α : Type} : Arr α → List α
  | Arr.scalar x => [x]
  | Arr.elems xs => xs

/-! ## The operations of a sweep on one stochastic node -/

/-- The proposal, tuning and preserve/revert operations the sampler applies to a
stochastic node. -/
inductive NodeOp where
  /-- The whole-block `jump(rng)`. -/
  | jump : NodeOp
  /-- The component-wise `component_jump(rng, m)`. -/
  | component_jump : NodeOp
  /-- The scale adaptation `tune()`. -/
  | tune : NodeOp
  /-- The snapshot `preserve()`. -/
  | preserve : NodeOp
  /-- The restore `revert()`. -/
  | revert : NodeOp

section Perform

variable {K W L E : Type} [LinearOrderedField K] [Zero E] [One E] [Add E] [Elem K E] {n : Nat}

/-- One operation on a node of the template `Stochastic<T>`, with the state of the
rest of the program. -/
def Stochastic.perform (rng : RngBase K W) (m : MCModelBase W (Fin n → E) L) :
    NodeOp → Stochastic (Fin n → E) × W → Stochastic (Fin n → E) × W
  | NodeOp.jump, st => Stochastic.jump rng st.1 st.2
  | NodeOp.component_jump, st => Stochastic.component_jump rng m st.1 st.2
  | NodeOp.tune, st => (Stochastic.tune K st.1, st.2)
  | NodeOp.preserve, st => ({ st.1 with toMCMCSpecialized := st.1.toMCMCSpecialized.preserve }, st.2)
  | NodeOp.revert, st => ({ st.1 with toMCMCSpecialized := st.1.toMCMCSpecialized.revert }, st.2)

/-- One operation on a node of `Stochastic<double>`, with the state of the rest of
the program. -/
def StochasticDouble.perform (rng : RngBase K W) (m : MCModelBase W K L) :
    NodeOp → Stochastic K × W → Stochastic K × W
  | NodeOp.jump, st => StochasticDouble.jump rng st.1 st.2
  | NodeOp.component_jump, st => StochasticDouble.component_jump rng m st.1 st.2
  | NodeOp.tune, st => (StochasticDouble.tune st.1, st.2)
  | NodeOp.preserve, st => ({ st.1 with toMCMCSpecialized := st.1.toMCMCSpecialized.preserve }, st.2)
  | NodeOp.revert, st => ({ st.1 with toMCMCSpecialized := st.1.toMCMCSpecialized.revert }, st.2)

end Perform

namespace Demo

/-- Cholesky factorisation of a real `2 × 2` matrix as Armadillo's `chol(R, X)`
returns it: the upper-triangular `R` with `Rᵀ * R = X`, read off the upper
triangle of `X`, failing when a pivot is not positive. -/
noncomputable def chol2 (M : Matrix (Fin 2) (Fin 2) ℝ) : Option (Matrix (Fin 2) (Fin 2) ℝ) :=
  if 0 < M 0 0 ∧ 0 < M 1 1 - M 0 1 * M 0 1 / M 0 0 then
    some !![Real.sqrt (M 0 0), M 0 1 / Real.sqrt (M 0 0);
            0, Real.sqrt (M 1 1 - M 0 1 * M 0 1 / M 0 0)]
  else none

/-- The Wishart node of order two built by `Wishart(value = I, tau = I, n = 2)` with
scale `1` and factorisation `chol2`, whose factor of the identity is the identity. -/
noncomputable def wishart2 : Wishart ℝ 2 :=
  { toMCMCSpecialized := MCMCSpecialized.construct 1
    scale_ := 1
    tau_ := 1
    n_ := 2
    ld_elems_ := lower_diag 2
    LL := setElems (setDiag 0 (fun i => Real.exp (Real.log ((!![1, 0; 0, 1] :
        Matrix (Fin 2) (Fin 2) ℝ) i i)))) (lower_diag 2)
      ((lower_diag 2).map (elemAt (!![1, 0; 0, 1] : Matrix (Fin 2) (Fin 2) ℝ)))
    R_log_diag := fun i => Real.log ((!![1, 0; 0, 1] : Matrix (Fin 2) (Fin 2) ℝ) i i)
    R_offdiag := (lower_diag 2).map (elemAt (!![1, 0; 0, 1] : Matrix (Fin 2) (Fin 2) ℝ)) }

end Demo

/-! ## `cppbugs.hpp`: array log-factorial, posterior mean, tallies -/

section ArrayFactln

variable {K : Type} [LinearOrderedField K]

/-- Function `factln(const arma::imat& x)` (cppbugs.hpp:76): `ans.copy_size(x)`, then
`ans[i] = factln(x[i])` for every element in storage order, the memo table being
shared by the calls. -/
def factln_imat (log lgamma : K → K) (factln_table : ℤ → Option K) (x : List ℤ) :
    List (WithBot K) × (ℤ → Option K) :=
  x.foldl (fun (acc : List (WithBot K) × (ℤ → Option K)) xi =>
    let f := factln log lgamma acc.2 xi
    (acc.1 ++ [f.1], f.2)) ([], factln_table)

end ArrayFactln

section Mean

variable {K E : Type} [LinearOrderedField K] [Zero E] [Add E] [Elem K E] {n : Nat}

/-- Method `MCMCSpecialized<T>::mean` (cppbugs.hpp:96): `T ans(value); ans.fill(0);`,
then `ans += history[i]` for every tally, then
`ans /= static_cast<double>(history.size())`, the divisor being converted to the
element type. `K` is explicit: it is the type of the divisor. -/
def MCMCSpecialized.mean (K : Type) [LinearOrderedField K] [Elem K E]
    (s : MCMCSpecialized (Fin n → E)) : Fin n → E :=
  let ans0 : Fin n → E := fun _ => 0
  let ans := forLoop s.history.length (fun i (acc : Fin n → E) =>
    fun j => acc j + (s.history.get i) j) ans0
  fun j => Elem.quot K (ans j) (Elem.ofDouble ((s.history.length : ℕ) : K))

/-- Method `MCMCSpecialized<double>::mean` (cppbugs.hpp:118). -/
def MCMCSpecialized.mean_double (s : MCMCSpecialized K) : K :=
  let ans := forLoop s.history.length (fun i (acc : K) => acc + s.history.get i) 0
  ans / ((s.history.length : ℕ) : K)

end Mean

/-- The operations applied to a stochastic node during sampling: those of a sweep,
the recording `tally()`, and the read-only `mean()`. -/
inductive SweepOp where
  /-- A proposal, tuning or preserve/revert operation. -/
  | node (op : NodeOp) : SweepOp
  /-- The recording `tally()`. -/
  | tally : SweepOp
  /-- The query `mean()`, a `const` method. -/
  | mean : SweepOp

section Sweep

variable {K W L E : Type} [LinearOrderedField K] [Zero E] [One E] [Add E] [Elem K E] {n : Nat}

/-- One operation of sampling on a node of the template `Stochastic<T>`. -/
def Stochastic.sweep (rng : RngBase K W) (m : MCModelBase W (Fin n → E) L) :
    SweepOp → Stochastic (Fin n → E) × W → Stochastic (Fin n → E) × W
  | SweepOp.node op, st => Stochastic.perform rng m op st
  | SweepOp.tally, st => ({ st.1 with toMCMCSpecialized := st.1.toMCMCSpecialized.tally }, st.2)
  | SweepOp.mean, st => st

/-- One operation of sampling on a node of `Stochastic<double>`. -/
def StochasticDouble.sweep (rng : RngBase K W) (m : MCModelBase W K L) :
    SweepOp → Stochastic K × W → Stochastic K × W
  | SweepOp.node op, st => StochasticDouble.perform rng m op st
  | SweepOp.tally, st => ({ st.1 with toMCMCSpecialized := st.1.toMCMCSpecialized.tally }, st.2)
  | SweepOp.mean, st => st

/-- The values recorded by the tallies of a run of operations on a template node, in
the order of the tallies: each is the value the node has when its `tally()` is
called. -/
def Stochastic.tallied (rng : RngBase K W) (m : MCModelBase W (Fin n → E) L) :
    List SweepOp → Stochastic (Fin n → E) × W → List (Fin n → E)
  | [], _ => []
  | SweepOp.tally :: ops, st =>
    st.1.value :: Stochastic.tallied rng m ops (Stochastic.sweep rng m SweepOp.tally st)
  | op :: ops, st => Stochastic.tallied rng m ops (Stochastic.sweep rng m op st)

/-- The values recorded by the tallies of a run of operations on a scalar node. -/
def StochasticDouble.tallied (rng : RngBase K W) (m : MCModelBase W K L) :
    List SweepOp → Stochastic K × W → List K
  | [], _ => []
  | SweepOp.tally :: ops, st =>
    st.1.value :: StochasticDouble.tallied rng m ops (StochasticDouble.sweep rng m SweepOp.tally st)
  | op :: ops, st => StochasticDouble.tallied rng m ops (StochasticDouble.sweep rng m op st)

end Sweep

section Windows

variable {K W L E : Type} [LinearOrderedField K] [Zero E] [One E] [Add E] [Elem K E] {n : Nat}

/-- One tuning window on a template node: a `component_jump` in each of the given
states of the rest of the program, at least one, followed by `tune`. -/
def Stochastic.window (rng : RngBase K W) (m : MCModelBase W (Fin n → E) L)
    (s : Stochastic (Fin n → E)) (ws : W × List W) : Stochastic (Fin n → E) :=
  Stochastic.tune K
    ((ws.1 :: ws.2).foldl (fun st w => (Stochastic.component_jump rng m st w).1) s)

/-- One tuning window on a scalar node: a `component_jump` in each of the given
states of the rest of the program, at least one, followed by `tune`. -/
def StochasticDouble.window (rng : RngBase K W) (m : MCModelBase W K L)
    (s : Stochastic K) (ws : W × List W) : Stochastic K :=
  StochasticDouble.tune
    ((ws.1 :: ws.2).foldl (fun st w => (StochasticDouble.component_jump rng m st w).1) s)

end Windows

/-! ## Theorems -/

/-- The tuning factor in closed form, with the decimal literals as fractions. -/
theorem tune_scale_eq {K : Type} [LinearOrderedField K] (a : K) :
    tune_scale a = 1 + (a - 2 / 5) * (1 / 5) := by
  simp only [tune_scale]
  norm_num

/-- C1: after `preserve`, any number of writes to `value` (jumps, component-wise
assignments; no further `preserve`) and then `revert`, `value` is exactly the
value at the `preserve` point; and `revert` changes neither `old_value` nor
`history`, in any state. -/
theorem preserve_mutate_revert {T : Type} (s : MCMCSpecialized T) (writes : List (T → T)) :
    ((writes.foldl (fun st f => st.write f) s.preserve).revert.value = s.value) ∧
    (∀ st : MCMCSpecialized T,
      st.revert.old_value = st.old_value ∧ st.revert.history = st.history) := by
  refine ⟨?_, fun st => ⟨rfl, rfl⟩⟩
  have key : ∀ (ws : List (T → T)) (st : MCMCSpecialized T),
      (ws.foldl (fun st f => st.write f) st).old_value = st.old_value := by
    intro ws
    induction ws with
    | nil => intro st; rfl
    | cons f ws ih => intro st; rw [List.foldl_cons, ih]; rfl
  show (writes.foldl (fun st f => st.write f) s.preserve).old_value = s.value
  rw [key]
  rfl

/-- C5: `tune_scale(0.4) = 1`, `tune_scale` is strictly increasing, and for every
`a`: `tune_scale(a) > 1` iff `a > 0.4`, and `tune_scale(a) < 1` iff `a < 0.4`. -/
theorem tune_scale_target_and_monotone {K : Type} [LinearOrderedField K] :
    tune_scale (0.4 : K) = 1 ∧ StrictMono (tune_scale : K → K) ∧
    ∀ a : K, (1 < tune_scale a ↔ 0.4 < a) ∧ (tune_scale a < 1 ↔ a < 0.4) := by
  have h04 : (0.4 : K) = 2 / 5 := by norm_num
  refine ⟨?_, ?_, ?_⟩
  · rw [tune_scale_eq, h04]; ring
  · intro a b hab
    rw [tune_scale_eq, tune_scale_eq]
    linarith
  · intro a
    rw [tune_scale_eq, h04]
    refine ⟨⟨fun h => ?_, fun h => ?_⟩, ⟨fun h => ?_, fun h => ?_⟩⟩ <;> linarith


/-! ### Component-wise jump -/

/-- One step of the component-wise jump, as a case distinction on the verdict of
`m.reject`; the proposal stored at coordinate `i` is the sum converted to the
element type of the payload. -/
theorem component_step_eq {K W L E : Type} [LinearOrderedField K] [Zero E] [One E] [Add E]
    [Elem K E] {n : Nat} (rng : RngBase K W) (m : MCModelBase W (Fin n → E) L) (i : Fin n)
    (st : Stochastic (Fin n → E)) (u : W) :
    (Stochastic.component_step rng m i st u).1 =
      if (m.reject
            (m.logp (Function.update st.value i (Elem.ofDouble
                (Elem.toDouble (st.value i) + (rng.normal u).1 * Elem.toDouble (st.scale_ i))))
              (m.update (Function.update st.value i (Elem.ofDouble
                (Elem.toDouble (st.value i) + (rng.normal u).1 * Elem.toDouble (st.scale_ i))))
                (rng.normal u).2))
            (m.logp st.value u)
            (m.update (Function.update st.value i (Elem.ofDouble
                (Elem.toDouble (st.value i) + (rng.normal u).1 * Elem.toDouble (st.scale_ i))))
              (rng.normal u).2)).1 = true
      then { st with
              value := st.value
              old_value := Function.update st.old_value i (st.value i)
              rejected_ := Function.update st.rejected_ i (st.rejected_ i + 1) }
      else { st with
              value := Function.update st.value i (Elem.ofDouble
                (Elem.toDouble (st.value i) + (rng.normal u).1 * Elem.toDouble (st.scale_ i)))
              old_value := Function.update st.old_value i (st.value i)
              accepted_ := Function.update st.accepted_ i (st.accepted_ i + 1) } := by
  unfold Stochastic.component_step
  simp only
  split <;> simp

/-- One step of the component-wise jump on a real-valued payload, as a case
distinction on the verdict of `m.reject`. -/
theorem component_step_real_eq {K W L : Type} [LinearOrderedField K] {n : Nat}
    (rng : RngBase K W) (m : MCModelBase W (Fin n → K) L) (i : Fin n)
    (st : Stochastic (Fin n → K)) (u : W) :
    (Stochastic.component_step rng m i st u).1 =
      if (m.reject
            (m.logp (Function.update st.value i (st.value i + (rng.normal u).1 * st.scale_ i))
              (m.update (Function.update st.value i (st.value i + (rng.normal u).1 * st.scale_ i))
                (rng.normal u).2))
            (m.logp st.value u)
            (m.update (Function.update st.value i (st.value i + (rng.normal u).1 * st.scale_ i))
              (rng.normal u).2)).1 = true
      then { st with
              value := st.value
              old_value := Function.update st.old_value i (st.value i)
              rejected_ := Function.update st.rejected_ i (st.rejected_ i + 1) }
      else { st with
              value := Function.update st.value i (st.value i + (rng.normal u).1 * st.scale_ i)
              old_value := Function.update st.old_value i (st.value i)
              accepted_ := Function.update st.accepted_ i (st.accepted_ i + 1) } :=
  component_step_eq rng m i st u

/-- One step touches the counters of its coordinate only: exactly one of the two
is incremented; the flag `observed_` is not touched. -/
theorem component_step_counters {K W L E : Type} [LinearOrderedField K] [AddMonoidWithOne E]
    [Elem K E] {n : Nat} (rng : RngBase K W) (m : MCModelBase W (Fin n → E) L) (i : Fin n)
    (st : Stochastic (Fin n → E)) (u : W) :
    (Stochastic.component_step rng m i st u).1.observed_ = st.observed_ ∧
    (((Stochastic.component_step rng m i st u).1.accepted_ =
          Function.update st.accepted_ i (st.accepted_ i + 1) ∧
        (Stochastic.component_step rng m i st u).1.rejected_ = st.rejected_) ∨
      ((Stochastic.component_step rng m i st u).1.rejected_ =
          Function.update st.rejected_ i (st.rejected_ i + 1) ∧
        (Stochastic.component_step rng m i st u).1.accepted_ = st.accepted_)) := by
  unfold Stochastic.component_step
  simp only
  split <;> simp

/-- Running the step over a duplicate-free list of coordinates adds one trial to
each listed coordinate and none to the others. -/
theorem fold_steps_counters {K W L E : Type} [LinearOrderedField K] [AddMonoidWithOne E]
    [Elem K E] {n : Nat} (rng : RngBase K W) (m : MCModelBase W (Fin n → E) L)
    (l : List (Fin n)) (hl : l.Nodup) :
    ∀ (st : Stochastic (Fin n → E)) (u : W) (A R : Fin n → ℕ),
      (∀ j, st.accepted_ j = (A j : E) ∧ st.rejected_ j = (R j : E)) →
      ∃ A' R' : Fin n → ℕ,
        (l.foldl (fun p i => Stochastic.component_step rng m i p.1 p.2) (st, u)).1.observed_
          = st.observed_ ∧
        ∀ j,
          (l.foldl (fun p i => Stochastic.component_step rng m i p.1 p.2) (st, u)).1.accepted_ j
            = (A' j : E) ∧
          (l.foldl (fun p i => Stochastic.component_step rng m i p.1 p.2) (st, u)).1.rejected_ j
            = (R' j : E) ∧
          A' j + R' j = A j + R j + if j ∈ l then 1 else 0 := by
  induction l with
  | nil =>
    intro st u A R h
    exact ⟨A, R, rfl, fun j => ⟨(h j).1, (h j).2, by simp⟩⟩
  | cons i l ih =>
    intro st u A R h
    have hnd := List.nodup_cons.mp hl
    obtain ⟨hobs, hcnt⟩ := component_step_counters rng m i st u
    rw [List.foldl_cons]
    rcases hcnt with ⟨ha, hr⟩ | ⟨hr, ha⟩
    · obtain ⟨A', R', ho, hA⟩ := ih hnd.2 (Stochastic.component_step rng m i st u).1
        (Stochastic.component_step rng m i st u).2 (Function.update A i (A i + 1)) R (by
          intro j
          rw [ha, hr]
          refine ⟨?_, (h j).2⟩
          by_cases hj : j = i
          · subst hj; simp [(h j).1]
          · simp [Function.update_noteq hj, (h j).1])
      refine ⟨A', R', ho.trans hobs, fun j => ⟨(hA j).1, (hA j).2.1, ?_⟩⟩
      rw [(hA j).2.2]
      by_cases hj : j = i
      · subst hj; simp [hnd.1]; ring
      · simp [Function.update_noteq hj, hj]
    · obtain ⟨A', R', ho, hA⟩ := ih hnd.2 (Stochastic.component_step rng m i st u).1
        (Stochastic.component_step rng m i st u).2 A (Function.update R i (R i + 1)) (by
          intro j
          rw [ha, hr]
          refine ⟨(h j).1, ?_⟩
          by_cases hj : j = i
          · subst hj; simp [(h j).2]
          · simp [Function.update_noteq hj, (h j).2])
      refine ⟨A', R', ho.trans hobs, fun j => ⟨(hA j).1, (hA j).2.1, ?_⟩⟩
      rw [(hA j).2.2]
      by_cases hj : j = i
      · subst hj; simp [hnd.1]; ring
      · simp [Function.update_noteq hj, hj]

/-- One call of `component_jump` on an unobserved node adds exactly one trial to
every coordinate. -/
theorem component_jump_counters {K W L E : Type} [LinearOrderedField K] [AddMonoidWithOne E]
    [Elem K E] {n : Nat} (rng : RngBase K W) (m : MCModelBase W (Fin n → E) L)
    (st : Stochastic (Fin n → E)) (u : W) (A R : Fin n → ℕ) (hobs : st.observed_ = false)
    (h : ∀ j, st.accepted_ j = (A j : E) ∧ st.rejected_ j = (R j : E)) :
    ∃ A' R' : Fin n → ℕ,
      (Stochastic.component_jump rng m st u).1.observed_ = false ∧
      ∀ j, (Stochastic.component_jump rng m st u).1.accepted_ j = (A' j : E) ∧
        (Stochastic.component_jump rng m st u).1.rejected_ j = (R' j : E) ∧
        A' j + R' j = A j + R j + 1 := by
  obtain ⟨A', R', ho, hA⟩ :=
    fold_steps_counters rng m (List.finRange n) (List.nodup_finRange n) st u A R h
  have e : Stochastic.component_jump rng m st u =
      (List.finRange n).foldl (fun p i => Stochastic.component_step rng m i p.1 p.2) (st, u) := by
    simp [Stochastic.component_jump, hobs, forLoop]
  refine ⟨A', R', by rw [e, ho, hobs], fun j => ?_⟩
  rw [e]
  refine ⟨(hA j).1, (hA j).2.1, ?_⟩
  rw [(hA j).2.2]
  simp

/-- After `k` calls of `component_jump` (each in an arbitrary state of the rest of
the program) on an unobserved node whose counters hold `A` and `R` with
`A + R = c`, the counters hold naturals that sum to `c + k`. -/
theorem component_jumps_counters {K W L E : Type} [LinearOrderedField K] [AddMonoidWithOne E]
    [Elem K E] {n : Nat} (rng : RngBase K W) (m : MCModelBase W (Fin n → E) L) (ws : List W) :
    ∀ (st : Stochastic (Fin n → E)) (c : ℕ) (A R : Fin n → ℕ), st.observed_ = false →
      (∀ j, st.accepted_ j = (A j : E) ∧ st.rejected_ j = (R j : E) ∧ A j + R j = c) →
      ∃ A' R' : Fin n → ℕ, ∀ j,
        (ws.foldl (fun s w => (Stochastic.component_jump rng m s w).1) st).accepted_ j
          = (A' j : E) ∧
        (ws.foldl (fun s w => (Stochastic.component_jump rng m s w).1) st).rejected_ j
          = (R' j : E) ∧
        A' j + R' j = c + ws.length := by
  induction ws with
  | nil =>
    intro st c A R _ h
    exact ⟨A, R, fun j => ⟨(h j).1, (h j).2.1, by simpa using (h j).2.2⟩⟩
  | cons w ws ih =>
    intro st c A R hobs h
    obtain ⟨A1, R1, ho, h1⟩ := component_jump_counters rng m st w A R hobs
      (fun j => ⟨(h j).1, (h j).2.1⟩)
    obtain ⟨A', R', h'⟩ := ih (Stochastic.component_jump rng m st w).1 (c + 1) A1 R1 ho
      (fun j => ⟨(h1 j).1, (h1 j).2.1, by rw [(h1 j).2.2, (h j).2.2]⟩)
    refine ⟨A', R', fun j => ⟨(h' j).1, (h' j).2.1, ?_⟩⟩
    rw [(h' j).2.2, List.length_cons]
    ring

/-- The scalar node: one call of `component_jump` on an unobserved node adds one
trial. -/
theorem component_jump_double_counters {K W L : Type} [LinearOrderedField K]
    (rng : RngBase K W) (md : MCModelBase W K L) (d : Stochastic K) (u : W) (a r : ℕ)
    (hobs : d.observed_ = false) (ha : d.accepted_ = (a : K)) (hr : d.rejected_ = (r : K)) :
    ∃ a' r' : ℕ, (StochasticDouble.component_jump rng md d u).1.observed_ = false ∧
      (StochasticDouble.component_jump rng md d u).1.accepted_ = (a' : K) ∧
      (StochasticDouble.component_jump rng md d u).1.rejected_ = (r' : K) ∧
      a' + r' = a + r + 1 := by
  unfold StochasticDouble.component_jump
  simp only [hobs, Bool.false_eq_true, if_false]
  split
  · exact ⟨a, r + 1, rfl, ha, by simp [hr], by ring⟩
  · exact ⟨a + 1, r, rfl, by simp [ha], hr, by ring⟩

/-- The scalar node: after `k` calls of `component_jump` the counters hold naturals
whose sum has grown by `k`. -/
theorem component_jumps_double_counters {K W L : Type} [LinearOrderedField K]
    (rng : RngBase K W) (md : MCModelBase W K L) (ws : List W) :
    ∀ (d : Stochastic K) (a r : ℕ), d.observed_ = false →
      d.accepted_ = (a : K) → d.rejected_ = (r : K) →
      ∃ a' r' : ℕ,
        (ws.foldl (fun s w => (StochasticDouble.component_jump rng md s w).1) d).accepted_
          = (a' : K) ∧
        (ws.foldl (fun s w => (StochasticDouble.component_jump rng md s w).1) d).rejected_
          = (r' : K) ∧
        a' + r' = a + r + ws.length := by
  induction ws with
  | nil => intro d a r _ ha hr; exact ⟨a, r, ha, hr, by simp⟩
  | cons w ws ih =>
    intro d a r hobs ha hr
    obtain ⟨a1, r1, ho, ha1, hr1, hs1⟩ := component_jump_double_counters rng md d w a r hobs ha hr
    obtain ⟨a', r', ha', hr', hs'⟩ := ih _ a1 r1 ho ha1 hr1
    refine ⟨a', r', ha', hr', ?_⟩
    rw [hs', hs1, List.length_cons]
    ring

/-- The counters of an unobserved node are zero right after `tune` (template). -/
theorem tune_counters_zero {K E : Type} [LinearOrderedField K] [AddMonoidWithOne E] [Elem K E]
    {n : Nat} (s : Stochastic (Fin n → E)) (hobs : s.observed_ = false) :
    (Stochastic.tune K s).observed_ = false ∧
    ∀ i, (Stochastic.tune K s).accepted_ i = 0 ∧ (Stochastic.tune K s).rejected_ i = 0 := by
  simp [Stochastic.tune, hobs]

/-- The counters of an unobserved node are zero right after `tune` (scalar). -/
theorem tune_double_counters_zero {K : Type} [LinearOrderedField K] (d : Stochastic K)
    (hobs : d.observed_ = false) :
    (StochasticDouble.tune d).observed_ = false ∧
    (StochasticDouble.tune d).accepted_ = 0 ∧ (StochasticDouble.tune d).rejected_ = 0 := by
  simp [StochasticDouble.tune, hobs]

/-- C3: for an unobserved node that has just been constructed or tuned, after `k`
calls of `component_jump` (under any verdicts of the model, each call in an
arbitrary state of the rest of the program) both counters hold natural numbers
and `accepted[i] + rejected[i] = k` at every coordinate; and right after `tune`
both counters are zero at every coordinate. Stated for the template on any
element type (real or integer) and for `Stochastic<double>`. -/
theorem counters_equal_trials {K W L E : Type} [LinearOrderedField K] [AddMonoidWithOne E]
    [Elem K E] {n : Nat} (rng : RngBase K W) (m : MCModelBase W (Fin n → E) L)
    (md : MCModelBase W K L) (s0 : Stochastic (Fin n → E)) (d0 : Stochastic K)
    (hs : (∃ v, s0 = Stochastic.construct v false) ∨
      ∃ s : Stochastic (Fin n → E), s.observed_ = false ∧ s0 = Stochastic.tune K s)
    (hd : (∃ v, d0 = StochasticDouble.construct v false) ∨
      ∃ d : Stochastic K, d.observed_ = false ∧ d0 = StochasticDouble.tune d)
    (ws : List W) :
    (∀ i, ∃ a r : ℕ,
      (ws.foldl (fun s w => (Stochastic.component_jump rng m s w).1) s0).accepted_ i = (a : E) ∧
      (ws.foldl (fun s w => (Stochastic.component_jump rng m s w).1) s0).rejected_ i = (r : E) ∧
      a + r = ws.length) ∧
    (∃ a r : ℕ,
      (ws.foldl (fun s w => (StochasticDouble.component_jump rng md s w).1) d0).accepted_
        = (a : K) ∧
      (ws.foldl (fun s w => (StochasticDouble.component_jump rng md s w).1) d0).rejected_
        = (r : K) ∧
      a + r = ws.length) ∧
    (∀ s : Stochastic (Fin n → E), s.observed_ = false →
      ∀ i, (Stochastic.tune K s).accepted_ i = 0 ∧ (Stochastic.tune K s).rejected_ i = 0) ∧
    (∀ d : Stochastic K, d.observed_ = false →
      (StochasticDouble.tune d).accepted_ = 0 ∧ (StochasticDouble.tune d).rejected_ = 0) := by
  have hs0 : s0.observed_ = false ∧ ∀ j, s0.accepted_ j = 0 ∧ s0.rejected_ j = 0 := by
    rcases hs with ⟨v, rfl⟩ | ⟨s, hobs, rfl⟩
    · exact ⟨rfl, fun j => ⟨rfl, rfl⟩⟩
    · exact tune_counters_zero s hobs
  have hd0 : d0.observed_ = false ∧ d0.accepted_ = 0 ∧ d0.rejected_ = 0 := by
    rcases hd with ⟨v, rfl⟩ | ⟨d, hobs, rfl⟩
    · exact ⟨rfl, rfl, rfl⟩
    · exact tune_double_counters_zero d hobs
  refine ⟨fun i => ?_, ?_, fun s hobs => (tune_counters_zero s hobs).2,
    fun d hobs => (tune_double_counters_zero d hobs).2⟩
  · obtain ⟨A, R, h⟩ := component_jumps_counters rng m ws s0 0 (fun _ => 0) (fun _ => 0) hs0.1
      (fun j => ⟨by simpa using (hs0.2 j).1, by simpa using (hs0.2 j).2, rfl⟩)
    exact ⟨A i, R i, (h i).1, (h i).2.1, by simpa using (h i).2.2⟩
  · obtain ⟨a, r, ha, hr, hsum⟩ := component_jumps_double_counters rng md ws d0 0 0 hd0.1
      (by simpa using hd0.2.1) (by simpa using hd0.2.2)
    exact ⟨a, r, ha, hr, by simpa using hsum⟩

/-- Witness for C3: three calls on freshly constructed nodes over `ℚ` in the demo
program. -/
theorem counters_equal_trials_witness :
    ((∃ v, Stochastic.construct ![(0 : ℚ), 0] false = Stochastic.construct v false) ∨
      ∃ s : Stochastic (Fin 2 → ℚ), s.observed_ = false ∧
        Stochastic.construct ![(0 : ℚ), 0] false = Stochastic.tune ℚ s) ∧
    (∀ i, ∃ a r : ℕ,
      ([0, 1, 2].foldl (fun s w => (Stochastic.component_jump Demo.rng
          (Demo.model (Fin 2 → ℚ)) s w).1) (Stochastic.construct ![(0 : ℚ), 0] false)).accepted_ i
        = (a : ℚ) ∧
      ([0, 1, 2].foldl (fun s w => (Stochastic.component_jump Demo.rng
          (Demo.model (Fin 2 → ℚ)) s w).1) (Stochastic.construct ![(0 : ℚ), 0] false)).rejected_ i
        = (r : ℚ) ∧
      a + r = [0, 1, 2].length) :=
  ⟨Or.inl ⟨_, rfl⟩,
    (counters_equal_trials Demo.rng (Demo.model (Fin 2 → ℚ)) (Demo.model ℚ)
      (Stochastic.construct ![(0 : ℚ), 0] false) (StochasticDouble.construct (0 : ℚ) false)
      (Or.inl ⟨_, rfl⟩) (Or.inl ⟨_, rfl⟩) [0, 1, 2]).1⟩

/-! ### Tuning -/

/-- A fold of coordinate-wise updates over a duplicate-free list of coordinates
changes each listed coordinate once, from its initial content. -/
theorem foldl_update_nodup {n : Nat} {E : Type} (f : Fin n → E → E) (l : List (Fin n))
    (hl : l.Nodup) :
    ∀ (sc : Fin n → E) (j : Fin n),
      (l.foldl (fun s i => Function.update s i (f i (s i))) sc) j
        = if j ∈ l then f j (sc j) else sc j := by
  induction l with
  | nil => intro sc j; simp
  | cons i l ih =>
    intro sc j
    have hnd := List.nodup_cons.mp hl
    rw [List.foldl_cons, ih hnd.2]
    by_cases hj : j = i
    · subst hj; simp [hnd.1]
    · simp [hj, Function.update_noteq hj]

/-- The loop of coordinate-wise updates over all coordinates is the pointwise map. -/
theorem forLoop_update {n : Nat} {E : Type} (f : Fin n → E → E) (sc : Fin n → E) (j : Fin n) :
    forLoop n (fun i s => Function.update s i (f i (s i))) sc j = f j (sc j) := by
  unfold forLoop
  rw [foldl_update_nodup f _ (List.nodup_finRange n)]
  simp

/-- The method `tune` on an unobserved node of the template, entry by entry, for any element
type: the new scale entry is the old one times `tune_scale` of the quotient the
element type computes, converted back to the element type. -/
theorem tune_entry (K : Type) {E : Type} [LinearOrderedField K] [Zero E] [One E] [Add E] [Elem K E]
    {n : Nat} (s : Stochastic (Fin n → E)) (hobs : s.observed_ = false) (i : Fin n) :
    (Stochastic.tune K s).scale_ i
      = Elem.ofDouble (Elem.toDouble (s.scale_ i) *
          tune_scale (Elem.toDouble (Elem.quot K (s.accepted_ i)
            (s.accepted_ i + s.rejected_ i)) : K)) ∧
    (Stochastic.tune K s).accepted_ i = 0 ∧ (Stochastic.tune K s).rejected_ i = 0 ∧
    (Stochastic.tune K s).toMCMCSpecialized = s.toMCMCSpecialized := by
  unfold Stochastic.tune
  rw [if_neg (by simp [hobs])]
  refine ⟨?_, rfl, rfl, rfl⟩
  exact forLoop_update (fun i x => Elem.ofDouble (Elem.toDouble x *
    tune_scale (Elem.toDouble (Elem.quot K (s.accepted_ i)
      (s.accepted_ i + s.rejected_ i)) : K))) s.scale_ i

/-- The method `tune` on a real-valued payload: every scale entry is multiplied by
`tune_scale` of the exact acceptance ratio, the counters are zeroed, and the
node base is untouched. -/
theorem tune_real {K : Type} [LinearOrderedField K] {n : Nat} (s : Stochastic (Fin n → K))
    (hobs : s.observed_ = false) (i : Fin n) :
    (Stochastic.tune K s).scale_ i
      = s.scale_ i * tune_scale (s.accepted_ i / (s.accepted_ i + s.rejected_ i)) ∧
    (Stochastic.tune K s).accepted_ i = 0 ∧ (Stochastic.tune K s).rejected_ i = 0 ∧
    (Stochastic.tune K s).toMCMCSpecialized = s.toMCMCSpecialized :=
  tune_entry K s hobs i

/-- C4 (evaluation at the failing input): an unobserved integer-vector node with one
coordinate, after one rejected and one accepted proposal in the demo program, has
`accepted = 1`, `rejected = 1`, `scale = 1`; `tune` computes the ratio by integer
division (`1 / 2 = 0`) and truncates the product, leaving `scale = 0`, whereas
`scale * tune_scale(1/2)` is `51/50`. -/
theorem tune_integer_payload_scale :
    ([0, 1].foldl (fun s w => (Stochastic.component_jump Demo.rng
        (Demo.model (Fin 1 → ℤ)) s w).1) (Stochastic.construct ![(0 : ℤ)] false)).accepted_ 0 = 1 ∧
    ([0, 1].foldl (fun s w => (Stochastic.component_jump Demo.rng
        (Demo.model (Fin 1 → ℤ)) s w).1) (Stochastic.construct ![(0 : ℤ)] false)).rejected_ 0 = 1 ∧
    ([0, 1].foldl (fun s w => (Stochastic.component_jump Demo.rng
        (Demo.model (Fin 1 → ℤ)) s w).1) (Stochastic.construct ![(0 : ℤ)] false)).scale_ 0 = 1 ∧
    (Stochastic.tune ℚ ([0, 1].foldl (fun s w => (Stochastic.component_jump Demo.rng
        (Demo.model (Fin 1 → ℤ)) s w).1) (Stochastic.construct ![(0 : ℤ)] false))).scale_ 0 = 0 ∧
    (1 : ℚ) * tune_scale ((1 : ℚ) / (1 + 1)) = 51 / 50 := by
  have ha : ([0, 1].foldl (fun s w => (Stochastic.component_jump Demo.rng
      (Demo.model (Fin 1 → ℤ)) s w).1) (Stochastic.construct ![(0 : ℤ)] false)).accepted_ 0 = 1 := by
    decide
  have hr : ([0, 1].foldl (fun s w => (Stochastic.component_jump Demo.rng
      (Demo.model (Fin 1 → ℤ)) s w).1) (Stochastic.construct ![(0 : ℤ)] false)).rejected_ 0 = 1 := by
    decide
  have hsc : ([0, 1].foldl (fun s w => (Stochastic.component_jump Demo.rng
      (Demo.model (Fin 1 → ℤ)) s w).1) (Stochastic.construct ![(0 : ℤ)] false)).scale_ 0 = 1 := by
    decide
  have ho : ([0, 1].foldl (fun s w => (Stochastic.component_jump Demo.rng
      (Demo.model (Fin 1 → ℤ)) s w).1) (Stochastic.construct ![(0 : ℤ)] false)).observed_ = false := by
    decide
  refine ⟨ha, hr, hsc, ?_, ?_⟩
  · rw [(tune_entry ℚ _ ho 0).1, ha, hr, hsc]
    simp only [Elem.ofDouble, Elem.toDouble, Elem.quot]
    rw [tune_scale_eq]
    have hq : Int.tdiv 1 (1 + 1) = 0 := by decide
    have hv : ((1 : ℤ) : ℚ) * (1 + (((0 : ℤ) : ℚ) - 2 / 5) * (1 / 5)) = 23 / 25 := by norm_num
    rw [truncate, hq, hv, if_pos (by norm_num), Int.floor_eq_iff]
    norm_num
  · rw [tune_scale_eq]; norm_num

/-! ### Log-factorial -/

/-- The product loop started at a natural `i` multiplies the accumulator by `i!`. -/
theorem factln_single_loop_nat {K : Type} [LinearOrderedField K] (i : ℕ) :
    ∀ ans : K, factln_single_loop (i : ℤ) ans = ans * ((i.factorial : ℕ) : K) := by
  induction i with
  | zero =>
    intro ans
    rw [factln_single_loop, if_neg (by norm_num)]
    simp
  | succ k ih =>
    intro ans
    rw [factln_single_loop]
    by_cases hk : 1 < ((k + 1 : ℕ) : ℤ)
    · rw [if_pos hk]
      have e : ((k + 1 : ℕ) : ℤ) - 1 = (k : ℤ) := by push_cast; ring
      rw [e, ih, Nat.factorial_succ]
      push_cast
      ring
    · rw [if_neg hk]
      have hk0 : k = 0 := by
        have : ((k + 1 : ℕ) : ℤ) ≤ 1 := not_lt.mp hk
        omega
      subst hk0
      simp

/-- Over the reals, `lgamma(n + 1)` is `log (n!)`. -/
theorem lgammaReal_nat (n : ℕ) : lgammaReal ((n : ℝ) + 1) = Real.log (n.factorial : ℝ) := by
  unfold lgammaReal
  rw [Real.Gamma_nat_eq_factorial, abs_of_pos (by exact_mod_cast n.factorial_pos)]

/-- Over the reals, `factln_single` returns `log (n!)` on every natural `n`. -/
theorem factln_single_real (n : ℕ) :
    factln_single Real.log lgammaReal (n : ℤ) = Real.log (n.factorial : ℝ) := by
  unfold factln_single
  split
  · have e : (((n : ℤ) : ℝ)) = (n : ℝ) := by push_cast; rfl
    rw [e, lgammaReal_nat]
  · rw [factln_single_loop_nat, one_mul]

/-- Every entry of a memo table of `factln` reached from the empty table holds
`log (k!)` for its key `k`. -/
theorem factln_table_after_entries (queries : List ℤ) :
    ∀ (k : ℤ) (v : ℝ), factln_table_after Real.log lgammaReal queries k = some v →
      v = Real.log (k.toNat.factorial : ℝ) := by
  unfold factln_table_after
  have gen : ∀ (qs : List ℤ) (t : ℤ → Option ℝ),
      (∀ k v, t k = some v → v = Real.log (k.toNat.factorial : ℝ)) →
      ∀ k v, qs.foldl (fun t q => (factln Real.log lgammaReal t q).2) t k = some v →
        v = Real.log (k.toNat.factorial : ℝ) := by
    intro qs
    induction qs with
    | nil => intro t ht; exact ht
    | cons q qs ih =>
      intro t ht
      rw [List.foldl_cons]
      apply ih
      intro k v hkv
      unfold factln at hkv
      by_cases hq : q < 0
      · rw [if_pos hq] at hkv
        exact ht k v hkv
      · rw [if_neg hq] at hkv
        cases htq : t q with
        | none =>
          rw [htq] at hkv
          simp only at hkv
          by_cases hk : k = q
          · subst hk
            rw [Function.update_same] at hkv
            have hv : v = factln_single Real.log lgammaReal k := (Option.some.inj hkv).symm
            have hk0 : ((k.toNat : ℕ) : ℤ) = k := Int.toNat_of_nonneg (not_lt.mp hq)
            rw [hv]
            conv_lhs => rw [← hk0]
            exact factln_single_real k.toNat
          · rw [Function.update_noteq hk] at hkv
            exact ht k v hkv
        | some x =>
          rw [htq] at hkv
          exact ht k v hkv
  exact gen queries (fun _ => none) (fun k v h => by simp at h)

/-- Every memo table of `arma::factln` reached from the empty table is the list
`log (0!), log (1!), ...` up to its length. -/
theorem arma_factln_table_after_entries (queries : List ℤ) :
    ∃ len : ℕ, arma.factln_table_after Real.log lgammaReal queries
      = (List.range len).map (fun j => Real.log ((j.factorial : ℕ) : ℝ)) := by
  unfold arma.factln_table_after
  have gen : ∀ (qs : List ℤ) (t : List ℝ),
      (∃ len : ℕ, t = (List.range len).map (fun j => Real.log ((j.factorial : ℕ) : ℝ))) →
      ∃ len : ℕ, qs.foldl (fun t q => (arma.factln Real.log lgammaReal t q).2) t
        = (List.range len).map (fun j => Real.log ((j.factorial : ℕ) : ℝ)) := by
    intro qs
    induction qs with
    | nil => intro t ht; exact ht
    | cons q qs ih =>
      intro t ht
      rw [List.foldl_cons]
      apply ih
      obtain ⟨len, rfl⟩ := ht
      unfold arma.factln
      by_cases hq : q < 0
      · rw [if_pos hq]; exact ⟨len, rfl⟩
      · rw [if_neg hq]
        by_cases hq2 : q > 100
        · rw [if_pos hq2]; exact ⟨len, rfl⟩
        · rw [if_neg hq2]
          simp only [List.length_map, List.length_range]
          split
          · refine ⟨len + (q.toNat + 1 - len), ?_⟩
            rw [← List.map_append, List.range_eq_range', List.range_eq_range']
            congr 1
            have := List.range'_append 0 len (q.toNat + 1 - len) 1
            simp only [one_mul, zero_add] at this
            rw [this, Nat.add_comm]
          · exact ⟨len, rfl⟩
  exact gen queries [] ⟨0, rfl⟩

/-- C6: over the reals, for every integer `n` and every memo table reached from the
empty one, both `factln` of cppbugs.hpp and `arma::factln` of mcmc.math.hpp return
minus infinity if `n < 0` and `log (n!)` if `n ≥ 0`; `factln_single` takes the
`lgamma(n + 1)` path exactly for `n > 100` and otherwise the logarithm of the
running product, which is `n!`. -/
theorem factln_eq_log_factorial (queries queries' : List ℤ) (n : ℤ) :
    (factln Real.log lgammaReal (factln_table_after Real.log lgammaReal queries) n).1
      = (if n < 0 then ⊥ else ((Real.log (n.toNat.factorial : ℝ) : ℝ) : WithBot ℝ)) ∧
    (arma.factln Real.log lgammaReal
        (arma.factln_table_after Real.log lgammaReal queries') n).1
      = (if n < 0 then ⊥ else ((Real.log (n.toNat.factorial : ℝ) : ℝ) : WithBot ℝ)) ∧
    (factln_single Real.log lgammaReal n
      = if n > 100 then lgammaReal ((n : ℝ) + 1) else Real.log (factln_single_loop n 1)) ∧
    (∀ k : ℕ, factln_single_loop (k : ℤ) (1 : ℝ) = (k.factorial : ℝ)) := by
  refine ⟨?_, ?_, rfl, fun k => by rw [factln_single_loop_nat, one_mul]⟩
  · unfold factln
    by_cases hn : n < 0
    · rw [if_pos hn, if_pos hn]
    · rw [if_neg hn, if_neg hn]
      have hn0 : ((n.toNat : ℕ) : ℤ) = n := Int.toNat_of_nonneg (not_lt.mp hn)
      cases ht : factln_table_after Real.log lgammaReal queries n with
      | none =>
        simp only
        congr 1
        conv_lhs => rw [← hn0]
        exact factln_single_real n.toNat
      | some v =>
        simp only
        rw [factln_table_after_entries queries n v ht]
  · obtain ⟨len, hlen⟩ := arma_factln_table_after_entries queries'
    rw [hlen]
    unfold arma.factln
    by_cases hn : n < 0
    · rw [if_pos hn, if_pos hn]
    · rw [if_neg hn, if_neg hn]
      have hn0 : ((n.toNat : ℕ) : ℤ) = n := Int.toNat_of_nonneg (not_lt.mp hn)
      by_cases hn2 : n > 100
      · rw [if_pos hn2]
        simp only
        congr 1
        have e : (n : ℝ) = ((n.toNat : ℕ) : ℝ) := by
          conv_lhs => rw [← hn0]
          push_cast
          rfl
        rw [e, lgammaReal_nat]
      · rw [if_neg hn2]
        simp only [List.length_map, List.length_range]
        congr 1
        split
        · rename_i hlt
          rw [← List.map_append, List.getD_eq_getElem?_getD, List.getElem?_map]
          have hmem : (List.range len ++ List.range' len (n.toNat + 1 - len))[n.toNat]?
              = some n.toNat := by
            have := List.range'_append 0 len (n.toNat + 1 - len) 1
            simp only [one_mul, zero_add] at this
            rw [List.range_eq_range', this, ← List.range_eq_range', List.getElem?_range]
            omega
          rw [hmem]
          rfl
        · rename_i hge
          have hlt : n.toNat < len := by omega
          rw [List.getD_eq_getElem?_getD, List.getElem?_map, List.getElem?_range hlt]
          rfl

/-! ### Wishart nodes -/

/-- Every index produced by `lower_diag d` is the linear index of a strictly-lower
position: it is not the index of any position on or above the diagonal. -/
theorem lower_diag_strictly_lower {d : ℕ} (p : ℕ) (hp : p ∈ lower_diag d) (i j : Fin d)
    (hij : i ≤ j) : i.val + j.val * d ≠ p := by
  unfold lower_diag at hp
  rw [List.mem_flatMap] at hp
  obtain ⟨i', hi', hp⟩ := hp
  rw [List.mem_map] at hp
  obtain ⟨j', hj', rfl⟩ := hp
  rw [List.mem_range'_1] at hi'
  rw [List.mem_range] at hj'
  intro h
  have hd : 0 < d := Fin.pos i
  have hi'd : i' < d := by omega
  have h1 : (i.val + j.val * d) % d = (i' + j' * d) % d := by rw [h]
  have h2 : (i.val + j.val * d) / d = (i' + j' * d) / d := by rw [h]
  rw [Nat.add_mul_mod_self_right, Nat.add_mul_mod_self_right, Nat.mod_eq_of_lt i.isLt,
    Nat.mod_eq_of_lt hi'd] at h1
  rw [Nat.add_mul_div_right _ _ hd, Nat.add_mul_div_right _ _ hd, Nat.div_eq_of_lt i.isLt,
    Nat.div_eq_of_lt hi'd] at h2
  have : i.val ≤ j.val := hij
  omega

/-- Assignment through linear indices leaves alone every position whose linear
index is not in the list. -/
theorem setElems_of_not_mem {K : Type} [LinearOrderedField K] {d : ℕ} (indices : List ℕ)
    (i j : Fin d) (h : ∀ p ∈ indices, i.val + j.val * d ≠ p) :
    ∀ (values : List K) (M : Matrix (Fin d) (Fin d) K),
      setElems M indices values i j = M i j := by
  unfold setElems
  induction indices with
  | nil => intro values M; rfl
  | cons p ps ih =>
    intro values M
    cases values with
    | nil => rfl
    | cons v vs =>
      rw [List.zip_cons_cons, List.foldl_cons]
      rw [ih (fun q hq => h q (List.mem_cons_of_mem _ hq))]
      unfold setElem
      rw [if_neg (h p (List.mem_cons_self _ _))]

/-- The matrix `L` assembled from a diagonal `v` and strictly-lower entries: its
diagonal is `v` and everything above the diagonal is what `M` had there. -/
theorem assembled_entries {K : Type} [LinearOrderedField K] {d : ℕ}
    (M : Matrix (Fin d) (Fin d) K) (v : Fin d → K) (values : List K) (i j : Fin d)
    (hij : i ≤ j) :
    setElems (setDiag M v) (lower_diag d) values i j = if i = j then v i else M i j := by
  rw [setElems_of_not_mem (lower_diag d) i j
    (fun p hp => lower_diag_strictly_lower p hp i j hij)]
  rfl

/-- A real lower-triangular matrix with positive diagonal has nonzero determinant. -/
theorem det_ne_zero_of_lower {d : ℕ} (L : Matrix (Fin d) (Fin d) ℝ)
    (hup : ∀ i j, i < j → L i j = 0) (hdiag : ∀ i, 0 < L i i) : L.det ≠ 0 := by
  have htri : L.BlockTriangular (⇑OrderDual.toDual) := by
    intro i j hij
    exact hup i j hij
  rw [Matrix.det_of_lowerTriangular L htri]
  exact (Finset.prod_pos (fun i _ => hdiag i)).ne'

/-- For a real matrix `L` with nonzero determinant, `L * Lᵀ` is symmetric and
positive definite. -/
theorem posDef_mul_transpose {d : ℕ} (L : Matrix (Fin d) (Fin d) ℝ) (hdet : L.det ≠ 0) :
    (L * L.transpose).transpose = L * L.transpose ∧ (L * L.transpose).PosDef := by
  have hsymm : (L * L.transpose).transpose = L * L.transpose := by
    rw [Matrix.transpose_mul, Matrix.transpose_transpose]
  refine ⟨hsymm, ?_, ?_⟩
  · show (L * L.transpose).conjTranspose = L * L.transpose
    rw [Matrix.conjTranspose_eq_transpose_of_trivial, hsymm]
  · intro x hx
    have hne : L.transpose.mulVec x ≠ 0 := by
      intro h0
      apply hx
      have hdet' : L.transpose.det ≠ 0 := by rwa [Matrix.det_transpose]
      exact Matrix.eq_zero_of_mulVec_eq_zero hdet' h0
    have e : Matrix.dotProduct (star x) ((L * L.transpose).mulVec x)
        = Matrix.dotProduct (L.transpose.mulVec x) (L.transpose.mulVec x) := by
      rw [← Matrix.mulVec_mulVec, Matrix.dotProduct_mulVec, star_trivial,
        ← Matrix.mulVec_transpose]
    rw [e]
    have hnn : ∀ i, 0 ≤ L.transpose.mulVec x i * L.transpose.mulVec x i :=
      fun i => mul_self_nonneg _
    obtain ⟨k, hk⟩ := Function.ne_iff.mp hne
    unfold Matrix.dotProduct
    apply Finset.sum_pos'
    · intro i _; exact hnn i
    · exact ⟨k, Finset.mem_univ k, mul_self_pos.mpr hk⟩

/-- What a successful construction leaves in the node: the given value, the
vectors read off the factor `R` returned by `chol`, the matrix `LL` assembled
from them, and the fact that `LL * LLᵀ` recovered the value. -/
theorem Wishart.construct_ok {K : Type} [LinearOrderedField K] {d : ℕ} (log exp : K → K)
    (chol : Matrix (Fin d) (Fin d) K → Option (Matrix (Fin d) (Fin d) K)) (scale : K)
    (value tau : Matrix (Fin d) (Fin d) K) (n : ℤ) (s : Wishart K d)
    (h : Wishart.construct log exp chol scale value tau n = Except.ok s) :
    ∃ R, chol value = some R ∧
      s.value = value ∧ s.old_value = value ∧ s.scale_ = scale ∧
      s.ld_elems_ = lower_diag d ∧
      s.R_log_diag = (fun i => log (R i i)) ∧
      s.R_offdiag = (lower_diag d).map (elemAt R) ∧
      s.LL = setElems (setDiag 0 (fun i => exp (s.R_log_diag i))) (lower_diag d) s.R_offdiag ∧
      value = s.LL * s.LL.transpose := by
  unfold Wishart.construct at h
  simp only at h
  split at h
  · exact absurd h (by simp)
  · split at h
    · exact absurd h (by simp)
    · rename_i R hR
      split at h
      · exact absurd h (by simp)
      · split at h
        · exact absurd h (by simp)
        · rename_i hrec
          have hs := Except.ok.inj h
          subst hs
          exact ⟨R, hR, rfl, rfl, rfl, rfl, rfl, rfl, rfl, not_not.mp hrec⟩

/-- In every reachable state the index list is `lower_diag d` and `LL` is zero above
the diagonal. -/
theorem Wishart.reachable_invariant {K W : Type} [LinearOrderedField K] {d : ℕ}
    (log exp : K → K) (chol : Matrix (Fin d) (Fin d) K → Option (Matrix (Fin d) (Fin d) K))
    (rng : RngBase K W) (s : Wishart K d) (hs : Wishart.Reachable log exp chol rng s) :
    s.ld_elems_ = lower_diag d ∧ ∀ i j, i < j → s.LL i j = 0 := by
  induction hs with
  | construct scale value tau n s h =>
    obtain ⟨R, -, -, -, -, hld, -, -, hLL, -⟩ := Wishart.construct_ok log exp chol scale value tau n s h
    refine ⟨hld, fun i j hij => ?_⟩
    rw [hLL, assembled_entries _ _ _ i j hij.le, if_neg hij.ne]
    rfl
  | jump s w _ ih =>
    refine ⟨ih.1, fun i j hij => ?_⟩
    show setElems (setDiag s.LL _) s.ld_elems_ _ i j = 0
    rw [ih.1, assembled_entries _ _ _ i j hij.le, if_neg hij.ne]
    exact ih.2 i j hij
  | preserve s _ ih => exact ih
  | revert s _ ih => exact ih
  | rescale s scale _ ih => exact ih
  | tally s _ ih => exact ih
  | write s f _ ih => exact ih

/-- C7: for a Wishart node of any order in any reachable state (any scale), and any
state of the generator (any normal draws), after `jump` the value is `L * Lᵀ` for
the stored `L = LL`, which is zero above the diagonal and has the strictly
positive diagonal `exp(R_log_diag)`; hence the value is symmetric and positive
definite, with `L` as its Cholesky factor. -/
theorem wishart_jump_spd {W : Type} {d : ℕ}
    (chol : Matrix (Fin d) (Fin d) ℝ → Option (Matrix (Fin d) (Fin d) ℝ))
    (rng : RngBase ℝ W) (s : Wishart ℝ d)
    (hs : Wishart.Reachable Real.log Real.exp chol rng s) (w : W) :
    (Wishart.jump Real.exp rng s w).1.value
      = (Wishart.jump Real.exp rng s w).1.LL * (Wishart.jump Real.exp rng s w).1.LL.transpose ∧
    (∀ i j, i < j → (Wishart.jump Real.exp rng s w).1.LL i j = 0) ∧
    (∀ i, (Wishart.jump Real.exp rng s w).1.LL i i
        = Real.exp ((Wishart.jump Real.exp rng s w).1.R_log_diag i) ∧
      0 < (Wishart.jump Real.exp rng s w).1.LL i i) ∧
    (Wishart.jump Real.exp rng s w).1.value.transpose = (Wishart.jump Real.exp rng s w).1.value ∧
    (Wishart.jump Real.exp rng s w).1.value.PosDef := by
  have hinv := Wishart.reachable_invariant Real.log Real.exp chol rng _
    (Wishart.Reachable.jump s w hs)
  have hld := (Wishart.reachable_invariant Real.log Real.exp chol rng s hs).1
  have hdiag : ∀ i, (Wishart.jump Real.exp rng s w).1.LL i i
      = Real.exp ((Wishart.jump Real.exp rng s w).1.R_log_diag i) := by
    intro i
    show setElems (setDiag s.LL _) s.ld_elems_ _ i i = _
    rw [hld, assembled_entries _ _ _ i i le_rfl, if_pos rfl]
    rfl
  have hpos : ∀ i, 0 < (Wishart.jump Real.exp rng s w).1.LL i i := by
    intro i
    rw [hdiag i]
    exact Real.exp_pos _
  have hval : (Wishart.jump Real.exp rng s w).1.value
      = (Wishart.jump Real.exp rng s w).1.LL * (Wishart.jump Real.exp rng s w).1.LL.transpose :=
    rfl
  have hspd := posDef_mul_transpose _ (det_ne_zero_of_lower _ hinv.2 hpos)
  refine ⟨hval, hinv.2, fun i => ⟨hdiag i, hpos i⟩, ?_, ?_⟩
  · rw [hval]; exact hspd.1
  · rw [hval]; exact hspd.2

/-- The demo construction succeeds and yields the node `Demo.wishart1`. -/
theorem Demo.wishart1_constructed :
    Wishart.construct Real.log Real.exp Demo.chol1 1 1 1 1 = Except.ok Demo.wishart1 := by
  have hchol : Demo.chol1 1 = some (fun _ _ => Real.sqrt 1) := by
    unfold Demo.chol1
    rw [if_pos (by simp)]
    simp
  have hld : lower_diag 1 = [] := by decide
  unfold Wishart.construct
  simp only [hchol]
  rw [if_neg (by norm_num)]
  rw [if_neg]
  · rfl
  · rw [not_not, hld]
    ext i j
    fin_cases i
    fin_cases j
    simp [setElems, setDiag, Matrix.mul_apply]

/-- The transpose of a `2 × 2` matrix given by its entries. -/
theorem transpose_fin_two {K : Type} (a b c d : K) :
    (!![a, b; c, d]).transpose = !![a, c; b, d] := by
  ext i j
  fin_cases i <;> fin_cases j <;> rfl

/-- The demo factorisation of `[1 1; 1 2]` is the upper factor `[1 1; 0 1]`, and of
the identity the identity. -/
theorem Demo.chol2_values :
    Demo.chol2 !![1, 1; 1, 2] = some !![1, 1; 0, 1] ∧
    Demo.chol2 1 = some !![1, 0; 0, 1] ∧
    (!![(1 : ℝ), 1; 0, 1]).transpose * !![(1 : ℝ), 1; 0, 1] = !![1, 1; 1, 2] := by
  refine ⟨?_, ?_, ?_⟩
  · unfold Demo.chol2
    rw [if_pos (by norm_num)]
    norm_num
  · unfold Demo.chol2
    rw [if_pos (by norm_num)]
    norm_num
  · rw [transpose_fin_two]
    ext i j
    fin_cases i <;> fin_cases j <;> norm_num [Matrix.mul_apply, Fin.sum_univ_two]

/-- The demo construction of order two succeeds and yields the node `Demo.wishart2`. -/
theorem Demo.wishart2_constructed :
    Wishart.construct Real.log Real.exp Demo.chol2 1 1 1 2 = Except.ok Demo.wishart2 := by
  have hld : lower_diag 2 = [1] := by decide
  unfold Wishart.construct
  simp only [Demo.chol2_values.2.1]
  rw [if_neg (by norm_num)]
  rw [if_neg]
  · rfl
  · rw [not_not, hld]
    ext i j
    fin_cases i <;> fin_cases j <;>
      simp [setElems, setElem, setDiag, elemAt, Matrix.mul_apply, Fin.sum_univ_two]

/-- After a jump, a tally and a second jump of `Demo.wishart2` under the generator
`Demo.rngOne`, the stored factor has the entry `2` below the diagonal. -/
theorem Demo.wishart2_offdiag :
    (Wishart.jump Real.exp Demo.rngOne
      (Wishart.jump Real.exp Demo.rngOne Demo.wishart2 0).1.tally 3).1.LL 1 0 = 2 := by
  have hld : lower_diag 2 = [1] := by decide
  simp [Wishart.jump, Wishart.tally, Demo.wishart2, Demo.rngOne, Wishart.jumpList, hld,
    setElems, setElem, setDiag, elemAt, forLoop]
  norm_num

/-- Witness for C7: the order-two node `Demo.wishart2` after a jump and a tally is
reachable; after a further jump the stored factor is zero above the diagonal, has
the entry `2` below it, and the value is positive definite. -/
theorem wishart_jump_spd_witness :
    Wishart.Reachable Real.log Real.exp Demo.chol2 Demo.rngOne
      (Wishart.jump Real.exp Demo.rngOne Demo.wishart2 0).1.tally ∧
    (∀ i j, i < j → (Wishart.jump Real.exp Demo.rngOne
      (Wishart.jump Real.exp Demo.rngOne Demo.wishart2 0).1.tally 3).1.LL i j = 0) ∧
    (Wishart.jump Real.exp Demo.rngOne
      (Wishart.jump Real.exp Demo.rngOne Demo.wishart2 0).1.tally 3).1.LL 1 0 = 2 ∧
    (Wishart.jump Real.exp Demo.rngOne
      (Wishart.jump Real.exp Demo.rngOne Demo.wishart2 0).1.tally 3).1.value.PosDef :=
  ⟨Wishart.Reachable.tally _ (Wishart.Reachable.jump _ 0
      (Wishart.Reachable.construct 1 1 1 2 _ Demo.wishart2_constructed)),
    (wishart_jump_spd Demo.chol2 Demo.rngOne _
      (Wishart.Reachable.tally _ (Wishart.Reachable.jump _ 0
        (Wishart.Reachable.construct 1 1 1 2 _ Demo.wishart2_constructed))) 3).2.1,
    Demo.wishart2_offdiag,
    (wishart_jump_spd Demo.chol2 Demo.rngOne _
      (Wishart.Reachable.tally _ (Wishart.Reachable.jump _ 0
        (Wishart.Reachable.construct 1 1 1 2 _ Demo.wishart2_constructed))) 3).2.2.2.2⟩

/-- C8 (evaluation at the failing input): the order-one node `Demo.wishart1` is
constructed with value `[1]` and reassembles to its value; after `preserve`, a
`jump` with normal draw `1` and `revert`, the value is `[1]` again, while the
stored log-diagonal is still that of the rejected proposal, so the reassembled
matrix is `[e * e]`, which is not the value. -/
theorem wishart_revert_reassembled :
    Wishart.construct Real.log Real.exp Demo.chol1 1 1 1 1 = Except.ok Demo.wishart1 ∧
    Wishart.reassembled Real.exp Demo.wishart1 = Demo.wishart1.value ∧
    (Wishart.jump Real.exp Demo.rngOne Demo.wishart1.preserve 0).1.revert.value = 1 ∧
    Wishart.reassembled Real.exp (Wishart.jump Real.exp Demo.rngOne Demo.wishart1.preserve 0).1.revert
      = (fun _ _ => Real.exp 1 * Real.exp 1) ∧
    Wishart.reassembled Real.exp (Wishart.jump Real.exp Demo.rngOne Demo.wishart1.preserve 0).1.revert
      ≠ (Wishart.jump Real.exp Demo.rngOne Demo.wishart1.preserve 0).1.revert.value := by
  have hld : lower_diag 1 = [] := by decide
  have hre : Wishart.reassembled Real.exp
      (Wishart.jump Real.exp Demo.rngOne Demo.wishart1.preserve 0).1.revert
      = (fun _ _ => Real.exp 1 * Real.exp 1) := by
    ext i j
    fin_cases i
    fin_cases j
    simp [Wishart.reassembled, Wishart.revert, Wishart.jump, Wishart.preserve, Demo.wishart1,
      Demo.rngOne, forLoop, hld, setElems, setDiag, Matrix.mul_apply, MCMCSpecialized.revert,
      MCMCSpecialized.preserve, List.finRange]
  have hval : (Wishart.jump Real.exp Demo.rngOne Demo.wishart1.preserve 0).1.revert.value = 1 :=
    rfl
  refine ⟨Demo.wishart1_constructed, ?_, hval, hre, ?_⟩
  · ext i j
    fin_cases i
    fin_cases j
    simp [Wishart.reassembled, Demo.wishart1, hld, setElems, setDiag, Matrix.mul_apply,
      MCMCSpecialized.construct]
  · rw [hre, hval]
    intro h
    have h00 := congrFun (congrFun h 0) 0
    simp only [Matrix.one_apply_eq] at h00
    have h1 : (1 : ℝ) < Real.exp 1 := by
      have := Real.add_one_lt_exp (one_ne_zero : (1 : ℝ) ≠ 0)
      linarith
    nlinarith

/-! ### Wishart log-density -/

/-- The unsigned conversion is the identity on `5`. -/
theorem uwordOfInt_five : uwordOfInt 5 = 5 := by decide

/-- C9 (evaluation at the failing input): for the `3 × 3`, `n = 5` case with
`X = 2·I` and `tau = I`, the code multiplies `log|X| = log 8` by the integer
quotient `(5 - 3 - 1)/2 = 0`, where the stated formula has the coefficient `1/2`;
the two values differ by `(1/2)·log 8`. -/
theorem wishart_logp_integer_quotient :
    wishart_logp Real.log lgammaReal ((2 : ℝ) • (1 : Matrix (Fin 3) (Fin 3) ℝ))
        (1 : Matrix (Fin 3) (Fin 3) ℝ) 5
      = ((-3 - 15 / 2 * Real.log 2 - 3 * lgammaReal 3 : ℝ) : WithBot ℝ) ∧
    wishart_logp_stated Real.log lgammaReal ((2 : ℝ) • (1 : Matrix (Fin 3) (Fin 3) ℝ))
        (1 : Matrix (Fin 3) (Fin 3) ℝ) 5
      = 1 / 2 * Real.log 8 - 3 - 15 / 2 * Real.log 2 - 3 * lgammaReal 3 ∧
    wishart_logp Real.log lgammaReal ((2 : ℝ) • (1 : Matrix (Fin 3) (Fin 3) ℝ))
        (1 : Matrix (Fin 3) (Fin 3) ℝ) 5
      ≠ ((wishart_logp_stated Real.log lgammaReal ((2 : ℝ) • (1 : Matrix (Fin 3) (Fin 3) ℝ))
        (1 : Matrix (Fin 3) (Fin 3) ℝ) 5 : ℝ) : WithBot ℝ) := by
  have hdet : ((2 : ℝ) • (1 : Matrix (Fin 3) (Fin 3) ℝ)).det = 8 := by
    rw [Matrix.det_smul, Matrix.det_one, Fintype.card_fin]; norm_num
  have htr : ((2 : ℝ) • (1 : Matrix (Fin 3) (Fin 3) ℝ)).trace = 6 := by
    rw [Matrix.trace_smul, Matrix.trace_one, Fintype.card_fin]; norm_num
  have hq : Int.tdiv (5 - ((3 : ℕ) : ℤ) - 1) 2 = 0 := by decide
  have hcode : wishart_logp Real.log lgammaReal ((2 : ℝ) • (1 : Matrix (Fin 3) (Fin 3) ℝ))
        (1 : Matrix (Fin 3) (Fin 3) ℝ) 5
      = ((-3 - 15 / 2 * Real.log 2 - 3 * lgammaReal 3 : ℝ) : WithBot ℝ) := by
    unfold wishart_logp
    rw [dif_neg (by rw [uwordOfInt_five]; decide)]
    simp only [Fin.cast_refl, Matrix.submatrix_id_id]
    have hloop : forLoop 3 (fun (_ : Fin 3) (acc : ℝ) =>
        acc + lgammaReal ((((5 : ℤ) + 1 : ℤ) : ℝ) / 2.0)) 0 = 3 * lgammaReal 3 := by
      have e : ((((5 : ℤ) + 1 : ℤ) : ℝ) / 2.0) = 3 := by norm_num
      rw [e]
      simp [forLoop, List.finRange]
      ring
    rw [hdet, Matrix.det_one, if_neg (by norm_num), hq, hloop, mul_one, htr,
      Real.log_one]
    congr 1
    norm_num
  have hstated : wishart_logp_stated Real.log lgammaReal
        ((2 : ℝ) • (1 : Matrix (Fin 3) (Fin 3) ℝ)) (1 : Matrix (Fin 3) (Fin 3) ℝ) 5
      = 1 / 2 * Real.log 8 - 3 - 15 / 2 * Real.log 2 - 3 * lgammaReal 3 := by
    unfold wishart_logp_stated
    rw [hdet, Matrix.det_one, mul_one, htr, Real.log_one]
    norm_num
  refine ⟨hcode, hstated, ?_⟩
  rw [hcode, hstated]
  intro h
  have h' := WithBot.coe_injective h
  have hlog : 0 < Real.log 8 := Real.log_pos (by norm_num)
  linarith

/-! ### Mahalanobis distance from a Cholesky factor -/

/-- C10 (evaluation at the failing input): for the lower-triangular factor
`R = [1 0; 1 1]`, `Sigma = R * Rᵀ = [1 1; 1 2]`, `x = (1, 0)` and `mu = (0, 0)`,
`mahalanobis(x, mu, Sigma)` is `2` while `mahalanobis_chol(x, mu, R)` is `1` (the
code forms `Rinv * Rinvᵀ`, which is the inverse of `Rᵀ * R`); with the upper
factor `Rᵀ` that `chol` returns, `trimatl` keeps only the diagonal and the result
is `1` as well. Hence `multivariate_normal_sigma_logp` differs from the stated
density for this non-diagonal `Sigma`, whatever `log` and `pi` are. -/
theorem mahalanobis_chol_nondiagonal :
    (!![(1 : ℚ), 0; 1, 1] * (!![(1 : ℚ), 0; 1, 1]).transpose = !![(1 : ℚ), 1; 1, 2]) ∧
    mahalanobis ![(1 : ℚ), 0] ![0, 0] !![(1 : ℚ), 1; 1, 2] = 2 ∧
    mahalanobis_chol ![(1 : ℚ), 0] ![0, 0] !![(1 : ℚ), 0; 1, 1] = 1 ∧
    mahalanobis_chol ![(1 : ℚ), 0] ![0, 0] (!![(1 : ℚ), 0; 1, 1]).transpose = 1 ∧
    (∀ (log : ℚ → ℚ) (pi : ℚ),
      multivariate_normal_sigma_logp log pi (fun _ => some !![(1 : ℚ), 0; 1, 1])
          ![(1 : ℚ), 0] ![0, 0] !![(1 : ℚ), 1; 1, 2]
        ≠ ((multivariate_normal_logp_stated log pi ![(1 : ℚ), 0] ![0, 0]
              !![(1 : ℚ), 1; 1, 2] : ℚ) : WithBot ℚ)) := by
  have ht : (!![(1 : ℚ), 0; 1, 1]).transpose = !![(1 : ℚ), 1; 0, 1] := by
    ext i j
    fin_cases i <;> fin_cases j <;> rfl
  have hsig : !![(1 : ℚ), 0; 1, 1] * (!![(1 : ℚ), 0; 1, 1]).transpose = !![(1 : ℚ), 1; 1, 2] := by
    rw [ht]
    ext i j
    fin_cases i <;> fin_cases j <;> norm_num [Matrix.mul_apply, Fin.sum_univ_two]
  have hm : mahalanobis ![(1 : ℚ), 0] ![0, 0] !![(1 : ℚ), 1; 1, 2] = 2 := by
    simp [mahalanobis, inv, Matrix.det_fin_two, Matrix.adjugate_fin_two, Matrix.vecMul,
      Matrix.dotProduct, Fin.sum_univ_two]
    norm_num
  have hc : mahalanobis_chol ![(1 : ℚ), 0] ![0, 0] !![(1 : ℚ), 0; 1, 1] = 1 := by
    simp [mahalanobis_chol, inv, trimatl, Matrix.det_fin_two, Matrix.adjugate_fin_two,
      Matrix.vecMul, Matrix.dotProduct, Fin.sum_univ_two]
  have hu : mahalanobis_chol ![(1 : ℚ), 0] ![0, 0] (!![(1 : ℚ), 0; 1, 1]).transpose = 1 := by
    rw [ht]
    simp [mahalanobis_chol, inv, trimatl, Matrix.det_fin_two, Matrix.adjugate_fin_two,
      Matrix.vecMul, Matrix.dotProduct, Fin.sum_univ_two]
  refine ⟨hsig, hm, hc, hu, fun log pi => ?_⟩
  unfold multivariate_normal_sigma_logp multivariate_normal_chol_logp
    multivariate_normal_logp_stated
  simp only [hm, hc]
  intro h
  have h' := WithBot.coe_injective h
  have hdet : (!![(1 : ℚ), 1; 1, 2]).det = 1 := by
    rw [Matrix.det_fin_two]; norm_num
  have hcd : cholesky_determinant !![(1 : ℚ), 0; 1, 1] = 1 := by
    simp [cholesky_determinant, square, Fin.prod_univ_two]
  rw [hdet, hcd] at h'
  norm_num at h'

/-! ### Linear deterministic node -/

/-- C15: for a `Linear(X, b)` node and any current values of its parents, right
after construction and after every `jump` the value is `X * b` computed from the
parents as they are at that moment; `jump` does not touch the generator (the
state of the rest of the program is returned as it was, and the result does not
depend on which generator is passed), leaves `old_value` and `history` alone, and
is idempotent while the parents do not change. -/
theorem linear_value_is_product {K W T U V : Type} [HMul U V T] (rng rng' : RngBase K W)
    (x : T) (s : MCMCSpecialized T) (X : U) (b : V) (w : W) :
    (Linear.construct x X b).value = X * b ∧
    (Linear.jump rng s X b w).1.value = X * b ∧
    (Linear.jump rng s X b w).2 = w ∧
    Linear.jump rng s X b w = Linear.jump rng' s X b w ∧
    (Linear.jump rng s X b w).1.old_value = s.old_value ∧
    (Linear.jump rng s X b w).1.history = s.history ∧
    Linear.jump rng (Linear.jump rng s X b w).1 X b (Linear.jump rng s X b w).2
      = Linear.jump rng s X b w :=
  ⟨rfl, rfl, rfl, rfl, rfl, rfl, rfl⟩

/-! ### Element-wise kernels -/

/-- A mask against a scalar is set somewhere exactly when some element satisfies
the comparison. -/
theorem any_zipWith_elems_scalar {K : Type} (r : K → K → Bool) (xs : List K) (c : K) :
    (Arr.zipWith r (Arr.elems xs) (Arr.scalar c)).any = true ↔ ∃ x ∈ xs, r x c = true := by
  simp [Arr.zipWith, Arr.any, List.any_eq_true]

/-- A mask of a scalar against the elements is set somewhere exactly when some
element satisfies the comparison. -/
theorem any_zipWith_scalar_elems {K : Type} (r : K → K → Bool) (xs : List K) (c : K) :
    (Arr.zipWith r (Arr.scalar c) (Arr.elems xs)).any = true ↔ ∃ x ∈ xs, r c x = true := by
  simp [Arr.zipWith, Arr.any, List.any_eq_true]

/-- The accumulation loop of `accu` is the sum of the list. -/
theorem accu_elems {K : Type} [LinearOrderedField K] (xs : List K) :
    Arr.accu (Arr.elems xs) = xs.sum := by
  simp only [Arr.accu]
  rw [List.sum_eq_foldl]

/-- With scalar bounds, `uniform_logp` on a vector of any length returns minus
infinity if some element is out of bounds and otherwise `-log(upper - lower)`,
once, whatever the number of elements. -/
theorem uniform_logp_scalar_bounds {K : Type} [LinearOrderedField K] (log : K → K)
    (xs : List K) (lower upper : K) :
    uniform_logp log (Arr.elems xs) (Arr.scalar lower) (Arr.scalar upper)
      = if ∃ x ∈ xs, x < lower ∨ upper < x then ⊥
        else ((-(log (upper - lower)) : K) : WithBot K) := by
  unfold uniform_logp maskLt
  by_cases h : ∃ x ∈ xs, x < lower ∨ upper < x
  · rw [if_pos h, if_pos]
    obtain ⟨x, hx, hlt | hgt⟩ := h
    · rw [Bool.or_eq_true]
      left
      rw [any_zipWith_elems_scalar]
      exact ⟨x, hx, by simpa using hlt⟩
    · rw [Bool.or_eq_true]
      right
      rw [any_zipWith_scalar_elems]
      exact ⟨x, hx, by simpa using hgt⟩
  · rw [if_neg h, if_neg]
    · rfl
    · rw [Bool.or_eq_true, any_zipWith_elems_scalar, any_zipWith_scalar_elems]
      rintro (⟨x, hx, hlt⟩ | ⟨x, hx, hgt⟩)
      · exact h ⟨x, hx, Or.inl (by simpa using hlt)⟩
      · exact h ⟨x, hx, Or.inr (by simpa using hgt)⟩

/-- C11 (evaluation at the failing input): for the two observations `x = (3, 4)` with
scalar bounds `lower = 2`, `upper = 5`, `uniform_logp` returns `-log 3`: the term
`log(upper - lower)` is accumulated over the elements of `upper - lower`, a
scalar, not over the elements of `x`. The sum over the observation payload is
`-2·log 3`, a different number. -/
theorem uniform_logp_vector_scalar_bounds :
    uniform_logp Real.log (Arr.elems [3, 4]) (Arr.scalar 2) (Arr.scalar 5)
      = ((-(Real.log 3) : ℝ) : WithBot ℝ) ∧
    uniform_logp Real.log (Arr.elems [3, 4]) (Arr.scalar 2) (Arr.scalar 5)
      ≠ ((-(2 * Real.log 3) : ℝ) : WithBot ℝ) := by
  have h : uniform_logp Real.log (Arr.elems [3, 4]) (Arr.scalar 2) (Arr.scalar 5)
      = ((-(Real.log 3) : ℝ) : WithBot ℝ) := by
    rw [uniform_logp_scalar_bounds, if_neg]
    · norm_num
    · simp
      norm_num
  refine ⟨h, ?_⟩
  rw [h]
  intro e
  have e' := WithBot.coe_injective e
  have hlog : 0 < Real.log 3 := Real.log_pos (by norm_num)
  linarith

/-! ### Bernoulli log-density -/

/-- The mask `elements < scalar` is set somewhere iff some element is below it. -/
theorem maskLt_elems_scalar {K : Type} [LinearOrderedField K] (xs : List K) (c : K) :
    (maskLt (Arr.elems xs) (Arr.scalar c)).any = true ↔ ∃ y ∈ xs, y < c := by
  simp [maskLt, Arr.zipWith, Arr.any, List.any_eq_true]

/-- The mask `scalar < elements` is set somewhere iff some element is above it. -/
theorem maskLt_scalar_elems {K : Type} [LinearOrderedField K] (xs : List K) (c : K) :
    (maskLt (Arr.scalar c) (Arr.elems xs)).any = true ↔ ∃ y ∈ xs, c < y := by
  simp [maskLt, Arr.zipWith, Arr.any, List.any_eq_true]

/-- The mask `elements <= scalar` is set somewhere iff some element is at most it. -/
theorem maskLe_elems_scalar {K : Type} [LinearOrderedField K] (xs : List K) (c : K) :
    (maskLe (Arr.elems xs) (Arr.scalar c)).any = true ↔ ∃ y ∈ xs, y ≤ c := by
  simp [maskLe, Arr.zipWith, Arr.any, List.any_eq_true]

/-- The mask `scalar <= elements` is set somewhere iff some element is at least it. -/
theorem maskLe_scalar_elems {K : Type} [LinearOrderedField K] (xs : List K) (c : K) :
    (maskLe (Arr.scalar c) (Arr.elems xs)).any = true ↔ ∃ y ∈ xs, c ≤ y := by
  simp [maskLe, Arr.zipWith, Arr.any, List.any_eq_true]

/-- The masks between two scalars are the comparisons themselves. -/
theorem mask_scalar_scalar {K : Type} [LinearOrderedField K] (a b : K) :
    ((maskLt (Arr.scalar a) (Arr.scalar b)).any = true ↔ a < b) ∧
    ((maskLe (Arr.scalar a) (Arr.scalar b)).any = true ↔ a ≤ b) := by
  simp [maskLt, maskLe, Arr.zipWith, Arr.any]

/-- Adding two element-wise images of one list, element by element, is the image
under the sum. -/
theorem zipWith_add_map {K : Type} [LinearOrderedField K] (f g : K → K) (xs : List K) :
    List.zipWith (fun a b => a + b) (xs.map f) (xs.map g) = xs.map (fun y => f y + g y) := by
  induction xs with
  | nil => rfl
  | cons y ys ih => simp [ih]

/-- The element-wise Bernoulli terms of two lists, formed operand by operand as the
code forms them, are the terms formed pair by pair. -/
theorem zipWith_bernoulli {K : Type} [LinearOrderedField K] (log : K → K) :
    ∀ xs ps : List K,
      List.zipWith (fun a b => a + b)
          (List.zipWith (fun a b => a * b) xs (List.map log ps))
          (List.zipWith (fun a b => a * b) (List.map (fun b => 1 - b) xs)
            (List.map log (List.map (fun b => 1 - b) ps)))
        = List.zipWith (fun y r => y * log r + (1 - y) * log (1 - r)) xs ps := by
  intro xs
  induction xs with
  | nil => intro ps; rfl
  | cons y ys ih =>
    intro ps
    cases ps with
    | nil => rfl
    | cons r rs =>
      simp only [List.map_cons, List.zipWith_cons_cons]
      rw [ih rs]

/-- Counterexample to C20 as stated: the real-valued observation `x = 1/2` is not in
`{0, 1}`, yet with `p = 1/2` the code returns the finite value `log (1/2)`, not
minus infinity. -/
theorem bernoulli_logp_half_is_finite :
    bernoulli_logp Real.log (Arr.scalar (1 / 2)) (Arr.scalar (1 / 2))
      = ((Real.log (1 / 2) : ℝ) : WithBot ℝ) ∧
    bernoulli_logp Real.log (Arr.scalar (1 / 2)) (Arr.scalar (1 / 2)) ≠ ⊥ := by
  have h : bernoulli_logp Real.log (Arr.scalar (1 / 2)) (Arr.scalar (1 / 2))
      = ((Real.log (1 / 2) : ℝ) : WithBot ℝ) := by
    unfold bernoulli_logp maskLe maskLt
    simp only [Arr.zipWith, Arr.any, Arr.map, Arr.accu]
    rw [if_neg (by norm_num)]
    congr 1
    norm_num
    ring
  exact ⟨h, by rw [h]; exact WithBot.coe_ne_bot⟩

/-- C20 (amended): `bernoulli_logp(x, p)` returns minus infinity if some `p` is
outside the open interval `(0,1)` or some element of `x` is below `0` or above `1`,
and otherwise the sum over the elements of `x·log(p) + (1-x)·log(1-p)`; for an
integer-valued payload "below 0 or above 1" is "not in {0, 1}". Stated for a
scalar observation, for a vector with a shared scalar `p`, and for a vector with
one `p` per element. -/
theorem bernoulli_logp_range_guard {K : Type} [LinearOrderedField K] (log : K → K)
    (x q : K) (xs ps : List K) (zs : List ℤ) :
    (bernoulli_logp log (Arr.scalar x) (Arr.scalar q)
      = if q ≤ 0 ∨ 1 ≤ q ∨ x < 0 ∨ 1 < x then ⊥
        else ((x * log q + (1 - x) * log (1 - q) : K) : WithBot K)) ∧
    (bernoulli_logp log (Arr.elems xs) (Arr.scalar q)
      = if q ≤ 0 ∨ 1 ≤ q ∨ (∃ y ∈ xs, y < 0) ∨ (∃ y ∈ xs, 1 < y) then ⊥
        else (((xs.map (fun y => y * log q + (1 - y) * log (1 - q))).sum : K) : WithBot K)) ∧
    (bernoulli_logp log (Arr.elems xs) (Arr.elems ps)
      = if (∃ r ∈ ps, r ≤ 0) ∨ (∃ r ∈ ps, 1 ≤ r) ∨ (∃ y ∈ xs, y < 0) ∨ (∃ y ∈ xs, 1 < y) then ⊥
        else (((List.zipWith (fun y r => y * log r + (1 - y) * log (1 - r)) xs ps).sum : K) :
          WithBot K)) ∧
    (((∃ y ∈ zs.map (fun (z : ℤ) => (z : K)), y < 0) ∨ (∃ y ∈ zs.map (fun (z : ℤ) => (z : K)), 1 < y))
      ↔ ∃ z ∈ zs, z ≠ 0 ∧ z ≠ 1) := by
  refine ⟨?_, ?_, ?_, ?_⟩
  · unfold bernoulli_logp maskLe maskLt
    simp only [Arr.zipWith, Arr.any, Arr.map, Arr.accu, Bool.or_eq_true, decide_eq_true_eq,
      or_assoc]
  · unfold bernoulli_logp
    simp only [Bool.or_eq_true, maskLt_elems_scalar, maskLt_scalar_elems,
      (mask_scalar_scalar _ _).1, (mask_scalar_scalar _ _).2, or_assoc]
    split
    · rfl
    · congr 1
      simp only [Arr.zipWith, Arr.map, accu_elems, List.map_map]
      rw [zipWith_add_map]
      rfl
  · unfold bernoulli_logp
    simp only [Bool.or_eq_true, maskLt_elems_scalar, maskLt_scalar_elems,
      maskLe_elems_scalar, maskLe_scalar_elems, or_assoc]
    split
    · rfl
    · congr 1
      simp only [Arr.zipWith, Arr.map, accu_elems]
      exact congrArg List.sum (zipWith_bernoulli log xs ps)
  · constructor
    · rintro (⟨y, hy, hlt⟩ | ⟨y, hy, hgt⟩)
      · obtain ⟨z, hz, rfl⟩ := List.mem_map.mp hy
        have hz0 : z < 0 := by exact_mod_cast hlt
        exact ⟨z, hz, by omega, by omega⟩
      · obtain ⟨z, hz, rfl⟩ := List.mem_map.mp hy
        have hz1 : 1 < z := by exact_mod_cast hgt
        exact ⟨z, hz, by omega, by omega⟩
    · rintro ⟨z, hz, h0, h1⟩
      by_cases hneg : z < 0
      · exact Or.inl ⟨(z : K), List.mem_map.mpr ⟨z, hz, rfl⟩, by exact_mod_cast hneg⟩
      · have hz1 : 1 < z := by omega
        exact Or.inr ⟨(z : K), List.mem_map.mpr ⟨z, hz, rfl⟩, by exact_mod_cast hz1⟩

/-! ### Support of Uniform and Gamma nodes -/

/-- Counterexample to C13 as stated: the constructor stores the initial value
unchecked, so `UniformStatic(10, 2, 5)` has `value = 10`, above `upper = 5`. -/
theorem uniform_static_constructed_outside :
    (UniformStatic.construct (10 : ℚ) 2 5 false).value = 10 ∧
    ¬ ((UniformStatic.construct (10 : ℚ) 2 5 false).lower_
          ≤ (UniformStatic.construct (10 : ℚ) 2 5 false).value ∧
        (UniformStatic.construct (10 : ℚ) 2 5 false).value
          ≤ (UniformStatic.construct (10 : ℚ) 2 5 false).upper_) := by
  refine ⟨rfl, ?_⟩
  show ¬ ((2 : ℚ) ≤ 10 ∧ (10 : ℚ) ≤ 5)
  norm_num

/-- When the loop of `UniformStatic::jump` ends, the value it leaves is within the
bounds. -/
theorem uniform_jump_loop_bounds {K W : Type} [LinearOrderedField K] (rng : RngBase K W)
    (oldvalue scale lower upper : K) (fuel : ℕ) :
    ∀ (w : W) (r : K × W),
      UniformStatic.jump_loop rng oldvalue scale lower upper fuel w = some r →
      lower ≤ r.1 ∧ r.1 ≤ upper := by
  induction fuel with
  | zero => intro w r h; simp [UniformStatic.jump_loop] at h
  | succ k ih =>
    intro w r h
    unfold UniformStatic.jump_loop at h
    simp only at h
    split at h
    · exact ih _ r h
    · rename_i hin
      have hr := Option.some.inj h
      subst hr
      rw [not_or, not_lt, not_lt] at hin
      exact hin

/-- C13 (amended): a `UniformStatic` node constructed with an initial value in
`[lower, upper]` has its value within the bounds; after every `jump` of an
unobserved node that returns, for every initial value, scale and draws, the value
is within the bounds; and a `jump` that returns keeps a value that was within the
bounds within them (observed or not) and does not change the bounds. -/
theorem uniform_static_bounds {K W : Type} [LinearOrderedField K] (rng : RngBase K W)
    (x lower upper : K) (observed : Bool) (fuel : ℕ) (s s' : UniformStatic K) (w w' : W)
    (hx : lower ≤ x ∧ x ≤ upper)
    (h : UniformStatic.jump rng fuel s w = some (s', w')) :
    ((UniformStatic.construct x lower upper observed).lower_
        ≤ (UniformStatic.construct x lower upper observed).value ∧
      (UniformStatic.construct x lower upper observed).value
        ≤ (UniformStatic.construct x lower upper observed).upper_) ∧
    (s.observed_ = false → s'.lower_ ≤ s'.value ∧ s'.value ≤ s'.upper_) ∧
    (s.lower_ ≤ s.value ∧ s.value ≤ s.upper_ → s'.lower_ ≤ s'.value ∧ s'.value ≤ s'.upper_) ∧
    s'.lower_ = s.lower_ ∧ s'.upper_ = s.upper_ := by
  refine ⟨hx, ?_⟩
  unfold UniformStatic.jump at h
  simp only at h
  cases hobs : s.observed_ with
  | true =>
    rw [hobs, if_pos rfl] at h
    have e := Option.some.inj h
    have es : s = s' := congrArg Prod.fst e
    subst es
    exact ⟨fun hf => absurd hf (by simp), fun hb => hb, rfl, rfl⟩
  | false =>
    rw [hobs, if_neg (by simp)] at h
    cases hl : UniformStatic.jump_loop rng s.value s.scale_ s.lower_ s.upper_ fuel w with
    | none => rw [hl] at h; simp at h
    | some r =>
      rw [hl] at h
      have e := Option.some.inj h
      have es : s' = _ := (congrArg Prod.fst e).symm
      have hb := uniform_jump_loop_bounds rng _ _ _ _ fuel w r hl
      subst es
      exact ⟨fun _ => hb, fun _ => hb, rfl, rfl⟩

/-- Witness for C13 (amended): the node `UniformStatic(3, 2, 5)` in the demo program,
whose first proposal `3 + 1/2` is within the bounds. -/
theorem uniform_static_bounds_witness :
    ((2 : ℚ) ≤ 3 ∧ (3 : ℚ) ≤ 5) ∧
    UniformStatic.jump Demo.rng 1 (UniformStatic.construct (3 : ℚ) 2 5 false) 0
      = some ({ UniformStatic.construct (3 : ℚ) 2 5 false with value := 7 / 2 }, 1) ∧
    ((2 : ℚ) ≤ 7 / 2 ∧ (7 / 2 : ℚ) ≤ 5) :=
  ⟨by norm_num,
    by
      simp only [UniformStatic.jump, UniformStatic.jump_loop, UniformStatic.construct,
        StochasticDouble.construct, MCMCSpecialized.construct, Demo.rng]
      norm_num,
    (uniform_static_bounds Demo.rng 3 2 5 false 1 (UniformStatic.construct (3 : ℚ) 2 5 false)
      { UniformStatic.construct (3 : ℚ) 2 5 false with value := 7 / 2 } 0 1 (by norm_num)
      (by
        simp only [UniformStatic.jump, UniformStatic.jump_loop, UniformStatic.construct,
          StochasticDouble.construct, MCMCSpecialized.construct, Demo.rng]
        norm_num)).2.1 rfl⟩

/-- Counterexample to C14 as stated: the constructor stores the initial value
unchecked, so `GammaStatic(-1, 2, 1)` has `value = -1`, which is negative. -/
theorem gamma_static_constructed_negative :
    (GammaStatic.construct (-1 : ℚ) 2 1 false).value = -1 ∧
    ¬ (0 ≤ (GammaStatic.construct (-1 : ℚ) 2 1 false).value) := by
  refine ⟨rfl, ?_⟩
  show ¬ ((0 : ℚ) ≤ -1)
  norm_num

/-- When the loop of `GammaStatic::jump` ends, the value it leaves is not negative. -/
theorem positive_jump_loop_nonneg {K W : Type} [LinearOrderedField K] (rng : RngBase K W)
    (oldvalue scale : K) (fuel : ℕ) :
    ∀ (w : W) (r : K × W), positive_jump_loop rng oldvalue scale fuel w = some r → 0 ≤ r.1 := by
  induction fuel with
  | zero => intro w r h; simp [positive_jump_loop] at h
  | succ k ih =>
    intro w r h
    unfold positive_jump_loop at h
    simp only at h
    split at h
    · exact ih _ r h
    · rename_i hin
      have hr := Option.some.inj h
      subst hr
      exact not_lt.mp hin

/-- When `positive_jump_impl` ends, no element of the value it leaves is negative. -/
theorem positive_jump_impl_nonneg {K W : Type} [LinearOrderedField K] (rng : RngBase K W)
    (oldvalue : Arr K) (scale : K) (fuel : ℕ) :
    ∀ (w : W) (r : Arr K × W), positive_jump_impl rng oldvalue scale fuel w = some r →
      ∀ y ∈ r.1.toList, 0 ≤ y := by
  induction fuel with
  | zero => intro w r h; simp [positive_jump_impl] at h
  | succ k ih =>
    intro w r h
    unfold positive_jump_impl at h
    simp only at h
    split at h
    · exact ih _ r h
    · rename_i hin
      have hr := Option.some.inj h
      subst hr
      intro y hy
      by_contra hneg
      apply hin
      cases hv : (proposeArr rng scale oldvalue w).1 with
      | scalar x =>
        rw [hv] at hy
        simp only [Arr.toList, List.mem_singleton] at hy
        subst hy
        exact (mask_scalar_scalar y 0).1.mpr (not_le.mp hneg)
      | elems xs =>
        rw [hv] at hy
        exact (maskLt_elems_scalar xs 0).mpr ⟨y, hy, not_le.mp hneg⟩

/-- The terms of `gamma_logp` on a vector with scalar parameters, summed. -/
theorem gamma_logp_elems_scalar {K : Type} [LinearOrderedField K] (log lgamma : K → K)
    (xs : List K) (a b : K) :
    gamma_logp log lgamma (Arr.elems xs) (Arr.scalar a) (Arr.scalar b)
      = if ∃ y ∈ xs, y < 0 then ⊥
        else (((xs.map (fun y => (a - 1) * log y - b * y - lgamma a + a * log b)).sum : K) :
          WithBot K) := by
  unfold gamma_logp
  simp only [maskLt_elems_scalar]
  split
  · rfl
  · congr 1
    simp only [Arr.zipWith, Arr.map, accu_elems, List.map_map]
    congr 1
    clear * -
    induction xs with
    | nil => rfl
    | cons y ys ih =>
      simp only [List.map_cons, List.zipWith_cons_cons, Function.comp]
      rw [ih]
      norm_num

/-- C14 (amended): a `GammaStatic` node constructed with a nonnegative initial value
has `value ≥ 0`; after every `jump` that returns, for every scale and draws, an
unobserved `GammaStatic` node has `value ≥ 0` whatever the value before, every node
keeps a nonnegative value nonnegative, and every element of the value of a
`Gamma` node is `≥ 0`. `Gamma::loglik` is `gamma_logp(value, alpha, beta)`, which
on a vector with scalar parameters is minus infinity if some element is negative
and otherwise the sum of `(α-1)·log(x) - β·x - lgamma(α) + α·log(β)`;
`GammaStatic::logp` is the same function of its scalar value. -/
theorem gamma_value_nonneg {K W : Type} [LinearOrderedField K] (rng : RngBase K W)
    (log lgamma : K → K) (x a b : K) (observed : Bool) (fuel : ℕ) (s s' : GammaStatic K)
    (g g' : Gamma K) (w w' u u' : W) (alpha beta : Arr K) (xs : List K)
    (hx : 0 ≤ x)
    (hs : GammaStatic.jump rng fuel s w = some (s', w'))
    (hg : Gamma.jump rng fuel g u = some (g', u')) :
    0 ≤ (GammaStatic.construct x a b observed).value ∧
    (s.observed_ = false → 0 ≤ s'.value) ∧
    (0 ≤ s.value → 0 ≤ s'.value) ∧
    (∀ y ∈ g'.value.toList, 0 ≤ y) ∧
    Gamma.loglik log lgamma g alpha beta = gamma_logp log lgamma g.value alpha beta ∧
    (gamma_logp log lgamma (Arr.elems xs) (Arr.scalar a) (Arr.scalar b)
      = if ∃ y ∈ xs, y < 0 then ⊥
        else (((xs.map (fun y => (a - 1) * log y - b * y - lgamma a + a * log b)).sum : K) :
          WithBot K)) ∧
    (gamma_logp log lgamma (Arr.scalar x) (Arr.scalar a) (Arr.scalar b)
      = if x < 0 then ⊥
        else (((a - 1) * log x - b * x - lgamma a + a * log b : K) : WithBot K)) ∧
    GammaStatic.logp log lgamma s
      = gamma_logp log lgamma (Arr.scalar s.value) (Arr.scalar s.alpha_) (Arr.scalar s.beta_) := by
  refine ⟨hx, ?_, ?_, ?_, rfl, gamma_logp_elems_scalar log lgamma xs a b, ?_, ?_⟩
  · intro hobs
    unfold GammaStatic.jump at hs
    simp only [hobs, Bool.false_eq_true, if_false] at hs
    cases hl : positive_jump_loop rng s.value s.scale_ fuel w with
    | none => rw [hl] at hs; simp at hs
    | some r =>
      rw [hl] at hs
      have e : s' = _ := (congrArg Prod.fst (Option.some.inj hs)).symm
      subst e
      exact positive_jump_loop_nonneg rng _ _ fuel w r hl
  · intro hv
    unfold GammaStatic.jump at hs
    simp only at hs
    cases hobs : s.observed_ with
    | true =>
      rw [hobs, if_pos rfl] at hs
      have e : s = s' := congrArg Prod.fst (Option.some.inj hs)
      subst e
      exact hv
    | false =>
      rw [hobs, if_neg (by simp)] at hs
      cases hl : positive_jump_loop rng s.value s.scale_ fuel w with
      | none => rw [hl] at hs; simp at hs
      | some r =>
        rw [hl] at hs
        have e : s' = _ := (congrArg Prod.fst (Option.some.inj hs)).symm
        subst e
        exact positive_jump_loop_nonneg rng _ _ fuel w r hl
  · unfold Gamma.jump at hg
    cases hl : positive_jump_impl rng g.value g.scale_ fuel u with
    | none => rw [hl] at hg; simp at hg
    | some r =>
      rw [hl] at hg
      have e : g' = _ := (congrArg Prod.fst (Option.some.inj hg)).symm
      subst e
      exact positive_jump_impl_nonneg rng _ _ fuel u r hl
  · unfold gamma_logp
    simp only [(mask_scalar_scalar _ _).1]
    split
    · rfl
    · congr 1
      simp only [Arr.zipWith, Arr.map, Arr.accu]
      norm_num
  · unfold GammaStatic.logp gamma_logp
    simp only [(mask_scalar_scalar _ _).1]
    split
    · rfl
    · rfl

/-- Witness for C14 (amended): the nodes `GammaStatic(1, 2, 1)` and `Gamma` with value
`(1, 2)` in the demo program, whose first proposals are positive. -/
theorem gamma_value_nonneg_witness :
    ((0 : ℚ) ≤ 1) ∧
    GammaStatic.jump Demo.rng 1 (GammaStatic.construct (1 : ℚ) 2 1 false) 0
      = some ({ GammaStatic.construct (1 : ℚ) 2 1 false with value := 3 / 2 }, 1) ∧
    Gamma.jump Demo.rng 1
        { toMCMCSpecialized := MCMCSpecialized.construct (Arr.elems [(1 : ℚ), 2]), scale_ := 1 } 0
      = some ({ toMCMCSpecialized :=
                  { MCMCSpecialized.construct (Arr.elems [(1 : ℚ), 2]) with
                    value := Arr.elems [3 / 2, 3] },
                scale_ := 1 }, 2) ∧
    (∀ y ∈ (Arr.elems [(3 / 2 : ℚ), 3]).toList, 0 ≤ y) :=
  ⟨by norm_num,
    by
      simp only [GammaStatic.jump, positive_jump_loop, GammaStatic.construct,
        StochasticDouble.construct, MCMCSpecialized.construct, Demo.rng]
      norm_num,
    by
      simp only [Gamma.jump, positive_jump_impl, proposeArr, Wishart.jumpList, maskLt,
        Arr.zipWith, Arr.any, MCMCSpecialized.construct, Demo.rng]
      norm_num,
    (gamma_value_nonneg Demo.rng (fun _ => 0) (fun _ => 0) 1 2 1 false 1
      (GammaStatic.construct (1 : ℚ) 2 1 false)
      { GammaStatic.construct (1 : ℚ) 2 1 false with value := 3 / 2 }
      { toMCMCSpecialized := MCMCSpecialized.construct (Arr.elems [(1 : ℚ), 2]), scale_ := 1 }
      { toMCMCSpecialized :=
          { MCMCSpecialized.construct (Arr.elems [(1 : ℚ), 2]) with
            value := Arr.elems [3 / 2, 3] },
        scale_ := 1 }
      0 1 0 2 (Arr.scalar 2) (Arr.scalar 1) [1, 2] (by norm_num)
      (by
        simp only [GammaStatic.jump, positive_jump_loop, GammaStatic.construct,
          StochasticDouble.construct, MCMCSpecialized.construct, Demo.rng]
        norm_num)
      (by
        simp only [Gamma.jump, positive_jump_impl, proposeArr, Wishart.jumpList, maskLt,
          Arr.zipWith, Arr.any, MCMCSpecialized.construct, Demo.rng]
        norm_num)).2.2.2.1⟩

/-! ### Observed nodes -/

/-- On a node whose snapshot equals its value, `preserve` and `revert` change
nothing. -/
theorem preserve_revert_fixed {T : Type} (s : Stochastic T) (h : s.old_value = s.value) :
    ({ s with toMCMCSpecialized := s.toMCMCSpecialized.preserve } : Stochastic T) = s ∧
    ({ s with toMCMCSpecialized := s.toMCMCSpecialized.revert } : Stochastic T) = s := by
  obtain ⟨⟨v, o, hist⟩, ob, a, r, sc⟩ := s
  simp only at h
  subst h
  exact ⟨rfl, rfl⟩

/-- One operation leaves an observed node of the template, and the rest of the
program, as they were. -/
theorem perform_observed {K W L E : Type} [LinearOrderedField K] [Zero E] [One E] [Add E]
    [Elem K E] {n : Nat} (rng : RngBase K W) (m : MCModelBase W (Fin n → E) L) (op : NodeOp)
    (s : Stochastic (Fin n → E)) (w : W) (hs : s.observed_ = true)
    (hv : s.old_value = s.value) :
    Stochastic.perform rng m op (s, w) = (s, w) := by
  cases op with
  | jump => simp [Stochastic.perform, Stochastic.jump, hs]
  | component_jump => simp [Stochastic.perform, Stochastic.component_jump, hs]
  | tune => simp [Stochastic.perform, Stochastic.tune, hs]
  | preserve =>
    show (_, w) = (s, w)
    rw [(preserve_revert_fixed s hv).1]
  | revert =>
    show (_, w) = (s, w)
    rw [(preserve_revert_fixed s hv).2]

/-- One operation leaves an observed node of `Stochastic<double>`, and the rest of
the program, as they were. -/
theorem perform_double_observed {K W L : Type} [LinearOrderedField K] (rng : RngBase K W)
    (m : MCModelBase W K L) (op : NodeOp) (s : Stochastic K) (w : W)
    (hs : s.observed_ = true) (hv : s.old_value = s.value) :
    StochasticDouble.perform rng m op (s, w) = (s, w) := by
  cases op with
  | jump => simp [StochasticDouble.perform, StochasticDouble.jump, hs]
  | component_jump => simp [StochasticDouble.perform, StochasticDouble.component_jump, hs]
  | tune => simp [StochasticDouble.perform, StochasticDouble.tune, hs]
  | preserve =>
    show (_, w) = (s, w)
    rw [(preserve_revert_fixed s hv).1]
  | revert =>
    show (_, w) = (s, w)
    rw [(preserve_revert_fixed s hv).2]

/-- C12: an observed stochastic node whose snapshot equals its value (as it does from
construction on) is left unchanged, field by field, by every sequence of `jump`,
`component_jump`, `tune`, `preserve` and `revert`, and so is the state of the rest
of the program, the generator included: no draw is consumed. The same holds for
the specialised `jump` of `UniformStatic`, `GammaStatic` and `BinomialStatic`,
which returns at once for any fuel. Constructed nodes have their snapshot equal
to their value, so after any such sequence the value is the one of construction. -/
theorem observed_node_is_fixed {K W L E : Type} [LinearOrderedField K] [Zero E] [One E] [Add E]
    [Elem K E] {n : Nat} (rng : RngBase K W) (m : MCModelBase W (Fin n → E) L)
    (md : MCModelBase W K L) (s : Stochastic (Fin n → E)) (d : Stochastic K)
    (us : UniformStatic K) (gs : GammaStatic K) (bs : BinomialStatic K)
    (ops : List NodeOp) (w : W) (fuel : ℕ)
    (hs : s.observed_ = true ∧ s.old_value = s.value)
    (hd : d.observed_ = true ∧ d.old_value = d.value)
    (hu : us.observed_ = true) (hg : gs.observed_ = true) (hb : bs.observed_ = true) :
    ops.foldl (fun st op => Stochastic.perform rng m op st) (s, w) = (s, w) ∧
    ops.foldl (fun st op => StochasticDouble.perform rng md op st) (d, w) = (d, w) ∧
    UniformStatic.jump rng fuel us w = some (us, w) ∧
    GammaStatic.jump rng fuel gs w = some (gs, w) ∧
    BinomialStatic.jump rng fuel bs w = some (bs, w) ∧
    (∀ (v : Fin n → E), (Stochastic.construct v true).observed_ = true ∧
      (Stochastic.construct v true).old_value = (Stochastic.construct v true).value) ∧
    (∀ (x : K), (StochasticDouble.construct x true).observed_ = true ∧
      (StochasticDouble.construct x true).old_value = (StochasticDouble.construct x true).value) := by
  refine ⟨?_, ?_, ?_, ?_, ?_, fun v => ⟨rfl, rfl⟩, fun x => ⟨rfl, rfl⟩⟩
  · induction ops with
    | nil => rfl
    | cons op ops ih => rw [List.foldl_cons, perform_observed rng m op s w hs.1 hs.2, ih]
  · induction ops with
    | nil => rfl
    | cons op ops ih => rw [List.foldl_cons, perform_double_observed rng md op d w hd.1 hd.2, ih]
  · simp [UniformStatic.jump, hu]
  · simp [GammaStatic.jump, hg]
  · simp [BinomialStatic.jump, hb]

/-- Witness for C12: observed nodes constructed over `ℚ` in the demo program. -/
theorem observed_node_is_fixed_witness :
    ((Stochastic.construct ![(1 : ℚ), 2] true).observed_ = true ∧
      (Stochastic.construct ![(1 : ℚ), 2] true).old_value
        = (Stochastic.construct ![(1 : ℚ), 2] true).value) ∧
    [NodeOp.preserve, NodeOp.jump, NodeOp.component_jump, NodeOp.revert, NodeOp.tune].foldl
        (fun st op => Stochastic.perform Demo.rng (Demo.model (Fin 2 → ℚ)) op st)
        (Stochastic.construct ![(1 : ℚ), 2] true, 0)
      = (Stochastic.construct ![(1 : ℚ), 2] true, 0) ∧
    UniformStatic.jump Demo.rng 0 (UniformStatic.construct (10 : ℚ) 2 5 true) 0
      = some (UniformStatic.construct (10 : ℚ) 2 5 true, 0) :=
  ⟨⟨rfl, rfl⟩,
    (observed_node_is_fixed Demo.rng (Demo.model (Fin 2 → ℚ)) (Demo.model ℚ)
      (Stochastic.construct ![(1 : ℚ), 2] true) (StochasticDouble.construct (1 : ℚ) true)
      (UniformStatic.construct (10 : ℚ) 2 5 true) (GammaStatic.construct (1 : ℚ) 2 1 true)
      (BinomialStatic.construct (1 : ℚ) 2 (1 / 2) true)
      [NodeOp.preserve, NodeOp.jump, NodeOp.component_jump, NodeOp.revert, NodeOp.tune] 0 0
      ⟨rfl, rfl⟩ ⟨rfl, rfl⟩ rfl rfl rfl).1,
    (observed_node_is_fixed Demo.rng (Demo.model (Fin 2 → ℚ)) (Demo.model ℚ)
      (Stochastic.construct ![(1 : ℚ), 2] true) (StochasticDouble.construct (1 : ℚ) true)
      (UniformStatic.construct (10 : ℚ) 2 5 true) (GammaStatic.construct (1 : ℚ) 2 1 true)
      (BinomialStatic.construct (1 : ℚ) 2 (1 / 2) true)
      [NodeOp.preserve, NodeOp.jump, NodeOp.component_jump, NodeOp.revert, NodeOp.tune] 0 0
      ⟨rfl, rfl⟩ ⟨rfl, rfl⟩ rfl rfl rfl).2.2.1⟩

/-! ### Guards of the log-densities -/

/-- The unsigned conversion of `-2` is `2^32 - 2`. -/
theorem uwordOfInt_neg_two : uwordOfInt (-2) = 4294967294 := by decide

/-- C16 (evaluation at the failing input): for `X = [1]`, `tau = [1]` and `n = -2` the
order `1` exceeds `n`, yet the test `X.n_cols > n` compares unsigned values
(`-2` converts to `2^32 - 2`) and does not fire; both determinants are `1`, and
the code returns the finite value `-1/2 + log 2 - lgamma(-1/2)`, not minus
infinity. -/
theorem wishart_logp_negative_n :
    ((1 : ℤ) > -2) ∧
    wishart_logp Real.log lgammaReal (1 : Matrix (Fin 1) (Fin 1) ℝ)
        (1 : Matrix (Fin 1) (Fin 1) ℝ) (-2)
      = ((-1 / 2 + Real.log 2 - lgammaReal (-1 / 2) : ℝ) : WithBot ℝ) ∧
    wishart_logp Real.log lgammaReal (1 : Matrix (Fin 1) (Fin 1) ℝ)
        (1 : Matrix (Fin 1) (Fin 1) ℝ) (-2) ≠ ⊥ := by
  have hq : Int.tdiv (-2 - ((1 : ℕ) : ℤ) - 1) 2 = -2 := by decide
  have hcode : wishart_logp Real.log lgammaReal (1 : Matrix (Fin 1) (Fin 1) ℝ)
        (1 : Matrix (Fin 1) (Fin 1) ℝ) (-2)
      = ((-1 / 2 + Real.log 2 - lgammaReal (-1 / 2) : ℝ) : WithBot ℝ) := by
    unfold wishart_logp
    rw [dif_neg (by rw [uwordOfInt_neg_two]; decide)]
    simp only [Fin.cast_refl, Matrix.submatrix_id_id]
    have hloop : forLoop 1 (fun (_ : Fin 1) (acc : ℝ) =>
        acc + lgammaReal ((((-2 : ℤ) + 1 : ℤ) : ℝ) / 2.0)) 0 = lgammaReal (-1 / 2) := by
      have e : ((((-2 : ℤ) + 1 : ℤ) : ℝ) / 2.0) = -1 / 2 := by norm_num
      rw [e]
      simp [forLoop, List.finRange]
    rw [Matrix.det_one, if_neg (by norm_num), hq, hloop, mul_one, Matrix.trace_one,
      Fintype.card_fin, Real.log_one]
    congr 1
    norm_num
  exact ⟨by decide, hcode, by rw [hcode]; exact WithBot.coe_ne_bot⟩

/-- C18 (evaluation at the failing inputs): the overload with a single index has no
guard. With `p = (3/2)`, a probability outside `(0,1)`, and `x = 0` it returns
`log (3/2)` where the vector overload returns minus infinity; with
`p = (1/2, 1/2)` and `x = 2` or `x = -1` it reads an element outside `p` where the
vector overload returns minus infinity without reading. -/
theorem categorical_logp_int_unguarded (log : ℚ → ℚ) :
    categorical_logp_int log 0 [3 / 2] = some ((log (3 / 2) : ℚ) : WithBot ℚ) ∧
    categorical_logp_vec log [0] [3 / 2] = some ⊥ ∧
    categorical_logp_int log 2 [1 / 2, 1 / 2] = none ∧
    categorical_logp_vec log [2] [1 / 2, 1 / 2] = some ⊥ ∧
    categorical_logp_int log (-1) [1 / 2, 1 / 2] = none ∧
    categorical_logp_vec log [-1] [1 / 2, 1 / 2] = some ⊥ := by
  refine ⟨?_, ?_, ?_, ?_, ?_, ?_⟩
  · simp [categorical_logp_int, readVec]
  · simp [categorical_logp_vec]
    norm_num
  · simp [categorical_logp_int, readVec]
  · simp [categorical_logp_vec]
  · simp [categorical_logp_int, readVec]
  · simp [categorical_logp_vec]

/-! ### Binomial log-density -/

/-- Truncation of an integer-valued double is that integer. -/
theorem truncate_intCast (K : Type) [LinearOrderedField K] [FloorRing K] (z : ℤ) :
    truncate (z : K) = z := by
  unfold truncate
  split <;> simp

/-- C19 (evaluation at the failing input): for a `BinomialStatic` node with
`value = 3`, `n = 2`, `p = 1/2`, the only guard of `logp` is `value < 0`, so
`actual_logp` runs and subtracts `factln(n - value) = factln(-1)`, which is minus
infinity: the result is plus infinity, for any `log` and `lgamma` and the empty
memo table. `binomial_logp` on the same arguments returns minus infinity through
its guard `x > n`. -/
theorem binomial_static_logp_plus_infinity (log lgamma : ℚ → ℚ) :
    (BinomialStatic.logp log lgamma (fun _ => none)
        (BinomialStatic.construct (3 : ℚ) 2 (1 / 2) false)).1 = Dbl.posInf ∧
    (binomial_logp log lgamma [] (Arr.scalar (3 : ℚ)) (Arr.scalar 2) (Arr.scalar (1 / 2))).1
      = Dbl.negInf := by
  constructor
  · have h2 : truncate (2 : ℚ) = 2 := by exact_mod_cast truncate_intCast ℚ 2
    have h3 : truncate (3 : ℚ) = 3 := by exact_mod_cast truncate_intCast ℚ 3
    have hm : truncate ((2 : ℚ) - 3) = -1 := by
      have e : ((2 : ℚ) - 3) = ((-1 : ℤ) : ℚ) := by norm_num
      rw [e, truncate_intCast]
    unfold BinomialStatic.logp
    simp only [BinomialStatic.construct, StochasticDouble.construct, MCMCSpecialized.construct]
    rw [if_neg (by norm_num), h2, h3, hm]
    simp [factln, Function.update, Dbl.ofWithBot]
    rfl
  · unfold binomial_logp
    rw [if_pos]
    simp [maskLt, maskLe, Arr.zipWith, Arr.any]
    norm_num

/-! ### Construction of a Wishart node -/

/-- C17 (evaluation at the failing input): the initial value `[1 1; 1 2]` is symmetric
and positive definite, `tau` is the identity and `n = 2`, yet construction throws
"did not recover original value.": the off-diagonal vector is read from the
lower triangle of the upper factor returned by `chol`, so it is zero, and the
matrix rebuilt is diagonal. -/
theorem wishart_construct_nondiagonal :
    (!![(1 : ℝ), 1; 1, 2]).transpose = !![(1 : ℝ), 1; 1, 2] ∧
    (!![(1 : ℝ), 1; 1, 2]).PosDef ∧
    Wishart.construct Real.log Real.exp Demo.chol2 1 !![1, 1; 1, 2] 1 2
      = Except.error "did not recover original value." := by
  have hL : !![(1 : ℝ), 1; 1, 2] = !![(1 : ℝ), 0; 1, 1] * (!![(1 : ℝ), 0; 1, 1]).transpose := by
    rw [transpose_fin_two]
    ext i j
    fin_cases i <;> fin_cases j <;> norm_num [Matrix.mul_apply, Fin.sum_univ_two]
  have hdet : (!![(1 : ℝ), 0; 1, 1]).det ≠ 0 := by
    rw [Matrix.det_fin_two]; norm_num
  have hspd := posDef_mul_transpose _ hdet
  rw [← hL] at hspd
  refine ⟨hspd.1, hspd.2, ?_⟩
  have hld : lower_diag 2 = [1] := by decide
  unfold Wishart.construct
  simp only [Demo.chol2_values.1, Demo.chol2_values.2.1]
  rw [if_neg (by norm_num), if_pos]
  intro h
  have h01 := congrFun (congrFun h 0) 1
  rw [hld] at h01
  simp [setElems, setElem, setDiag, elemAt, Matrix.mul_apply, Fin.sum_univ_two] at h01

/-! ### Memo tables of the log-factorial -/

/-- A fresh evaluation of `factln`, on the empty table: minus infinity below zero,
the value of `factln_single` otherwise. -/
theorem factln_fresh_value {K : Type} [LinearOrderedField K] (log lgamma : K → K) (n : ℤ) :
    (factln log lgamma (fun _ => none) n).1
      = if n < 0 then ⊥ else ((factln_single log lgamma n : K) : WithBot K) := by
  unfold factln
  split <;> rfl

/-- On a sound memo table, `factln` returns the fresh value, keeps the table sound
and keeps every existing entry. -/
theorem factln_on_sound_table {K : Type} [LinearOrderedField K] (log lgamma : K → K)
    (t : ℤ → Option K)
    (ht : ∀ k v, t k = some v → 0 ≤ k ∧ v = factln_single log lgamma k) (q : ℤ) :
    (factln log lgamma t q).1 = (factln log lgamma (fun _ => none) q).1 ∧
    (∀ k v, (factln log lgamma t q).2 k = some v → 0 ≤ k ∧ v = factln_single log lgamma k) ∧
    (∀ k v, t k = some v → (factln log lgamma t q).2 k = some v) := by
  rw [factln_fresh_value]
  unfold factln
  by_cases hq : q < 0
  · simp only [if_pos hq]
    exact ⟨trivial, ht, fun k v h => h⟩
  · simp only [if_neg hq]
    cases htq : t q with
    | none =>
      simp only
      refine ⟨trivial, ?_, ?_⟩
      · intro k v hkv
        by_cases hk : k = q
        · subst hk
          rw [Function.update_same] at hkv
          exact ⟨not_lt.mp hq, (Option.some.inj hkv).symm⟩
        · rw [Function.update_noteq hk] at hkv
          exact ht k v hkv
      · intro k v hkv
        by_cases hk : k = q
        · subst hk
          rw [htq] at hkv
          exact absurd hkv (by simp)
        · rw [Function.update_noteq hk]
          exact hkv
    | some x =>
      simp only
      refine ⟨?_, ht, fun k v h => h⟩
      rw [(ht q x htq).2]

/-- Every memo table of `factln` reached from the empty table is sound. -/
theorem factln_table_after_sound {K : Type} [LinearOrderedField K] (log lgamma : K → K)
    (queries : List ℤ) :
    ∀ k v, factln_table_after log lgamma queries k = some v →
      0 ≤ k ∧ v = factln_single log lgamma k := by
  unfold factln_table_after
  have gen : ∀ (qs : List ℤ) (t : ℤ → Option K),
      (∀ k v, t k = some v → 0 ≤ k ∧ v = factln_single log lgamma k) →
      ∀ k v, qs.foldl (fun t q => (factln log lgamma t q).2) t k = some v →
        0 ≤ k ∧ v = factln_single log lgamma k := by
    intro qs
    induction qs with
    | nil => intro t ht; exact ht
    | cons q qs ih =>
      intro t ht
      rw [List.foldl_cons]
      exact ih _ (factln_on_sound_table log lgamma t ht q).2.1
  exact gen queries (fun _ => none) (fun k v h => by simp at h)

/-- The entries of a sound table of `arma::factln`: `log (j!)` at index `j`. -/
theorem arma_factln_on_sound_table {K : Type} [LinearOrderedField K] (log lgamma : K → K)
    (len : ℕ) (hlen : len ≤ 101) (q : ℤ) :
    (arma.factln log lgamma ((List.range len).map (fun j => log ((j.factorial : ℕ) : K))) q).1
      = (if q < 0 then ⊥ else if q > 100 then ((lgamma ((q : K) + 1) : K) : WithBot K)
          else ((log ((q.toNat.factorial : ℕ) : K) : K) : WithBot K)) ∧
    (∃ len' : ℕ, len ≤ len' ∧ len' ≤ 101 ∧
      (arma.factln log lgamma ((List.range len).map (fun j => log ((j.factorial : ℕ) : K))) q).2
        = (List.range len').map (fun j => log ((j.factorial : ℕ) : K))) := by
  unfold arma.factln
  by_cases hq : q < 0
  · simp only [if_pos hq]
    exact ⟨trivial, len, le_rfl, hlen, rfl⟩
  · simp only [if_neg hq]
    by_cases hq2 : q > 100
    · simp only [if_pos hq2]
      exact ⟨trivial, len, le_rfl, hlen, rfl⟩
    · simp only [if_neg hq2, List.length_map, List.length_range]
      have happ : List.range len ++ List.range' len (q.toNat + 1 - len)
          = List.range (len + (q.toNat + 1 - len)) := by
        have := List.range'_append 0 len (q.toNat + 1 - len) 1
        simp only [one_mul, zero_add] at this
        rw [List.range_eq_range', this, ← List.range_eq_range', Nat.add_comm]
      split
      · rename_i hlt
        rw [← List.map_append, happ]
        refine ⟨?_, len + (q.toNat + 1 - len), by omega, by omega, rfl⟩
        congr 1
        rw [List.getD_eq_getElem?_getD, List.getElem?_map, List.getElem?_range (by omega)]
        rfl
      · rename_i hge
        refine ⟨?_, len, le_rfl, hlen, rfl⟩
        congr 1
        rw [List.getD_eq_getElem?_getD, List.getElem?_map, List.getElem?_range (by omega)]
        rfl

/-- Every memo table of `arma::factln` reached from the empty table is the list
`log (0!), log (1!), ...` of some length at most `101`. -/
theorem arma_factln_table_after_sound {K : Type} [LinearOrderedField K] (log lgamma : K → K)
    (queries : List ℤ) :
    ∃ len : ℕ, len ≤ 101 ∧ arma.factln_table_after log lgamma queries
      = (List.range len).map (fun j => log ((j.factorial : ℕ) : K)) := by
  unfold arma.factln_table_after
  have gen : ∀ (qs : List ℤ) (t : List K),
      (∃ len : ℕ, len ≤ 101 ∧ t = (List.range len).map (fun j => log ((j.factorial : ℕ) : K))) →
      ∃ len : ℕ, len ≤ 101 ∧ qs.foldl (fun t q => (arma.factln log lgamma t q).2) t
        = (List.range len).map (fun j => log ((j.factorial : ℕ) : K)) := by
    intro qs
    induction qs with
    | nil => intro t ht; exact ht
    | cons q qs ih =>
      intro t ht
      rw [List.foldl_cons]
      apply ih
      obtain ⟨len, hlen, rfl⟩ := ht
      obtain ⟨len', -, h101, he⟩ := (arma_factln_on_sound_table log lgamma len hlen q).2
      exact ⟨len', h101, he⟩
  exact gen queries [] ⟨0, by norm_num, rfl⟩

/-- C21: for every integer `n` and every memo table reached from the empty one by
earlier queries, `factln(n)` returns what a fresh evaluation on the empty table
returns, for the map-based `factln` of cppbugs.hpp and the vector-based
`arma::factln` of mcmc.math.hpp and for any `log` and `lgamma`; every stored entry
equals the fresh value for its key (its index), and a query keeps every existing
entry (the vector only grows at its end). -/
theorem factln_memo_equals_fresh {K : Type} [LinearOrderedField K] (log lgamma : K → K)
    (queries queries' : List ℤ) (n q : ℤ) :
    (factln log lgamma (factln_table_after log lgamma queries) n).1
      = (factln log lgamma (fun _ => none) n).1 ∧
    (arma.factln log lgamma (arma.factln_table_after log lgamma queries') n).1
      = (arma.factln log lgamma [] n).1 ∧
    (∀ k v, factln_table_after log lgamma queries k = some v →
      ((v : K) : WithBot K) = (factln log lgamma (fun _ => none) k).1) ∧
    (∀ k v, factln_table_after log lgamma queries k = some v →
      (factln log lgamma (factln_table_after log lgamma queries) q).2 k = some v) ∧
    (∀ j : ℕ, j < (arma.factln_table_after log lgamma queries').length →
      (((arma.factln_table_after log lgamma queries').getD j 0 : K) : WithBot K)
        = (arma.factln log lgamma [] (j : ℤ)).1) ∧
    (arma.factln_table_after log lgamma queries')
      <+: (arma.factln log lgamma (arma.factln_table_after log lgamma queries') q).2 := by
  have hs := factln_table_after_sound log lgamma queries
  obtain ⟨len, hlen, htab⟩ := arma_factln_table_after_sound log lgamma queries'
  have hfresh : ∀ i : ℤ, (arma.factln log lgamma [] i).1
      = (if i < 0 then ⊥ else if i > 100 then ((lgamma ((i : K) + 1) : K) : WithBot K)
          else ((log ((i.toNat.factorial : ℕ) : K) : K) : WithBot K)) :=
    fun i => (arma_factln_on_sound_table log lgamma 0 (by norm_num) i).1
  refine ⟨(factln_on_sound_table log lgamma _ hs n).1, ?_, ?_,
    (factln_on_sound_table log lgamma _ hs q).2.2, ?_, ?_⟩
  · rw [htab, (arma_factln_on_sound_table log lgamma len hlen n).1, hfresh]
  · intro k v hkv
    rw [factln_fresh_value, if_neg (not_lt.mpr (hs k v hkv).1), (hs k v hkv).2]
  · intro j hj
    rw [htab] at hj ⊢
    simp only [List.length_map, List.length_range] at hj
    rw [hfresh, if_neg (by omega), if_neg (by omega)]
    congr 1
    rw [List.getD_eq_getElem?_getD, List.getElem?_map, List.getElem?_range hj]
    simp
  · rw [htab]
    obtain ⟨len', hle, -, he⟩ := (arma_factln_on_sound_table log lgamma len hlen q).2
    rw [he]
    have : List.range len <+: List.range len' := by
      rw [List.range_eq_range', List.range_eq_range']
      obtain ⟨d, rfl⟩ := Nat.exists_eq_add_of_le hle
      have := List.range'_append 0 len d 1
      simp only [one_mul, zero_add] at this
      rw [Nat.add_comm len d, ← this]
      exact List.prefix_append _ _
    exact List.IsPrefix.map _ this

/-- On a sound memo table, the array overload returns, entry by entry, the fresh
value of `factln` at the corresponding element, and leaves the table sound. -/
theorem factln_imat_on_sound_table {K : Type} [LinearOrderedField K] (log lgamma : K → K)
    (x : List ℤ) :
    ∀ (t : ℤ → Option K) (acc : List (WithBot K)),
      (∀ k v, t k = some v → 0 ≤ k ∧ v = factln_single log lgamma k) →
      (x.foldl (fun (acc : List (WithBot K) × (ℤ → Option K)) xi =>
          ((acc.1 ++ [(factln log lgamma acc.2 xi).1]), (factln log lgamma acc.2 xi).2))
          (acc, t)).1
        = acc ++ x.map (fun xi => (factln log lgamma (fun _ => none) xi).1) := by
  induction x with
  | nil => intro t acc _; simp
  | cons xi xs ih =>
    intro t acc ht
    rw [List.foldl_cons, ih _ _ (factln_on_sound_table log lgamma t ht xi).2.1,
      (factln_on_sound_table log lgamma t ht xi).1]
    simp

/-- C30: over the reals, for every integer `n` and every pair of memo tables reached
from the empty ones, `cppbugs::factln(n)` and `arma::factln(n)` return the same
value: minus infinity for `n < 0`, `log (n!)` for `0 ≤ n ≤ 100` (in particular `0`
at `n = 0` and `n = 1`) and `lgamma(n + 1)` for `n > 100`; and the array overload
returns an array with as many entries as `x`, entry `i` being `factln(x[i])`. -/
theorem factln_implementations_agree (queries queries' : List ℤ) (n : ℤ) (x : List ℤ) :
    (factln Real.log lgammaReal (factln_table_after Real.log lgammaReal queries) n).1
      = (arma.factln Real.log lgammaReal
          (arma.factln_table_after Real.log lgammaReal queries') n).1 ∧
    (factln Real.log lgammaReal (factln_table_after Real.log lgammaReal queries) n).1
      = (if n < 0 then ⊥
          else if n ≤ 100 then ((Real.log (n.toNat.factorial : ℝ) : ℝ) : WithBot ℝ)
          else ((lgammaReal ((n : ℝ) + 1) : ℝ) : WithBot ℝ)) ∧
    (factln Real.log lgammaReal (factln_table_after Real.log lgammaReal queries) 0).1
      = ((0 : ℝ) : WithBot ℝ) ∧
    (factln Real.log lgammaReal (factln_table_after Real.log lgammaReal queries) 1).1
      = ((0 : ℝ) : WithBot ℝ) ∧
    (factln_imat Real.log lgammaReal (factln_table_after Real.log lgammaReal queries) x).1.length
      = x.length ∧
    (factln_imat Real.log lgammaReal (factln_table_after Real.log lgammaReal queries) x).1
      = x.map (fun xi => (factln Real.log lgammaReal (fun _ => none) xi).1) := by
  have hs := factln_table_after_sound Real.log lgammaReal queries
  obtain ⟨len, hlen, htab⟩ := arma_factln_table_after_sound Real.log lgammaReal queries'
  have hmap : ∀ i : ℤ,
      (factln Real.log lgammaReal (factln_table_after Real.log lgammaReal queries) i).1
        = (if i < 0 then ⊥
            else if i ≤ 100 then ((Real.log (i.toNat.factorial : ℝ) : ℝ) : WithBot ℝ)
            else ((lgammaReal ((i : ℝ) + 1) : ℝ) : WithBot ℝ)) := by
    intro i
    rw [(factln_on_sound_table Real.log lgammaReal _ hs i).1, factln_fresh_value]
    by_cases hi : i < 0
    · rw [if_pos hi, if_pos hi]
    · rw [if_neg hi, if_neg hi]
      have hi0 : ((i.toNat : ℕ) : ℤ) = i := Int.toNat_of_nonneg (not_lt.mp hi)
      by_cases h100 : i ≤ 100
      · rw [if_pos h100]
        congr 1
        conv_lhs => rw [← hi0]
        exact factln_single_real i.toNat
      · rw [if_neg h100]
        congr 1
        unfold factln_single
        rw [if_pos (not_le.mp h100)]
  have himat : (factln_imat Real.log lgammaReal
      (factln_table_after Real.log lgammaReal queries) x).1
      = x.map (fun xi => (factln Real.log lgammaReal (fun _ => none) xi).1) := by
    unfold factln_imat
    have := factln_imat_on_sound_table Real.log lgammaReal x _ [] hs
    simpa using this
  refine ⟨?_, hmap n, ?_, ?_, ?_, himat⟩
  · rw [hmap n, htab, (arma_factln_on_sound_table Real.log lgammaReal len hlen n).1]
    by_cases hi : n < 0
    · rw [if_pos hi, if_pos hi]
    · rw [if_neg hi, if_neg hi]
      by_cases h100 : n ≤ 100
      · rw [if_pos h100, if_neg (not_lt.mpr h100)]
      · rw [if_neg h100, if_pos (not_le.mp h100)]
  · rw [hmap 0]
    simp
  · rw [hmap 1]
    simp
  · rw [himat, List.length_map]

/-! ### Tallies and the posterior mean -/

/-- One step of the component-wise jump leaves the history alone. -/
theorem component_step_history {K W L E : Type} [LinearOrderedField K] [Zero E] [One E] [Add E]
    [Elem K E] {n : Nat} (rng : RngBase K W) (m : MCModelBase W (Fin n → E) L) (i : Fin n)
    (st : Stochastic (Fin n → E)) (u : W) :
    (Stochastic.component_step rng m i st u).1.history = st.history := by
  unfold Stochastic.component_step
  simp only
  split <;> rfl

/-- A proposal, tuning or preserve/revert operation leaves the history of a template
node alone. -/
theorem perform_history {K W L E : Type} [LinearOrderedField K] [Zero E] [One E] [Add E]
    [Elem K E] {n : Nat} (rng : RngBase K W) (m : MCModelBase W (Fin n → E) L) (op : NodeOp)
    (st : Stochastic (Fin n → E) × W) :
    (Stochastic.perform rng m op st).1.history = st.1.history := by
  cases op with
  | jump =>
    simp only [Stochastic.perform, Stochastic.jump]
    split <;> rfl
  | component_jump =>
    simp only [Stochastic.perform, Stochastic.component_jump]
    split
    · rfl
    · unfold forLoop
      have gen : ∀ (l : List (Fin n)) (p : Stochastic (Fin n → E) × W),
          (l.foldl (fun p i => Stochastic.component_step rng m i p.1 p.2) p).1.history
            = p.1.history := by
        intro l
        induction l with
        | nil => intro p; rfl
        | cons i l ih =>
          intro p
          rw [List.foldl_cons, ih, component_step_history]
      exact gen _ _
  | tune =>
    simp only [Stochastic.perform, Stochastic.tune]
    split <;> rfl
  | preserve => rfl
  | revert => rfl

/-- A proposal, tuning or preserve/revert operation leaves the history of a scalar
node alone. -/
theorem perform_double_history {K W L : Type} [LinearOrderedField K] (rng : RngBase K W)
    (m : MCModelBase W K L) (op : NodeOp) (st : Stochastic K × W) :
    (StochasticDouble.perform rng m op st).1.history = st.1.history := by
  cases op with
  | jump =>
    simp only [StochasticDouble.perform, StochasticDouble.jump]
    split <;> rfl
  | component_jump =>
    simp only [StochasticDouble.perform, StochasticDouble.component_jump]
    split
    · rfl
    · split <;> rfl
  | tune =>
    simp only [StochasticDouble.perform, StochasticDouble.tune]
    split <;> rfl
  | preserve => rfl
  | revert => rfl

/-- A run of sampling operations on a template node extends the history by the
values recorded at its tallies, one per tally. -/
theorem sweep_history {K W L E : Type} [LinearOrderedField K] [Zero E] [One E] [Add E]
    [Elem K E] {n : Nat} (rng : RngBase K W) (m : MCModelBase W (Fin n → E) L)
    (ops : List SweepOp) :
    ∀ st : Stochastic (Fin n → E) × W,
      (ops.foldl (fun st op => Stochastic.sweep rng m op st) st).1.history
        = st.1.history ++ Stochastic.tallied rng m ops st ∧
      (Stochastic.tallied rng m ops st).length
        = ops.countP (fun op => match op with | SweepOp.tally => true | _ => false) := by
  induction ops with
  | nil => intro st; simp [Stochastic.tallied]
  | cons op ops ih =>
    intro st
    rw [List.foldl_cons]
    cases op with
    | node o =>
      rw [(ih _).1]
      simp only [Stochastic.tallied, Stochastic.sweep, perform_history, (ih _).2]
      simp
    | tally =>
      rw [(ih _).1]
      simp only [Stochastic.tallied, List.length_cons, (ih _).2]
      simp [Stochastic.sweep, MCMCSpecialized.tally]
    | mean =>
      rw [(ih _).1]
      simp only [Stochastic.tallied, Stochastic.sweep, (ih _).2]
      simp

/-- A run of sampling operations on a scalar node extends the history by the
values recorded at its tallies, one per tally. -/
theorem sweep_double_history {K W L : Type} [LinearOrderedField K] (rng : RngBase K W)
    (m : MCModelBase W K L) (ops : List SweepOp) :
    ∀ st : Stochastic K × W,
      (ops.foldl (fun st op => StochasticDouble.sweep rng m op st) st).1.history
        = st.1.history ++ StochasticDouble.tallied rng m ops st ∧
      (StochasticDouble.tallied rng m ops st).length
        = ops.countP (fun op => match op with | SweepOp.tally => true | _ => false) := by
  induction ops with
  | nil => intro st; simp [StochasticDouble.tallied]
  | cons op ops ih =>
    intro st
    rw [List.foldl_cons]
    cases op with
    | node o =>
      rw [(ih _).1]
      simp only [StochasticDouble.tallied, StochasticDouble.sweep, perform_double_history,
        (ih _).2]
      simp
    | tally =>
      rw [(ih _).1]
      simp only [StochasticDouble.tallied, List.length_cons, (ih _).2]
      simp [StochasticDouble.sweep, MCMCSpecialized.tally]
    | mean =>
      rw [(ih _).1]
      simp only [StochasticDouble.tallied, StochasticDouble.sweep, (ih _).2]
      simp

/-- C22: `tally` appends exactly one entry, the current value, at the end of the
history and leaves the earlier entries, `value`, `old_value` and the rest of the
program unchanged; `preserve`, `revert`, `jump`, `component_jump`, `tune` and
`mean` leave the history unchanged. Hence after any run of operations the history
is the initial one followed by the values at the tallies in order, one entry per
tally; from construction (empty history) its length is the number of tallies.
Stated for the template on any element type and for the scalar node. -/
theorem tally_records_value {K W L E : Type} [LinearOrderedField K] [Zero E] [One E] [Add E]
    [Elem K E] {n : Nat} (rng : RngBase K W) (m : MCModelBase W (Fin n → E) L)
    (md : MCModelBase W K L) (ops : List SweepOp) (op : NodeOp)
    (s : Stochastic (Fin n → E)) (d : Stochastic K) (w : W) :
    ((ops.foldl (fun st op => Stochastic.sweep rng m op st) (s, w)).1.history
      = s.history ++ Stochastic.tallied rng m ops (s, w)) ∧
    ((Stochastic.tallied rng m ops (s, w)).length
      = ops.countP (fun op => match op with | SweepOp.tally => true | _ => false)) ∧
    ((Stochastic.sweep rng m SweepOp.tally (s, w)).1.history = s.history ++ [s.value]) ∧
    ((Stochastic.sweep rng m SweepOp.tally (s, w)).1.value = s.value) ∧
    ((Stochastic.sweep rng m SweepOp.tally (s, w)).1.old_value = s.old_value) ∧
    ((Stochastic.sweep rng m SweepOp.tally (s, w)).2 = w) ∧
    ((Stochastic.sweep rng m (SweepOp.node op) (s, w)).1.history = s.history) ∧
    (Stochastic.sweep rng m SweepOp.mean (s, w) = (s, w)) ∧
    ((ops.foldl (fun st op => StochasticDouble.sweep rng md op st) (d, w)).1.history
      = d.history ++ StochasticDouble.tallied rng md ops (d, w)) ∧
    ((StochasticDouble.tallied rng md ops (d, w)).length
      = ops.countP (fun op => match op with | SweepOp.tally => true | _ => false)) ∧
    ((StochasticDouble.sweep rng md SweepOp.tally (d, w)).1.history = d.history ++ [d.value]) ∧
    ((StochasticDouble.sweep rng md (SweepOp.node op) (d, w)).1.history = d.history) ∧
    (∀ (v : Fin n → E) (observed : Bool), (Stochastic.construct v observed).history = []) ∧
    (∀ (x : K) (observed : Bool), (StochasticDouble.construct x observed).history = []) :=
  ⟨(sweep_history rng m ops (s, w)).1, (sweep_history rng m ops (s, w)).2, rfl, rfl, rfl, rfl,
    perform_history rng m op (s, w), rfl,
    (sweep_double_history rng md ops (d, w)).1, (sweep_double_history rng md ops (d, w)).2, rfl,
    perform_double_history rng md op (d, w), fun _ _ => rfl, fun _ _ => rfl⟩

/-- The accumulation loop of the scalar `mean` over the tallies is their sum. -/
theorem mean_loop_double {K : Type} [LinearOrderedField K] (h : List K) :
    forLoop h.length (fun i (acc : K) => acc + h.get i) 0 = h.sum := by
  unfold forLoop
  have e : (List.finRange h.length).foldl (fun (acc : K) i => acc + h.get i) 0
      = ((List.finRange h.length).map h.get).foldl (fun acc x => acc + x) 0 := by
    rw [List.foldl_map]
  rw [e, List.finRange_map_get, List.sum_eq_foldl]

/-- The accumulation loop of the template `mean` over the tallies is, coordinate by
coordinate, the sum of that coordinate. -/
theorem mean_loop {K : Type} [LinearOrderedField K] {n : Nat} (h : List (Fin n → K))
    (j : Fin n) :
    forLoop h.length (fun i (acc : Fin n → K) => fun j => acc j + (h.get i) j) (fun _ => 0) j
      = (h.map (fun v => v j)).sum := by
  unfold forLoop
  have e : (List.finRange h.length).foldl
        (fun (acc : Fin n → K) i => fun j => acc j + (h.get i) j) (fun _ => 0)
      = ((List.finRange h.length).map h.get).foldl
        (fun (acc : Fin n → K) v => fun j => acc j + v j) (fun _ => 0) := by
    rw [List.foldl_map]
  rw [e, List.finRange_map_get]
  have gen : ∀ (l : List (Fin n → K)) (a : Fin n → K),
      l.foldl (fun (acc : Fin n → K) v => fun j => acc j + v j) a j
        = a j + (l.map (fun v => v j)).sum := by
    intro l
    induction l with
    | nil => intro a; simp
    | cons v l ih => intro a; rw [List.foldl_cons, ih]; simp [add_assoc]
  rw [gen]
  simp

/-- On a real vector or matrix payload and on a scalar node with a non-empty history
`h_0 .. h_{m-1}`, `mean()` returns `(h_0 + ... + h_{m-1}) / m`: coordinate by
coordinate, with the shape of the payload, and as a number for a scalar node;
`mean()` is a read-only query, whose run as an operation leaves the node (value,
old_value, history) as it was. -/
theorem mean_real_is_average {K W L : Type} [LinearOrderedField K] {n : Nat} (rng : RngBase K W)
    (m : MCModelBase W (Fin n → K) L) (s : Stochastic (Fin n → K)) (d : MCMCSpecialized K)
    (w : W) (hs : s.history ≠ []) (hd : d.history ≠ []) :
    (∀ j, MCMCSpecialized.mean K s.toMCMCSpecialized j
      = (s.history.map (fun v => v j)).sum / (s.history.length : K)) ∧
    (MCMCSpecialized.mean_double d = d.history.sum / (d.history.length : K)) ∧
    ((s.history.length : K) ≠ 0 ∧ (d.history.length : K) ≠ 0) ∧
    (Stochastic.sweep rng m SweepOp.mean (s, w) = (s, w)) := by
  refine ⟨fun j => ?_, ?_, ⟨?_, ?_⟩, rfl⟩
  · unfold MCMCSpecialized.mean
    simp only [Elem.quot, Elem.ofDouble, id]
    rw [mean_loop]
  · unfold MCMCSpecialized.mean_double
    simp only
    rw [mean_loop_double]
  · exact Nat.cast_ne_zero.mpr (fun h => hs (List.length_eq_zero.mp h))
  · exact Nat.cast_ne_zero.mpr (fun h => hd (List.length_eq_zero.mp h))

/-- C23 (evaluation at the failing input): an integer-vector node with one
coordinate tallied at the values `[1]` and `[2]` has the history `[1], [2]`, and
`mean()` returns `[1]`: the sum `3` is divided by the size converted to the
integer element type, an integer division; the arithmetic mean is `3/2`, which the
same method returns on a real vector with these tallies, and which the scalar
specialisation returns on the tallies `1` and `2`. -/
theorem mean_integer_payload_quotient :
    ((MCMCSpecialized.construct ![(1 : ℤ)]).tally.write (fun _ => ![2])).tally.history
      = [![1], ![2]] ∧
    MCMCSpecialized.mean ℚ
      ((MCMCSpecialized.construct ![(1 : ℤ)]).tally.write (fun _ => ![2])).tally 0 = 1 ∧
    (((1 : ℤ) : ℚ) + ((2 : ℤ) : ℚ)) / 2 = 3 / 2 ∧
    MCMCSpecialized.mean ℚ
      ((MCMCSpecialized.construct ![(1 : ℚ)]).tally.write (fun _ => ![2])).tally 0 = 3 / 2 ∧
    MCMCSpecialized.mean_double
      ((MCMCSpecialized.construct (1 : ℚ)).tally.write (fun _ => 2)).tally = 3 / 2 := by
  refine ⟨rfl, ?_, by norm_num, ?_, ?_⟩
  · have ht : truncate ((2 : ℚ)) = 2 := by
      have h := truncate_intCast ℚ 2
      norm_num at h
      exact h
    simp [MCMCSpecialized.mean, MCMCSpecialized.tally, MCMCSpecialized.write,
      MCMCSpecialized.construct, forLoop, List.finRange, Elem.quot, Elem.ofDouble, ht]
    decide
  · simp [MCMCSpecialized.mean, MCMCSpecialized.tally, MCMCSpecialized.write,
      MCMCSpecialized.construct, forLoop, List.finRange, Elem.quot, Elem.ofDouble]
    norm_num
  · simp [MCMCSpecialized.mean_double, MCMCSpecialized.tally, MCMCSpecialized.write,
      MCMCSpecialized.construct, forLoop, List.finRange]
    norm_num

/-! ### Dimension check -/

/-- Twice the sum `1 + 2 + ... + k`. -/
theorem sum_range_one {k : ℕ} : 2 * (List.range' 1 k).sum = k * (k + 1) := by
  induction k with
  | zero => simp
  | succ k ih =>
    rw [List.range'_concat, List.sum_append, Nat.mul_add, ih]
    simp
    ring

/-- Membership in `lower_diag d`: the linear indices `i + j * d` of the positions
with `j < i < d`. -/
theorem mem_lower_diag {d p : ℕ} :
    p ∈ lower_diag d ↔ ∃ i j, j < i ∧ i < d ∧ p = i + j * d := by
  unfold lower_diag
  simp only [List.mem_flatMap, List.mem_map, List.mem_range'_1, List.mem_range]
  constructor
  · rintro ⟨i, ⟨h1, h2⟩, j, hj, rfl⟩
    exact ⟨i, j, hj, by omega, rfl⟩
  · rintro ⟨i, j, hj, hi, rfl⟩
    exact ⟨i, ⟨by omega, by omega⟩, j, hj, rfl⟩

/-- The entries of `lower_diag d` come row by row and, within a row, column by
column. -/
theorem lower_diag_pairwise (d : ℕ) :
    (lower_diag d).Pairwise
      (fun p q => p % d < q % d ∨ (p % d = q % d ∧ p / d < q / d)) := by
  unfold lower_diag
  rw [List.pairwise_flatMap]
  constructor
  · intro i hi
    rw [List.mem_range'_1] at hi
    have hid : i < d := by omega
    have hd : 0 < d := by omega
    rw [List.pairwise_map]
    refine (List.pairwise_lt_range i).imp ?_
    intro j1 j2 hj
    right
    rw [Nat.add_mul_mod_self_right, Nat.add_mul_mod_self_right, Nat.add_mul_div_right _ _ hd,
      Nat.add_mul_div_right _ _ hd, Nat.div_eq_of_lt hid]
    exact ⟨rfl, by omega⟩
  · refine (List.pairwise_lt_range' 1 (d - 1)).imp_of_mem ?_
    intro i1 i2 h1 h2 hlt x hx y hy
    rw [List.mem_range'_1] at h1 h2
    rw [List.mem_map] at hx hy
    obtain ⟨j1, -, rfl⟩ := hx
    obtain ⟨j2, -, rfl⟩ := hy
    left
    rw [Nat.add_mul_mod_self_right, Nat.add_mul_mod_self_right,
      Nat.mod_eq_of_lt (by omega), Nat.mod_eq_of_lt (by omega)]
    exact hlt

/-- C26: `lower_diag(d)` has `d(d-1)/2` entries; they are exactly the column-major
linear indices `i + j·d` of the strictly-lower positions (`0 ≤ j < i < d`), each
once; every entry is below `d·d`; no index of a diagonal or upper position occurs;
and the entries are ordered by row, then by column (the row of an index `p` being
`p % d` and its column `p / d`). -/
theorem lower_diag_spec (d : ℕ) :
    ((lower_diag d).length = d * (d - 1) / 2) ∧
    (∀ p, p ∈ lower_diag d ↔ ∃ i j, j < i ∧ i < d ∧ p = i + j * d) ∧
    (lower_diag d).Nodup ∧
    (∀ p ∈ lower_diag d, p < d * d) ∧
    (∀ i j : Fin d, i ≤ j → i.val + j.val * d ∉ lower_diag d) ∧
    (lower_diag d).Pairwise
      (fun p q => p % d < q % d ∨ (p % d = q % d ∧ p / d < q / d)) := by
  refine ⟨?_, fun p => mem_lower_diag, ?_, ?_, ?_, lower_diag_pairwise d⟩
  · have hlen : (lower_diag d).length = (List.range' 1 (d - 1)).sum := by
      unfold lower_diag
      rw [List.length_flatMap]
      congr 1
      conv_rhs => rw [← List.map_id (List.range' 1 (d - 1))]
      apply List.map_congr_left
      intro i _
      simp
    have h2 := @sum_range_one (d - 1)
    rw [hlen]
    have hd : d - 1 + 1 = d ∨ d = 0 := by omega
    rcases hd with hd | hd
    · rw [hd] at h2
      have : d * (d - 1) = 2 * (List.range' 1 (d - 1)).sum := by rw [h2, Nat.mul_comm]
      rw [this, Nat.mul_div_cancel_left _ (by norm_num)]
    · subst hd
      simp
  · refine (lower_diag_pairwise d).imp ?_
    intro p q h e
    subst e
    rcases h with h | ⟨-, h⟩ <;> exact lt_irrefl _ h
  · intro p hp
    obtain ⟨i, j, hj, hi, rfl⟩ := mem_lower_diag.mp hp
    have hjd : j + 1 ≤ d - 1 := by omega
    calc i + j * d < d + j * d := by omega
      _ = (j + 1) * d := by ring
      _ ≤ (d - 1) * d := Nat.mul_le_mul_right d hjd
      _ ≤ d * d := Nat.mul_le_mul_right d (by omega)
  · intro i j hij hmem
    exact lower_diag_strictly_lower _ hmem i j hij rfl

/-! ### Determinant from a Cholesky factor -/

/-- C27: for a triangular square matrix `R` (lower or upper), `cholesky_determinant(R)`
is the product of the squared diagonal entries of `R`, which is `det(R·Rᵀ)` (and
`det(Rᵀ·R)`); hence the term `log(cholesky_determinant(R))` of
`multivariate_normal_chol_logp` is `log det(Sigma)` for `Sigma = R·Rᵀ`. -/
theorem cholesky_determinant_eq_det {K : Type} [LinearOrderedField K] {k : ℕ}
    (log : K → K) (pi : K) (x mu : Fin k → K) (R : Matrix (Fin k) (Fin k) K)
    (htri : (∀ i j, i < j → R i j = 0) ∨ (∀ i j, j < i → R i j = 0)) :
    cholesky_determinant R = ∏ i : Fin k, (R i i) ^ 2 ∧
    cholesky_determinant R = (R * R.transpose).det ∧
    cholesky_determinant R = (R.transpose * R).det ∧
    multivariate_normal_chol_logp log pi x mu R
      = (-0.5) * ((k : K) * log (2 * pi) + log ((R * R.transpose).det)
          + mahalanobis_chol x mu R) := by
  have hdet : R.det = ∏ i : Fin k, R i i := by
    rcases htri with h | h
    · exact Matrix.det_of_lowerTriangular R (fun i j hij => h i j hij)
    · exact Matrix.det_of_upperTriangular (fun i j hij => h i j hij)
  have hprod : cholesky_determinant R = R.det * R.det := by
    unfold cholesky_determinant square
    rw [hdet, Finset.prod_mul_distrib]
  have h1 : cholesky_determinant R = (R * R.transpose).det := by
    rw [hprod, Matrix.det_mul, Matrix.det_transpose]
  refine ⟨?_, h1, ?_, ?_⟩
  · unfold cholesky_determinant square
    exact Finset.prod_congr rfl (fun i _ => (sq (R i i)).symm)
  · rw [hprod, Matrix.det_mul, Matrix.det_transpose]
  · unfold multivariate_normal_chol_logp
    simp only
    rw [h1]

/-- Witness for C27: the lower-triangular factor `[1 0; 1 1]` over `ℚ`. -/
theorem cholesky_determinant_eq_det_witness :
    ((∀ i j : Fin 2, i < j → (!![(1 : ℚ), 0; 1, 1]) i j = 0) ∨
      (∀ i j : Fin 2, j < i → (!![(1 : ℚ), 0; 1, 1]) i j = 0)) ∧
    cholesky_determinant !![(1 : ℚ), 0; 1, 1]
      = (!![(1 : ℚ), 0; 1, 1] * (!![(1 : ℚ), 0; 1, 1]).transpose).det :=
  ⟨Or.inl (by decide),
    (cholesky_determinant_eq_det (fun _ => 0) 0 ![0, 0] ![0, 0] !![(1 : ℚ), 0; 1, 1]
      (Or.inl (by decide))).2.1⟩

/-! ### Termination of the constrained jumps -/

/-- The loop of `UniformStatic::jump` returns within the fuel exactly when one of the
first proposals is within the bounds; it then returns the first such proposal,
made from the value before the jump, and the generator state after that many
draws. -/
theorem uniform_jump_loop_iff {K W : Type} [LinearOrderedField K] (rng : RngBase K W)
    (v s lower upper : K) (fuel : ℕ) :
    ∀ (w : W) (r : K × W),
      UniformStatic.jump_loop rng v s lower upper fuel w = some r ↔
        ∃ k, k < fuel ∧
          (∀ k', k' < k →
            (v + (rng.normal ((fun u => (rng.normal u).2)^[k'] w)).1 * s < lower ∨
              v + (rng.normal ((fun u => (rng.normal u).2)^[k'] w)).1 * s > upper)) ∧
          ¬ (v + (rng.normal ((fun u => (rng.normal u).2)^[k] w)).1 * s < lower ∨
              v + (rng.normal ((fun u => (rng.normal u).2)^[k] w)).1 * s > upper) ∧
          r = (v + (rng.normal ((fun u => (rng.normal u).2)^[k] w)).1 * s,
                (fun u => (rng.normal u).2)^[k + 1] w) := by
  induction fuel with
  | zero => intro w r; simp [UniformStatic.jump_loop]
  | succ f ih =>
    intro w r
    unfold UniformStatic.jump_loop
    simp only
    by_cases hbad : v + (rng.normal w).1 * s < lower ∨ v + (rng.normal w).1 * s > upper
    · rw [if_pos hbad, ih]
      constructor
      · rintro ⟨k, hk, hall, hgood, hr⟩
        refine ⟨k + 1, by omega, ?_, ?_, ?_⟩
        · intro k' hk'
          cases k' with
          | zero => exact hbad
          | succ k'' =>
            rw [Function.iterate_succ_apply]
            exact hall k'' (by omega)
        · rw [Function.iterate_succ_apply]; exact hgood
        · rw [hr]
          simp only [Function.iterate_succ_apply]
      · rintro ⟨k, hk, hall, hgood, hr⟩
        cases k with
        | zero => exact absurd hbad hgood
        | succ k0 =>
          refine ⟨k0, by omega, ?_, ?_, ?_⟩
          · intro k' hk'
            have := hall (k' + 1) (by omega)
            rwa [Function.iterate_succ_apply] at this
          · rwa [Function.iterate_succ_apply] at hgood
          · rw [hr]
            simp only [Function.iterate_succ_apply]
    · rw [if_neg hbad]
      constructor
      · intro h
        refine ⟨0, by omega, fun k' hk' => absurd hk' (by omega), hbad, ?_⟩
        exact (Option.some.inj h).symm
      · rintro ⟨k, hk, hall, hgood, hr⟩
        cases k with
        | zero => rw [hr]; rfl
        | succ k0 => exact absurd (hall 0 (by omega)) hbad

/-- The loop of `GammaStatic::jump` returns within the fuel exactly when one of the
first proposals is nonnegative; it then returns the first such proposal, made
from the value before the jump, and the generator state after that many draws. -/
theorem positive_jump_loop_iff {K W : Type} [LinearOrderedField K] (rng : RngBase K W)
    (v s : K) (fuel : ℕ) :
    ∀ (w : W) (r : K × W),
      positive_jump_loop rng v s fuel w = some r ↔
        ∃ k, k < fuel ∧
          (∀ k', k' < k → v + (rng.normal ((fun u => (rng.normal u).2)^[k'] w)).1 * s < 0) ∧
          ¬ (v + (rng.normal ((fun u => (rng.normal u).2)^[k] w)).1 * s < 0) ∧
          r = (v + (rng.normal ((fun u => (rng.normal u).2)^[k] w)).1 * s,
                (fun u => (rng.normal u).2)^[k + 1] w) := by
  induction fuel with
  | zero => intro w r; simp [positive_jump_loop]
  | succ f ih =>
    intro w r
    unfold positive_jump_loop
    simp only
    by_cases hbad : v + (rng.normal w).1 * s < 0
    · rw [if_pos hbad, ih]
      constructor
      · rintro ⟨k, hk, hall, hgood, hr⟩
        refine ⟨k + 1, by omega, ?_, ?_, ?_⟩
        · intro k' hk'
          cases k' with
          | zero => exact hbad
          | succ k'' =>
            rw [Function.iterate_succ_apply]
            exact hall k'' (by omega)
        · rw [Function.iterate_succ_apply]; exact hgood
        · rw [hr]
          simp only [Function.iterate_succ_apply]
      · rintro ⟨k, hk, hall, hgood, hr⟩
        cases k with
        | zero => exact absurd hbad hgood
        | succ k0 =>
          refine ⟨k0, by omega, ?_, ?_, ?_⟩
          · intro k' hk'
            have := hall (k' + 1) (by omega)
            rwa [Function.iterate_succ_apply] at this
          · rwa [Function.iterate_succ_apply] at hgood
          · rw [hr]
            simp only [Function.iterate_succ_apply]
    · rw [if_neg hbad]
      constructor
      · intro h
        refine ⟨0, by omega, fun k' hk' => absurd hk' (by omega), hbad, ?_⟩
        exact (Option.some.inj h).symm
      · rintro ⟨k, hk, hall, hgood, hr⟩
        cases k with
        | zero => rw [hr]; rfl
        | succ k0 => exact absurd (hall 0 (by omega)) hbad

/-- C28: for an unobserved scalar `UniformStatic` or `GammaStatic` node with pre-jump
value `v`, scale `s` and successive normal draws, `jump` terminates (returns for
some fuel) if and only if some proposal `v + z·s` lies in the support; if the
proposal number `k` (counting from zero) is the first in the support, `jump`
returns for every fuel above `k`, with that proposal as value and after exactly
`k + 1` draws, and is still running for every fuel up to `k`; every proposal
is made from `v`. A Uniform node with `lower > upper` never terminates. -/
theorem jump_terminates_iff {K W : Type} [LinearOrderedField K] (rng : RngBase K W)
    (us : UniformStatic K) (gs : GammaStatic K) (w : W) (k fuel : ℕ)
    (hu : us.observed_ = false) (hg : gs.observed_ = false) :
    ((∃ f, (UniformStatic.jump rng f us w).isSome = true) ↔
      ∃ i, us.lower_ ≤ us.value + (rng.normal ((fun u => (rng.normal u).2)^[i] w)).1 * us.scale_ ∧
        us.value + (rng.normal ((fun u => (rng.normal u).2)^[i] w)).1 * us.scale_ ≤ us.upper_) ∧
    ((us.lower_ ≤ us.value + (rng.normal ((fun u => (rng.normal u).2)^[k] w)).1 * us.scale_ ∧
        us.value + (rng.normal ((fun u => (rng.normal u).2)^[k] w)).1 * us.scale_ ≤ us.upper_) →
      (∀ i, i < k →
        ¬ (us.lower_ ≤ us.value + (rng.normal ((fun u => (rng.normal u).2)^[i] w)).1 * us.scale_ ∧
          us.value + (rng.normal ((fun u => (rng.normal u).2)^[i] w)).1 * us.scale_
            ≤ us.upper_)) →
      UniformStatic.jump rng fuel us w
        = if k < fuel then
            some ({ us with
                    value := us.value
                      + (rng.normal ((fun u => (rng.normal u).2)^[k] w)).1 * us.scale_ },
                  (fun u => (rng.normal u).2)^[k + 1] w)
          else none) ∧
    (us.upper_ < us.lower_ → UniformStatic.jump rng fuel us w = none) ∧
    ((∃ f, (GammaStatic.jump rng f gs w).isSome = true) ↔
      ∃ i, 0 ≤ gs.value + (rng.normal ((fun u => (rng.normal u).2)^[i] w)).1 * gs.scale_) ∧
    (0 ≤ gs.value + (rng.normal ((fun u => (rng.normal u).2)^[k] w)).1 * gs.scale_ →
      (∀ i, i < k →
        ¬ 0 ≤ gs.value + (rng.normal ((fun u => (rng.normal u).2)^[i] w)).1 * gs.scale_) →
      GammaStatic.jump rng fuel gs w
        = if k < fuel then
            some ({ gs with
                    value := gs.value
                      + (rng.normal ((fun u => (rng.normal u).2)^[k] w)).1 * gs.scale_ },
                  (fun u => (rng.normal u).2)^[k + 1] w)
          else none) := by
  -- the jump in terms of its loop
  have hju : ∀ f, UniformStatic.jump rng f us w
      = (UniformStatic.jump_loop rng us.value us.scale_ us.lower_ us.upper_ f w).map
          (fun r => ({ us with value := r.1 }, r.2)) := by
    intro f
    unfold UniformStatic.jump
    rw [if_neg (by simp [hu])]
  have hjg : ∀ f, GammaStatic.jump rng f gs w
      = (positive_jump_loop rng gs.value gs.scale_ f w).map
          (fun r => ({ gs with value := r.1 }, r.2)) := by
    intro f
    unfold GammaStatic.jump
    rw [if_neg (by simp [hg])]
  -- a proposal is bad exactly when it is not within the support
  have hbadu : ∀ x : K, (x < us.lower_ ∨ x > us.upper_) ↔ ¬ (us.lower_ ≤ x ∧ x ≤ us.upper_) := by
    intro x
    rw [not_and_or, not_le, not_le]
  refine ⟨?_, ?_, ?_, ?_, ?_⟩
  · constructor
    · rintro ⟨f, hf⟩
      rw [hju, Option.isSome_map'] at hf
      obtain ⟨r, hr⟩ := Option.isSome_iff_exists.mp hf
      obtain ⟨i, -, -, hgood, -⟩ := (uniform_jump_loop_iff rng _ _ _ _ f w r).mp hr
      exact ⟨i, not_not.mp (fun h => hgood ((hbadu _).mpr h))⟩
    · rintro ⟨i, hi⟩
      classical
      have hex : ∃ j, us.lower_ ≤ us.value
            + (rng.normal ((fun u => (rng.normal u).2)^[j] w)).1 * us.scale_ ∧
          us.value + (rng.normal ((fun u => (rng.normal u).2)^[j] w)).1 * us.scale_
            ≤ us.upper_ := ⟨i, hi⟩
      refine ⟨Nat.find hex + 1, ?_⟩
      rw [hju, Option.isSome_map']
      apply Option.isSome_iff_exists.mpr
      exact ⟨_, (uniform_jump_loop_iff rng _ _ _ _ _ w _).mpr
        ⟨Nat.find hex, by omega,
          fun j hj => (hbadu _).mpr (Nat.find_min hex hj),
          fun h => (hbadu _).mp h (Nat.find_spec hex), rfl⟩⟩
  · intro hk hmin
    rw [hju]
    by_cases hkf : k < fuel
    · rw [if_pos hkf,
        (uniform_jump_loop_iff rng _ _ _ _ fuel w _).mpr
          ⟨k, hkf, fun j hj => (hbadu _).mpr (hmin j hj), fun h => (hbadu _).mp h hk, rfl⟩]
      rfl
    · rw [if_neg hkf]
      cases hl : UniformStatic.jump_loop rng us.value us.scale_ us.lower_ us.upper_ fuel w with
      | none => rfl
      | some r =>
        obtain ⟨j, hj, -, hgood, -⟩ := (uniform_jump_loop_iff rng _ _ _ _ fuel w r).mp hl
        exact absurd (not_not.mp (fun h => hgood ((hbadu _).mpr h))) (hmin j (by omega))
  · intro hlu
    rw [hju]
    cases hl : UniformStatic.jump_loop rng us.value us.scale_ us.lower_ us.upper_ fuel w with
    | none => rfl
    | some r =>
      obtain ⟨j, -, -, hgood, -⟩ := (uniform_jump_loop_iff rng _ _ _ _ fuel w r).mp hl
      have hin := not_not.mp (fun h => hgood ((hbadu _).mpr h))
      exact absurd (le_trans hin.1 hin.2) (not_le.mpr hlu)
  · constructor
    · rintro ⟨f, hf⟩
      rw [hjg, Option.isSome_map'] at hf
      obtain ⟨r, hr⟩ := Option.isSome_iff_exists.mp hf
      obtain ⟨i, -, -, hgood, -⟩ := (positive_jump_loop_iff rng _ _ f w r).mp hr
      exact ⟨i, not_lt.mp hgood⟩
    · rintro ⟨i, hi⟩
      classical
      have hex : ∃ j, 0 ≤ gs.value
          + (rng.normal ((fun u => (rng.normal u).2)^[j] w)).1 * gs.scale_ := ⟨i, hi⟩
      refine ⟨Nat.find hex + 1, ?_⟩
      rw [hjg, Option.isSome_map']
      apply Option.isSome_iff_exists.mpr
      exact ⟨_, (positive_jump_loop_iff rng _ _ _ w _).mpr
        ⟨Nat.find hex, by omega,
          fun j hj => not_le.mp (Nat.find_min hex hj),
          not_lt.mpr (Nat.find_spec hex), rfl⟩⟩
  · intro hk hmin
    rw [hjg]
    by_cases hkf : k < fuel
    · rw [if_pos hkf,
        (positive_jump_loop_iff rng _ _ fuel w _).mpr
          ⟨k, hkf, fun j hj => not_le.mp (hmin j hj), not_lt.mpr hk, rfl⟩]
      rfl
    · rw [if_neg hkf]
      cases hl : positive_jump_loop rng gs.value gs.scale_ fuel w with
      | none => rfl
      | some r =>
        obtain ⟨j, hj, -, hgood, -⟩ := (positive_jump_loop_iff rng _ _ fuel w r).mp hl
        exact absurd (not_lt.mp hgood) (hmin j (by omega))

/-- Witness for C28: the nodes `UniformStatic(3, 2, 5)` and `GammaStatic(1, 2, 1)` in
the demo program; the first proposal `3 + 1/2` of the Uniform node is within its
bounds, so `jump` returns with fuel `1` after one draw. -/
theorem jump_terminates_iff_witness :
    ((UniformStatic.construct (3 : ℚ) 2 5 false).observed_ = false ∧
      (GammaStatic.construct (1 : ℚ) 2 1 false).observed_ = false) ∧
    UniformStatic.jump Demo.rng 1 (UniformStatic.construct (3 : ℚ) 2 5 false) 0
      = if 0 < 1 then
          some ({ UniformStatic.construct (3 : ℚ) 2 5 false with
                  value := (UniformStatic.construct (3 : ℚ) 2 5 false).value
                    + (Demo.rng.normal ((fun u => (Demo.rng.normal u).2)^[0] 0)).1
                      * (UniformStatic.construct (3 : ℚ) 2 5 false).scale_ },
                (fun u => (Demo.rng.normal u).2)^[0 + 1] 0)
        else none :=
  ⟨⟨rfl, rfl⟩,
    (jump_terminates_iff Demo.rng (UniformStatic.construct (3 : ℚ) 2 5 false)
      (GammaStatic.construct (1 : ℚ) 2 1 false) 0 0 1 rfl rfl).2.1
      (by
        simp only [UniformStatic.construct, StochasticDouble.construct,
          MCMCSpecialized.construct, Demo.rng, Function.iterate_zero, id]
        norm_num)
      (fun i hi => absurd hi (by omega))⟩

/-! ### Bounds on the proposal scale -/

/-- On the unit interval the tuning factor lies between `0.92` and `1.12`. -/
theorem tune_scale_bounds {K : Type} [LinearOrderedField K] (a : K) (h0 : 0 ≤ a) (h1 : a ≤ 1) :
    (23 / 25 : K) ≤ tune_scale a ∧ tune_scale a ≤ 28 / 25 := by
  rw [tune_scale_eq]
  constructor <;> linarith

/-- The acceptance ratio formed from natural counters with at least one trial lies
in the unit interval. -/
theorem ratio_mem_unit (K : Type) [LinearOrderedField K] (A R : ℕ) (h : 0 < A + R) :
    0 ≤ (A : K) / ((A : K) + (R : K)) ∧ (A : K) / ((A : K) + (R : K)) ≤ 1 := by
  have hpos : (0 : K) < (A : K) + (R : K) := by exact_mod_cast h
  have hA : (0 : K) ≤ (A : K) := Nat.cast_nonneg A
  have hR : (0 : K) ≤ (R : K) := Nat.cast_nonneg R
  exact ⟨div_nonneg hA hpos.le, (div_le_one hpos).mpr (by linarith)⟩

/-- A run of component-wise jumps leaves the scale of a template node alone. -/
theorem component_jumps_scale {K W L E : Type} [LinearOrderedField K] [Zero E] [One E] [Add E]
    [Elem K E] {n : Nat} (rng : RngBase K W) (m : MCModelBase W (Fin n → E) L) (ws : List W) :
    ∀ s : Stochastic (Fin n → E),
      (ws.foldl (fun st w => (Stochastic.component_jump rng m st w).1) s).scale_ = s.scale_ := by
  have hstep : ∀ (i : Fin n) (st : Stochastic (Fin n → E)) (u : W),
      (Stochastic.component_step rng m i st u).1.scale_ = st.scale_ := by
    intro i st u
    unfold Stochastic.component_step
    simp only
    split <;> rfl
  have hfold : ∀ (l : List (Fin n)) (p : Stochastic (Fin n → E) × W),
      (l.foldl (fun p i => Stochastic.component_step rng m i p.1 p.2) p).1.scale_
        = p.1.scale_ := by
    intro l
    induction l with
    | nil => intro p; rfl
    | cons i l ih => intro p; rw [List.foldl_cons, ih, hstep]
  have hjump : ∀ (st : Stochastic (Fin n → E)) (u : W),
      (Stochastic.component_jump rng m st u).1.scale_ = st.scale_ := by
    intro st u
    unfold Stochastic.component_jump
    split
    · rfl
    · exact hfold _ _
  induction ws with
  | nil => intro s; rfl
  | cons w ws ih => intro s; rw [List.foldl_cons, ih, hjump]

/-- A run of component-wise jumps leaves the scale of a scalar node alone. -/
theorem component_jumps_double_scale {K W L : Type} [LinearOrderedField K]
    (rng : RngBase K W) (m : MCModelBase W K L) (ws : List W) :
    ∀ s : Stochastic K,
      (ws.foldl (fun st w => (StochasticDouble.component_jump rng m st w).1) s).scale_
        = s.scale_ := by
  have hjump : ∀ (st : Stochastic K) (u : W),
      (StochasticDouble.component_jump rng m st u).1.scale_ = st.scale_ := by
    intro st u
    unfold StochasticDouble.component_jump
    split
    · rfl
    · simp only
      split <;> rfl
  induction ws with
  | nil => intro s; rfl
  | cons w ws ih => intro s; rw [List.foldl_cons, ih, hjump]

/-- One tuning window on an unobserved real-valued template node with zeroed
counters multiplies every scale entry by a factor between `0.92` and `1.12` and
leaves the node unobserved with zeroed counters. -/
theorem window_scale {K W L : Type} [LinearOrderedField K] {n : Nat} (rng : RngBase K W)
    (m : MCModelBase W (Fin n → K) L) (s : Stochastic (Fin n → K)) (ws : W × List W)
    (hobs : s.observed_ = false) (hz : ∀ j, s.accepted_ j = 0 ∧ s.rejected_ j = 0) :
    (Stochastic.window rng m s ws).observed_ = false ∧
    (∀ j, (Stochastic.window rng m s ws).accepted_ j = 0 ∧
      (Stochastic.window rng m s ws).rejected_ j = 0) ∧
    ∀ i, ∃ c : K, 23 / 25 ≤ c ∧ c ≤ 28 / 25 ∧
      (Stochastic.window rng m s ws).scale_ i = s.scale_ i * c := by
  obtain ⟨A, R, hAR⟩ := component_jumps_counters rng m (ws.1 :: ws.2) s 0 (fun _ => 0)
    (fun _ => 0) hobs (fun j => ⟨by simpa using (hz j).1, by simpa using (hz j).2, rfl⟩)
  have hobs' : ((ws.1 :: ws.2).foldl (fun st w => (Stochastic.component_jump rng m st w).1)
      s).observed_ = false := by
    have gen : ∀ (l : List W) (st : Stochastic (Fin n → K)), st.observed_ = false →
        (∀ j, ∃ a r : ℕ, st.accepted_ j = (a : K) ∧ st.rejected_ j = (r : K)) →
        (l.foldl (fun st w => (Stochastic.component_jump rng m st w).1) st).observed_
          = false := by
      intro l
      induction l with
      | nil => intro st h _; exact h
      | cons w l ih =>
        intro st h hc
        rw [List.foldl_cons]
        choose a r har using hc
        obtain ⟨A', R', ho, hA'⟩ := component_jump_counters rng m st w a r h har
        exact ih _ ho (fun j => ⟨A' j, R' j, (hA' j).1, (hA' j).2.1⟩)
    exact gen _ s hobs (fun j => ⟨0, 0, by simpa using (hz j).1, by simpa using (hz j).2⟩)
  have hsc := component_jumps_scale rng m (ws.1 :: ws.2) s
  refine ⟨(tune_counters_zero _ hobs').1, (tune_counters_zero _ hobs').2, fun i => ?_⟩
  have ht := (tune_real _ hobs' i).1
  have hk : 0 < A i + R i := by
    rw [(hAR i).2.2]
    simp
  have hb := ratio_mem_unit K (A i) (R i) hk
  refine ⟨tune_scale ((A i : K) / ((A i : K) + (R i : K))), ?_, ?_, ?_⟩
  · exact (tune_scale_bounds _ hb.1 hb.2).1
  · exact (tune_scale_bounds _ hb.1 hb.2).2
  · unfold Stochastic.window
    rw [ht, hsc, (hAR i).1, (hAR i).2.1]

/-- One tuning window on an unobserved scalar node with zeroed counters multiplies
the scale by a factor between `0.92` and `1.12` and leaves the node unobserved with
zeroed counters. -/
theorem window_double_scale {K W L : Type} [LinearOrderedField K] (rng : RngBase K W)
    (m : MCModelBase W K L) (s : Stochastic K) (ws : W × List W)
    (hobs : s.observed_ = false) (hz : s.accepted_ = 0 ∧ s.rejected_ = 0) :
    (StochasticDouble.window rng m s ws).observed_ = false ∧
    ((StochasticDouble.window rng m s ws).accepted_ = 0 ∧
      (StochasticDouble.window rng m s ws).rejected_ = 0) ∧
    ∃ c : K, 23 / 25 ≤ c ∧ c ≤ 28 / 25 ∧
      (StochasticDouble.window rng m s ws).scale_ = s.scale_ * c := by
  obtain ⟨a, r, ha, hr, hs⟩ := component_jumps_double_counters rng m (ws.1 :: ws.2) s 0 0
    hobs (by simpa using hz.1) (by simpa using hz.2)
  have hobs' : ((ws.1 :: ws.2).foldl (fun st w => (StochasticDouble.component_jump rng m st w).1)
      s).observed_ = false := by
    have hjump : ∀ (st : Stochastic K) (u : W),
        (StochasticDouble.component_jump rng m st u).1.observed_ = st.observed_ := by
      intro st u
      unfold StochasticDouble.component_jump
      split
      · rfl
      · simp only
        split <;> rfl
    have gen : ∀ (l : List W) (st : Stochastic K),
        (l.foldl (fun st w => (StochasticDouble.component_jump rng m st w).1) st).observed_
          = st.observed_ := by
      intro l
      induction l with
      | nil => intro st; rfl
      | cons w l ih => intro st; rw [List.foldl_cons, ih, hjump]
    rw [gen]
    exact hobs
  have hsc := component_jumps_double_scale rng m (ws.1 :: ws.2) s
  have hk : 0 < a + r := by
    rw [hs]
    simp
  have hb := ratio_mem_unit K a r hk
  refine ⟨(tune_double_counters_zero _ hobs').1, (tune_double_counters_zero _ hobs').2, ?_⟩
  refine ⟨tune_scale ((a : K) / ((a : K) + (r : K))), (tune_scale_bounds _ hb.1 hb.2).1,
    (tune_scale_bounds _ hb.1 hb.2).2, ?_⟩
  unfold StochasticDouble.window StochasticDouble.tune
  rw [if_neg (by rw [hobs']; exact Bool.false_ne_true)]
  simp only
  rw [hsc, ha, hr]

/-- After `t` tuning windows a real-valued template node that started unobserved
with zeroed counters and unit scale is still unobserved with zeroed counters, and
every scale entry lies between `0.92 ^ t` and `1.12 ^ t`. -/
theorem windows_scale {K W L : Type} [LinearOrderedField K] {n : Nat} (rng : RngBase K W)
    (m : MCModelBase W (Fin n → K) L) (rounds : List (W × List W)) :
    ∀ s : Stochastic (Fin n → K), s.observed_ = false →
      (∀ j, s.accepted_ j = 0 ∧ s.rejected_ j = 0) →
      (rounds.foldl (Stochastic.window rng m) s).observed_ = false ∧
      (∀ j, (rounds.foldl (Stochastic.window rng m) s).accepted_ j = 0 ∧
        (rounds.foldl (Stochastic.window rng m) s).rejected_ j = 0) ∧
      ∀ (lo hi : K) (j : Fin n), 0 ≤ lo → lo ≤ s.scale_ j → s.scale_ j ≤ hi →
        lo * (23 / 25) ^ rounds.length ≤ (rounds.foldl (Stochastic.window rng m) s).scale_ j ∧
        (rounds.foldl (Stochastic.window rng m) s).scale_ j ≤ hi * (28 / 25) ^ rounds.length := by
  induction rounds with
  | nil =>
    intro s hobs hz
    refine ⟨hobs, hz, fun lo hi j _ h1 h2 => ?_⟩
    simpa using ⟨h1, h2⟩
  | cons r rounds ih =>
    intro s hobs hz
    obtain ⟨ho, hz1, hsc⟩ := window_scale rng m s r hobs hz
    obtain ⟨ho2, hz2, hb⟩ := ih (Stochastic.window rng m s r) ho hz1
    rw [List.foldl_cons]
    refine ⟨ho2, hz2, fun lo hi j hlo h1 h2 => ?_⟩
    obtain ⟨c, hc1, hc2, hc⟩ := hsc j
    have hhi : 0 ≤ hi := le_trans (le_trans hlo h1) h2
    have hsj : 0 ≤ s.scale_ j := le_trans hlo h1
    have key := hb (lo * (23 / 25)) (hi * (28 / 25)) j (by positivity)
      (by rw [hc]; exact mul_le_mul h1 hc1 (by norm_num) hsj)
      (by rw [hc]; exact mul_le_mul h2 hc2 (by linarith) hhi)
    rw [List.length_cons, pow_succ, pow_succ]
    constructor
    · calc lo * ((23 / 25) ^ rounds.length * (23 / 25))
          = lo * (23 / 25) * (23 / 25) ^ rounds.length := by ring
        _ ≤ _ := key.1
    · calc _ ≤ hi * (28 / 25) * (28 / 25) ^ rounds.length := key.2
        _ = hi * ((28 / 25) ^ rounds.length * (28 / 25)) := by ring

/-- After `t` tuning windows a scalar node that started unobserved with zeroed
counters is still unobserved with zeroed counters, and its scale has been multiplied
by a factor between `0.92 ^ t` and `1.12 ^ t`. -/
theorem windows_double_scale {K W L : Type} [LinearOrderedField K] (rng : RngBase K W)
    (m : MCModelBase W K L) (rounds : List (W × List W)) :
    ∀ s : Stochastic K, s.observed_ = false → (s.accepted_ = 0 ∧ s.rejected_ = 0) →
      (rounds.foldl (StochasticDouble.window rng m) s).observed_ = false ∧
      ((rounds.foldl (StochasticDouble.window rng m) s).accepted_ = 0 ∧
        (rounds.foldl (StochasticDouble.window rng m) s).rejected_ = 0) ∧
      ∀ lo hi : K, 0 ≤ lo → lo ≤ s.scale_ → s.scale_ ≤ hi →
        lo * (23 / 25) ^ rounds.length ≤ (rounds.foldl (StochasticDouble.window rng m) s).scale_ ∧
        (rounds.foldl (StochasticDouble.window rng m) s).scale_ ≤ hi * (28 / 25) ^ rounds.length := by
  induction rounds with
  | nil =>
    intro s hobs hz
    refine ⟨hobs, hz, fun lo hi _ h1 h2 => ?_⟩
    simpa using ⟨h1, h2⟩
  | cons r rounds ih =>
    intro s hobs hz
    obtain ⟨ho, hz1, c, hc1, hc2, hc⟩ := window_double_scale rng m s r hobs hz
    obtain ⟨ho2, hz2, hb⟩ := ih (StochasticDouble.window rng m s r) ho hz1
    rw [List.foldl_cons]
    refine ⟨ho2, hz2, fun lo hi hlo h1 h2 => ?_⟩
    have hhi : 0 ≤ hi := le_trans (le_trans hlo h1) h2
    have hsj : 0 ≤ s.scale_ := le_trans hlo h1
    have key := hb (lo * (23 / 25)) (hi * (28 / 25)) (by positivity)
      (by rw [hc]; exact mul_le_mul h1 hc1 (by norm_num) hsj)
      (by rw [hc]; exact mul_le_mul h2 hc2 (by linarith) hhi)
    rw [List.length_cons, pow_succ, pow_succ]
    constructor
    · calc lo * ((23 / 25) ^ rounds.length * (23 / 25))
          = lo * (23 / 25) * (23 / 25) ^ rounds.length := by ring
        _ ≤ _ := key.1
    · calc _ ≤ hi * (28 / 25) * (28 / 25) ^ rounds.length := key.2
        _ = hi * ((28 / 25) ^ rounds.length * (28 / 25)) := by ring

/-- C29: for every acceptance ratio `a` in `[0, 1]`, `0.92 ≤ tune_scale a ≤ 1.12`;
and for an unobserved real-valued stochastic node (the template on a real vector
and `Stochastic<double>`), whose scale is `1` at construction, after `t` tuning
windows (each one at least one `component_jump` followed by `tune`) and any further
`component_jump` calls, under any verdicts of the model, every coordinate of `scale`
is strictly positive and lies in `[0.92 ^ t, 1.12 ^ t]`. -/
theorem scale_stays_positive {K W L : Type} [LinearOrderedField K] {n : Nat}
    (rng : RngBase K W) (m : MCModelBase W (Fin n → K) L) (md : MCModelBase W K L)
    (v : Fin n → K) (x : K) (rounds : List (W × List W)) (tail : List W) (a : K)
    (h0 : 0 ≤ a) (h1 : a ≤ 1) :
    (0.92 ≤ tune_scale a ∧ tune_scale a ≤ 1.12) ∧
    (∀ i,
      0 < (tail.foldl (fun st w => (Stochastic.component_jump rng m st w).1)
        (rounds.foldl (Stochastic.window rng m) (Stochastic.construct v false))).scale_ i ∧
      0.92 ^ rounds.length ≤ (tail.foldl (fun st w => (Stochastic.component_jump rng m st w).1)
        (rounds.foldl (Stochastic.window rng m) (Stochastic.construct v false))).scale_ i ∧
      (tail.foldl (fun st w => (Stochastic.component_jump rng m st w).1)
        (rounds.foldl (Stochastic.window rng m) (Stochastic.construct v false))).scale_ i
          ≤ 1.12 ^ rounds.length) ∧
    (0 < (tail.foldl (fun st w => (StochasticDouble.component_jump rng md st w).1)
        (rounds.foldl (StochasticDouble.window rng md)
          (StochasticDouble.construct x false))).scale_ ∧
      0.92 ^ rounds.length ≤ (tail.foldl
        (fun st w => (StochasticDouble.component_jump rng md st w).1)
        (rounds.foldl (StochasticDouble.window rng md)
          (StochasticDouble.construct x false))).scale_ ∧
      (tail.foldl (fun st w => (StochasticDouble.component_jump rng md st w).1)
        (rounds.foldl (StochasticDouble.window rng md)
          (StochasticDouble.construct x false))).scale_ ≤ 1.12 ^ rounds.length) := by
  have e1 : (0.92 : K) = 23 / 25 := by norm_num
  have e2 : (1.12 : K) = 28 / 25 := by norm_num
  rw [e1, e2]
  have hp : (0 : K) < (23 / 25) ^ rounds.length := by positivity
  refine ⟨tune_scale_bounds a h0 h1, fun i => ?_, ?_⟩
  · rw [component_jumps_scale]
    have hb := (windows_scale rng m rounds (Stochastic.construct v false) rfl
      (fun _ => ⟨rfl, rfl⟩)).2.2 1 1 i (by norm_num) (le_of_eq rfl) (le_of_eq rfl)
    rw [one_mul, one_mul] at hb
    exact ⟨lt_of_lt_of_le hp hb.1, hb.1, hb.2⟩
  · rw [component_jumps_double_scale]
    have hs : (StochasticDouble.construct x false : Stochastic K).scale_ = 1 := by
      show (1.0 : K) = 1
      norm_num
    have hb := (windows_double_scale rng md rounds (StochasticDouble.construct x false) rfl
      ⟨rfl, rfl⟩).2.2 1 1 (by norm_num) (le_of_eq hs.symm) (le_of_eq hs)
    rw [one_mul, one_mul] at hb
    exact ⟨lt_of_lt_of_le hp hb.1, hb.1, hb.2⟩

/-- C29 (witness): the demo program, a two-coordinate node and a scalar node, one
tuning window of two jumps followed by one more jump, and the ratio `1/2`. -/
theorem scale_stays_positive_witness :
    ((0 : ℚ) ≤ 1 / 2 ∧ (1 / 2 : ℚ) ≤ 1) ∧
    ((0.92 ≤ tune_scale (1 / 2 : ℚ) ∧ tune_scale (1 / 2 : ℚ) ≤ 1.12) ∧
    (∀ i,
      0 < ([2].foldl (fun st w => (Stochastic.component_jump Demo.rng
          (Demo.model (Fin 2 → ℚ)) st w).1)
        ([(0, [1])].foldl (Stochastic.window Demo.rng (Demo.model (Fin 2 → ℚ)))
          (Stochastic.construct ![(0 : ℚ), 0] false))).scale_ i ∧
      0.92 ^ [((0 : ℕ), [(1 : ℕ)])].length ≤ ([2].foldl
        (fun st w => (Stochastic.component_jump Demo.rng (Demo.model (Fin 2 → ℚ)) st w).1)
        ([(0, [1])].foldl (Stochastic.window Demo.rng (Demo.model (Fin 2 → ℚ)))
          (Stochastic.construct ![(0 : ℚ), 0] false))).scale_ i ∧
      ([2].foldl (fun st w => (Stochastic.component_jump Demo.rng
          (Demo.model (Fin 2 → ℚ)) st w).1)
        ([(0, [1])].foldl (Stochastic.window Demo.rng (Demo.model (Fin 2 → ℚ)))
          (Stochastic.construct ![(0 : ℚ), 0] false))).scale_ i
          ≤ 1.12 ^ [((0 : ℕ), [(1 : ℕ)])].length) ∧
    (0 < ([2].foldl (fun st w => (StochasticDouble.component_jump Demo.rng
          (Demo.model ℚ) st w).1)
        ([(0, [1])].foldl (StochasticDouble.window Demo.rng (Demo.model ℚ))
          (StochasticDouble.construct (0 : ℚ) false))).scale_ ∧
      0.92 ^ [((0 : ℕ), [(1 : ℕ)])].length ≤ ([2].foldl
        (fun st w => (StochasticDouble.component_jump Demo.rng (Demo.model ℚ) st w).1)
        ([(0, [1])].foldl (StochasticDouble.window Demo.rng (Demo.model ℚ))
          (StochasticDouble.construct (0 : ℚ) false))).scale_ ∧
      ([2].foldl (fun st w => (StochasticDouble.component_jump Demo.rng
          (Demo.model ℚ) st w).1)
        ([(0, [1])].foldl (StochasticDouble.window Demo.rng (Demo.model ℚ))
          (StochasticDouble.construct (0 : ℚ) false))).scale_
          ≤ 1.12 ^ [((0 : ℕ), [(1 : ℕ)])].length)) :=
  ⟨⟨by norm_num, by norm_num⟩,
    scale_stays_positive Demo.rng (Demo.model (Fin 2 → ℚ)) (Demo.model ℚ) ![(0 : ℚ), 0] 0
      [(0, [1])] [2] (1 / 2) (by norm_num) (by norm_num)⟩

end cppbugs
